import Mathlib

/-!
# Old-school VGA demo tool: audio ring buffer and cue sequencer

A shallow embedding of two parts of the program.

* `internal/music/player.go`: the ring buffer between the render goroutine
  (`Player.renderLoop`) and the audio consumer (`Player.Read`), with `Start`
  and `Stop`; `SyncState`, `SetVolume` and `FadeOut`.
* `internal/sync/sync.go`, `internal/sync/sequencer.go` and
  `internal/sync/cuefile.go`: cue resolution (`Timeline.ActiveCue`), the
  sequencer (`NewSequencer`, `InitFirst`, `Update`, `Draw`) and `LoadCueFile`
  from the parsed cue file on.

## How the goroutines are embedded

`ring`, `ringR`, `ringW` and `ringLen` are read and written only while `ringMu` is
held, by `Read` (lines 207-219) and by the ring write of `renderLoop` (lines
143-173), which gives the lock up only inside `ringCond.Wait()`.  An execution is
therefore a sequence of steps, each of them one stretch of code that runs with the
lock held or touches no ring state: `step` is that step function, `Action` what can
be scheduled next, and `run` a whole schedule.  The position of the render
goroutine between two steps is a `PC`.

`playing` is written by `Start` and `Stop` and read by `renderLoop` without a lock.
`Stop` can thus run between the test of the wait condition and the moment `Wait` has
put the goroutine on the wait list, and its broadcast is then not heard: that
schedule is the action `stopMissed`.  `Read` signals while it holds `ringMu`, so
its signal always finds a goroutine that waits.  `done` is closed when `renderLoop`
returns and is read by `Read` after it has unlocked.

## Conventions

Go `int` values are `Int`; loop counters that start at zero and only count up are
`Nat`.  The `uint64` statistics counters wrap modulo `2 ^ 64`.  An index that is out
of range makes a Go program panic: the embedded functions return `none` there, and
the theorems show that the result is `some`.  Loops are recursions on a bound that
is computed from the loop's own variables; running out of it also gives `none` (or
is caught by evaluating the loop test once more).  The float64 fields of the
sequencer are values of a type `F` with the operations of `Float64Ops`, and the
volume of the player is a value of a type `F` with the operations of `VolumeOps`.
The embedding assumes nothing about these operations; a theorem that needs laws of
the order or of the arithmetic takes them as a hypothesis (`Float64Ops.Ordered`,
`Float64Ops.FadeLaws`, `VolumeOps.Laws`).  The goroutine of `FadeOut` reads the
clock: the readings of `time.Since` are its input.

The definitions come first, the theorems after them.
-/

namespace Go

/-- Go slice read `l[i]`: `none` where Go panics. -/
def getAt {α : Type} (l : List α) (i : Int) : Option α :=
  if 0 ≤ i then l[i.toNat]? else none

/-- Go slice write `l[i] = v`: `none` where Go panics. -/
def setAt {α : Type} (l : List α) (i : Int) (v : α) : Option (List α) :=
  if 0 ≤ i ∧ i < (l.length : Int) then some (l.set i.toNat v) else none

end Go

namespace Music

open Go

/-! ## Data model (`internal/music`) -/

/-- A Go byte. -/
abbrev Byte := Fin 256

/-- The constant of player.go: `bufSize = 1 << 20`.  The functions below take the
capacity as a parameter `cap`, so that they can also be evaluated on a small ring;
the program runs them at `cap = bufSize`. -/
def bufSize : Nat := 1 <<< 20

/-- The integer fields of `FrameInfo` (xmp.go).  `BeatProgress`, a float derived from
`Frame` and `Speed`, is not read by any function embedded here and is left out. -/
structure FrameInfo where
  Order : Int
  Pattern : Int
  Row : Int
  NumRows : Int
  Frame : Int
  Speed : Int
  BPM : Int
  TimeMs : Int
  TotalTimeMs : Int
  LoopCount : Int
  ChannelVol : List Int
  NumChannels : Int
deriving DecidableEq, Repr

/-- The zero value of `FrameInfo`. -/
def FrameInfo.zero : FrameInfo :=
  { Order := 0, Pattern := 0, Row := 0, NumRows := 0, Frame := 0, Speed := 0, BPM := 0,
    TimeMs := 0, TotalTimeMs := 0, LoopCount := 0, ChannelVol := List.replicate 64 0,
    NumChannels := 0 }

/-- The decoder context.  The decoder itself is libxmp, an external library behind cgo;
here it is a script: the frames that later `PlayFrame` calls will render, the frame
rendered last, and a count of the `PlayFrame` calls made so far. -/
structure Context where
  frames : List (FrameInfo × List Byte)
  cur : FrameInfo × List Byte
  playFrameCalls : Nat
deriving DecidableEq, Repr

/-- `Context.PlayFrame`: renders the next frame; `false` when the module has ended. -/
def Context.PlayFrame (c : Context) : Bool × Context :=
  match c.frames with
  | [] => (false, { c with playFrameCalls := c.playFrameCalls + 1 })
  | f :: rest => (true, { frames := rest, cur := f, playFrameCalls := c.playFrameCalls + 1 })

/-- `Context.GetFrameInfo`. -/
def Context.GetFrameInfo (c : Context) : FrameInfo := c.cur.1

/-- `Context.GetBuffer`. -/
def Context.GetBuffer (c : Context) : List Byte := c.cur.2

/-- The fields of `Player` that the render loop, `Read`, `Start` and `Stop` use.  `done` is
`true` once the channel has been closed.  The locks, the condition variable, `debug`
and the volume fields are not state of these functions. -/
structure Player where
  ctx : Context
  info : FrameInfo
  ring : List Byte
  ringR : Int
  ringW : Int
  ringLen : Int
  playing : Bool
  done : Bool
  framesRendered : Nat
  bytesWritten : Nat
  bytesRead : Nat
deriving DecidableEq, Repr

/-- `NewPlayer` after the decoder has loaded the module: a zeroed ring of `cap` bytes,
both cursors and the occupancy at zero, not playing, `done` open. -/
def NewPlayer (cap : Nat) (ctx : Context) : Player :=
  { ctx := ctx, info := FrameInfo.zero, ring := List.replicate cap 0,
    ringR := 0, ringW := 0, ringLen := 0, playing := false, done := false,
    framesRendered := 0, bytesWritten := 0, bytesRead := 0 }

/-! ## `Player.Read` -/

/-- The error value `io.EOF`. -/
inductive Err where
  | EOF
deriving DecidableEq, Repr

/-- The dequeue loop of `Read` (player.go 209-214), entered with `n` bytes copied.  The
first argument bounds the number of iterations; `Read` passes `len(buf)`, and the
loop test is evaluated again when it reaches zero. -/
def readLoop (cap : Nat) : Nat → Player → List Byte → Nat → Option (Player × List Byte × Nat)
  | 0, p, buf, n => if n < buf.length ∧ 0 < p.ringLen then none else some (p, buf, n)
  | fuel + 1, p, buf, n =>
    if n < buf.length ∧ 0 < p.ringLen then
      match getAt p.ring p.ringR with
      | none => none
      | some b =>
        readLoop cap fuel
          { p with ringR := (p.ringR + 1).tmod (cap : Int), ringLen := p.ringLen - 1 }
          (buf.set n b) (n + 1)
    else some (p, buf, n)

/-- The part of `Read` that runs under `ringMu` (player.go 207-219): the dequeue loop and
the `bytesRead` counter.  Returns the player, the buffer and `n`. -/
def readLocked (cap : Nat) (p : Player) (buf : List Byte) : Option (Player × List Byte × Nat) :=
  match readLoop cap buf.length p buf 0 with
  | none => none
  | some (p1, buf1, n) =>
    some ({ p1 with bytesRead := (p1.bytesRead + n) % 2 ^ 64 }, buf1, n)

/-- The part of `Read` after the unlock (player.go 221-246), given whether the `select`
finds `done` closed: end of stream, a buffer of silence, silence padding, or a full
buffer.  Returns the buffer, the count and the error. -/
def readFinish (done : Bool) (buf : List Byte) (n : Nat) : List Byte × Nat × Option Err :=
  if n = 0 then
    if done then (buf, 0, some Err.EOF)
    else (List.replicate buf.length 0, buf.length, none)
  else if n < buf.length then
    (buf.take n ++ List.replicate (buf.length - n) 0, buf.length, none)
  else (buf, n, none)

/-- `Player.Read(buf)`: the player and the buffer afterwards, the returned count and the
returned error. -/
def Read (cap : Nat) (p : Player) (buf : List Byte) :
    Option (Player × List Byte × Nat × Option Err) :=
  match readLocked cap p buf with
  | none => none
  | some (p1, buf1, n) => some (p1, readFinish p1.done buf1 n)

/-! ## The ring write of `Player.renderLoop` -/

/-- The copy loop of a write pass (player.go 165-168), entered with loop variable `i`.
The first numeric argument bounds the number of iterations. -/
def copyLoop (cap : Nat) (buf : List Byte) (written toWrite : Int) :
    Nat → Nat → Player → Option Player
  | 0, i, p => if (i : Int) < toWrite then none else some p
  | fuel + 1, i, p =>
    if (i : Int) < toWrite then
      match getAt buf (written + (i : Int)) with
      | none => none
      | some b =>
        match setAt p.ring p.ringW b with
        | none => none
        | some ring1 =>
          copyLoop cap buf written toWrite fuel (i + 1)
            { p with ring := ring1, ringW := (p.ringW + 1).tmod (cap : Int) }
    else some p

/-- The number of bytes a write pass copies (player.go 159-163). -/
def passSize (cap : Nat) (p : Player) (buf : List Byte) (written : Int) : Int :=
  let space : Int := (cap : Int) - p.ringLen
  let toWrite : Int := (buf.length : Int) - written
  if toWrite > space then space else toWrite

/-- One write pass (player.go 158-171): copy as much of `buf[written:]` as fits, then
bump `ringLen`, `bytesWritten` and `written`.  Returns the player and `written`. -/
def writePass (cap : Nat) (p : Player) (buf : List Byte) (written : Int) : Option (Player × Int) :=
  let toWrite := passSize cap p buf written
  match copyLoop cap buf written toWrite toWrite.toNat 0 p with
  | none => none
  | some p1 =>
    some ({ p1 with ringLen := p1.ringLen + toWrite,
                    bytesWritten := (p1.bytesWritten + (toWrite % 2 ^ 64).toNat) % 2 ^ 64 },
          written + toWrite)

/-- How a stretch of the ring write ends. -/
inductive WriteOutcome where
  /-- The loop `for written < len(buf)` ran to its end; `ringMu` is unlocked (line 173). -/
  | finished
  /-- The goroutine is inside `ringCond.Wait()` (line 148); `ringMu` is released. -/
  | blocked
  /-- `playing` was false: unlock and return from `renderLoop` (lines 150-155). -/
  | interrupted
deriving DecidableEq, Repr

/-- The ring write from the test of the wait loop (player.go 147) to the next point where
the goroutine waits, returns, or leaves the write loop.  It is entered there both
after the first test of `written < len(buf)` and when `Wait` returns.  The first
argument bounds the number of passes; with none left the result is `none`.
Returns the player, the outcome and `written`. -/
def writeFrom (cap : Nat) :
    Nat → Player → List Byte → Int → Option (Player × WriteOutcome × Int)
  | 0, _, _, _ => none
  | fuel + 1, p, buf, written =>
    if p.ringLen ≥ (cap : Int) ∧ p.playing = true then some (p, WriteOutcome.blocked, written)
    else if p.playing = false then some (p, WriteOutcome.interrupted, written)
    else
      match writePass cap p buf written with
      | none => none
      | some (p1, written1) =>
        if written1 < (buf.length : Int) then writeFrom cap fuel p1 buf written1
        else some (p1, WriteOutcome.finished, written1)

/-! ## The render goroutine and its environment as a step function -/

/-- Where the render goroutine is. -/
inductive PC where
  /-- `Start` has not been called. -/
  | idle
  /-- At the test of `for p.playing` (line 112). -/
  | top
  /-- A non-empty frame buffer is in hand, `ringMu` is about to be taken (line 143). -/
  | locking (buf : List Byte)
  /-- Inside `ringCond.Wait()` with `written` bytes of `buf` deposited. -/
  | waiting (buf : List Byte) (written : Int)
  /-- `Wait` has been signalled; the goroutine will retake `ringMu` and test again. -/
  | woken (buf : List Byte) (written : Int)
  /-- `renderLoop` has returned and the deferred `close(p.done)` has run. -/
  | exited
deriving DecidableEq, Repr

/-- The player together with the position of its render goroutine. -/
structure Sys where
  p : Player
  pc : PC
deriving DecidableEq, Repr

/-- What one step moved through the ring: the bytes `Read` dequeued and the bytes the
write passes deposited. -/
structure Moved where
  deq : List Byte
  enq : List Byte
deriving DecidableEq, Repr

/-- The system after `NewPlayer`. -/
def Sys.init (cap : Nat) (ctx : Context) : Sys :=
  { p := NewPlayer cap ctx, pc := PC.idle }

/-- The ring write resumed with `written` bytes of `buf` deposited, up to its next
suspension point, with the bytes it deposited. -/
def resumeWrite (cap : Nat) (p : Player) (buf : List Byte) (written : Int) : Option (Sys × Moved) :=
  match writeFrom cap (buf.length + 1) p buf written with
  | none => none
  | some (p1, outcome, written1) =>
    let enq := (buf.drop written.toNat).take (written1 - written).toNat
    match outcome with
    | WriteOutcome.finished => some ({ p := p1, pc := PC.top }, { deq := [], enq := enq })
    | WriteOutcome.blocked =>
      some ({ p := p1, pc := PC.waiting buf written1 }, { deq := [], enq := enq })
    | WriteOutcome.interrupted =>
      some ({ p := { p1 with done := true }, pc := PC.exited }, { deq := [], enq := enq })

/-- One stretch of `renderLoop`, from where the goroutine is to the next point where it
can be overtaken.  From `top`: the loop test, `PlayFrame`, the frame counter, the
snapshot and `GetBuffer` (lines 112-140).  From `locking` and `woken`: the ring
write.  A goroutine that is not started, waiting or gone does nothing. -/
def renderStep (cap : Nat) (s : Sys) : Option (Sys × Moved) :=
  match s.pc with
  | PC.idle => some (s, { deq := [], enq := [] })
  | PC.waiting _ _ => some (s, { deq := [], enq := [] })
  | PC.exited => some (s, { deq := [], enq := [] })
  | PC.top =>
    if s.p.playing = true then
      match s.p.ctx.PlayFrame with
      | (false, ctx1) =>
        some ({ p := { s.p with ctx := ctx1, done := true }, pc := PC.exited },
              { deq := [], enq := [] })
      | (true, ctx1) =>
        let p1 : Player :=
          { s.p with ctx := ctx1, framesRendered := (s.p.framesRendered + 1) % 2 ^ 64,
                     info := ctx1.GetFrameInfo }
        let buf := ctx1.GetBuffer
        if buf.length = 0 then some ({ p := p1, pc := PC.top }, { deq := [], enq := [] })
        else some ({ p := p1, pc := PC.locking buf }, { deq := [], enq := [] })
    else some ({ p := { s.p with done := true }, pc := PC.exited }, { deq := [], enq := [] })
  | PC.locking buf =>
    if (0 : Int) < (buf.length : Int) then resumeWrite cap s.p buf 0
    else some ({ s with pc := PC.top }, { deq := [], enq := [] })
  | PC.woken buf written => resumeWrite cap s.p buf written

/-- `ringCond.Signal()` and `ringCond.Broadcast()` with a single possible waiter. -/
def wake (pc : PC) : PC :=
  match pc with
  | PC.waiting buf written => PC.woken buf written
  | other => other

/-- `Player.Start`: sets `playing`; the render goroutine it launches is the `pc` of `Sys`. -/
def Start (p : Player) : Player := { p with playing := true }

/-- `Player.Stop`, its effect on the ring state: clears `playing`.  The broadcast is in
`step`; waiting for `done` and releasing the decoder come after and are left out. -/
def Stop (p : Player) : Player := { p with playing := false }

/-- What the environment and the render goroutine can do. -/
inductive Action where
  /-- `Start()`.  The program calls it once; a second call would launch a second render
  goroutine, which this model of one producer leaves out: it does nothing here. -/
  | start
  /-- The render goroutine runs one stretch. -/
  | render
  /-- The consumer calls `Read` with this buffer. -/
  | read (buf : List Byte)
  /-- `Stop()` clears `playing` and broadcasts. -/
  | stop
  /-- `Stop()` whose broadcast nobody hears.  `Stop` does not take `ringMu`, so it can run
  after the render goroutine has tested the wait condition and before `Wait` has put
  it on the wait list: the flag is cleared and the goroutine goes on to wait. -/
  | stopMissed
deriving DecidableEq, Repr

/-- The action is a `Stop`. -/
def Action.isStop : Action → Bool
  | Action.stop => true
  | Action.stopMissed => true
  | _ => false

/-- One step of the system.  Of `Read` the step is the part under `ringMu`, which
signals the condition variable when it dequeued something; what follows the unlock
(`readFinish`) only fills the caller's buffer.  Of `Stop` the step is the flag and
the broadcast, which wakes a goroutine that is on the wait list. -/
def step (cap : Nat) (s : Sys) : Action → Option (Sys × Moved)
  | Action.start =>
    match s.pc with
    | PC.idle => some ({ p := Start s.p, pc := PC.top }, { deq := [], enq := [] })
    | _ => some (s, { deq := [], enq := [] })
  | Action.render => renderStep cap s
  | Action.read buf =>
    match readLocked cap s.p buf with
    | none => none
    | some (p1, buf1, n) =>
      some ({ p := p1, pc := if 0 < n then wake s.pc else s.pc },
            { deq := buf1.take n, enq := [] })
  | Action.stop =>
    some ({ p := Stop s.p, pc := wake s.pc }, { deq := [], enq := [] })
  | Action.stopMissed =>
    some ({ p := Stop s.p, pc := s.pc }, { deq := [], enq := [] })

/-- A run: the final state, all bytes dequeued and all bytes deposited, in order. -/
def run (cap : Nat) : Sys → List Action → Option (Sys × Moved)
  | s, [] => some (s, { deq := [], enq := [] })
  | s, a :: rest =>
    match step cap s a with
    | none => none
    | some (s1, m1) =>
      match run cap s1 rest with
      | none => none
      | some (s2, m2) => some (s2, { deq := m1.deq ++ m2.deq, enq := m1.enq ++ m2.enq })

/-- The `len` cells of a ring of `cap` cells that start at cell `r`, wrapping around. -/
def ringSlice (cap : Nat) (ring : List Byte) (r len : Nat) : List Byte :=
  (List.range len).map fun i => ring.getD ((r + i) % cap) 0

/-- The queued bytes, oldest first: the `ringLen` ring cells starting at `ringR`. -/
def contents (cap : Nat) (p : Player) : List Byte :=
  ringSlice cap p.ring p.ringR.toNat p.ringLen.toNat

/-- The ring invariant: the ring has `cap` cells, the occupancy is between 0 and `cap`,
both cursors are indices of the ring, and the write cursor is the read cursor
advanced by the occupancy, modulo `cap`. -/
def RingInv (cap : Nat) (p : Player) : Prop :=
  p.ring.length = cap ∧ 0 ≤ p.ringLen ∧ p.ringLen ≤ (cap : Int) ∧
  0 ≤ p.ringR ∧ p.ringR < (cap : Int) ∧ 0 ≤ p.ringW ∧ p.ringW < (cap : Int) ∧
  p.ringW = (p.ringR + p.ringLen) % (cap : Int)

/-- `Player.SyncState`: the snapshot in the slot guarded by `mu`. -/
def SyncState (p : Player) : FrameInfo := p.info

/-! ## Volume and `Player.FadeOut` -/

/-- The float64 operations that `SetVolume` and `FadeOut` use; `ofDuration` is the
conversion `float64(d)` of a `time.Duration`, a number of nanoseconds.  Like
`Sync.Float64Ops` they are a parameter about which the embedding assumes nothing. -/
structure VolumeOps (F : Type) where
  zero : F
  one : F
  sub : F → F → F
  mul : F → F → F
  div : F → F → F
  lt : F → F → Bool
  le : F → F → Bool
  ofDuration : Int → F

/-- `Player.SetVolume(v)`: the value it stores in `p.volume`. -/
def SetVolume {F : Type} (ops : VolumeOps F) (v : F) : F :=
  let v1 := if ops.lt v ops.zero = true then ops.zero else v
  if ops.lt ops.one v1 = true then ops.one else v1

/-- What the goroutine of `FadeOut` has done so far: the volume of the player, the values
it stored with `SetVolume` in order, how often it closed `done`, and whether it is
still in its loop. -/
structure FadeRun (F : Type) where
  volume : F
  sets : List F
  closes : Nat
  running : Bool

/-- The loop of `FadeOut` (player.go 316-326).  The list holds the values that the
successive calls of `time.Since(startTime)` return; when it is used up the goroutine
waits for the next tick. -/
def fadeLoop {F : Type} (ops : VolumeOps F) (startVol : F) (duration : Int) :
    List Int → FadeRun F → FadeRun F
  | [], r => r
  | elapsed :: rest, r =>
    if elapsed ≥ duration then
      { volume := SetVolume ops ops.zero, sets := r.sets ++ [SetVolume ops ops.zero],
        closes := r.closes + 1, running := false }
    else
      let t := ops.sub ops.one (ops.div (ops.ofDuration elapsed) (ops.ofDuration duration))
      let v := SetVolume ops (ops.mul startVol t)
      fadeLoop ops startVol duration rest { r with volume := v, sets := r.sets ++ [v] }

/-- The goroutine that `Player.FadeOut(duration)` starts, on a player whose volume is
`volume`, given the clock readings it gets. -/
def FadeOut {F : Type} (ops : VolumeOps F) (volume : F) (duration : Int) (samples : List Int) :
    FadeRun F :=
  let startVol := volume
  if ops.le startVol ops.zero = true then
    { volume := volume, sets := [], closes := 1, running := false }
  else
    fadeLoop ops startVol duration samples
      { volume := volume, sets := [], closes := 0, running := true }

end Music

namespace Sync

open Go
open Music (FrameInfo)

/-! ## Data model (`internal/sync`) -/

/-- The float64 operations that the sequencer uses.  They are a parameter of the
embedding, which assumes nothing about them: `lt a b` is `a < b`, `le a b` is `a <= b`,
`half` is the constant 0.5. -/
structure Float64Ops (F : Type) where
  zero : F
  one : F
  half : F
  add : F → F → F
  div : F → F → F
  lt : F → F → Bool
  le : F → F → Bool

/-- The operations on the rationals, for evaluating the embedding. -/
def ratOps : Float64Ops ℚ :=
  { zero := 0, one := 1, half := 1 / 2, add := fun a b => a + b, div := fun a b => a / b,
    lt := fun a b => decide (a < b), le := fun a b => decide (a ≤ b) }

/-- `Position`: a point in the tracker timeline; a `Row` of -1 means any row. -/
structure Position where
  Order : Int
  Row : Int
deriving DecidableEq, Repr

/-- `Cue`: a trigger point of the timeline. -/
structure Cue (F : Type) where
  Pos : Position
  EffectIdx : Int
  Transition : String
  FadeDur : F

/-- `Timeline`: the list of cues. -/
structure Timeline (F : Type) where
  Cues : List (Cue F)

/-- `NewTimeline`. -/
def NewTimeline {F : Type} (cues : List (Cue F)) : Timeline F := { Cues := cues }

/-- The test of `ActiveCue` (sync.go 34-35) for one cue. -/
def cueMatches {F : Type} (info : FrameInfo) (cue : Cue F) : Bool :=
  decide (info.Order > cue.Pos.Order ∨
    (info.Order = cue.Pos.Order ∧ info.Row ≥ cue.Pos.Row))

/-- The loop of `ActiveCue` (sync.go 33-38) over the cues from index `i` on. -/
def activeCueLoop {F : Type} (info : FrameInfo) : List (Cue F) → Nat → Int → Int
  | [], _, best => best
  | cue :: rest, i, best =>
    activeCueLoop info rest (i + 1) (if cueMatches info cue = true then (i : Int) else best)

/-- `Timeline.ActiveCue`: the index of the matching cue, or -1. -/
def Timeline.ActiveCue {F : Type} (t : Timeline F) (info : FrameInfo) : Int :=
  activeCueLoop info t.Cues 0 (-1)

/-- A call the sequencer makes on the effect at an index of its effects list. -/
inductive EffectCall where
  | Init (idx : Int)
  | Update (idx : Int)
  | Draw (idx : Int)
deriving DecidableEq, Repr

/-- `Sequencer`.  The effects are opaque values of a type `E`; `initialized` is the Go map
from effect index to bool, absent keys reading false. -/
structure Sequencer (F E : Type) where
  effects : List E
  timeline : Timeline F
  currentIdx : Int
  activeIdx : Int
  prevIdx : Int
  fadeAlpha : F
  fadeDur : F
  fadeTimer : F
  fading : Bool
  initialized : Int → Bool

/-- `NewSequencer`. -/
def NewSequencer {F E : Type} (ops : Float64Ops F) (efx : List E) (tl : Timeline F) :
    Sequencer F E :=
  { effects := efx, timeline := tl, currentIdx := -1, activeIdx := 0, prevIdx := -1,
    fadeAlpha := ops.one, fadeDur := ops.zero, fadeTimer := ops.zero, fading := false,
    initialized := fun _ => false }

/-- The cue check of `Update` (sequencer.go 41-70): the state afterwards and the effect
calls made, in order. -/
def Sequencer.cueChange {F E : Type} (ops : Float64Ops F) (s : Sequencer F E) (info : FrameInfo) :
    Option (Sequencer F E × List EffectCall) :=
  let cueIdx := s.timeline.ActiveCue info
  if cueIdx ≥ 0 ∧ cueIdx ≠ s.currentIdx then
    match getAt s.timeline.Cues cueIdx with
    | none => none
    | some cue =>
      let s1 : Sequencer F E := { s with currentIdx := cueIdx }
      let newEffect := cue.EffectIdx
      if newEffect ≠ s1.activeIdx ∧ newEffect ≥ 0 ∧ newEffect < (s1.effects.length : Int) then
        let first : Sequencer F E × List EffectCall :=
          if s1.initialized newEffect = false then
            ({ s1 with initialized := Function.update s1.initialized newEffect true },
             [EffectCall.Init newEffect])
          else (s1, [])
        let s2 := first.1
        if cue.Transition = "fade" ∨ cue.Transition = "crossfade" then
          some ({ s2 with prevIdx := s2.activeIdx, activeIdx := newEffect, fadeDur := cue.FadeDur,
                          fadeTimer := ops.zero, fadeAlpha := ops.zero, fading := true },
                first.2)
        else
          some ({ s2 with activeIdx := newEffect, fading := false, fadeAlpha := ops.one },
                first.2 ++ [EffectCall.Init newEffect])
      else some (s1, [])
  else some (s, [])

/-- The fade advance of `Update` (sequencer.go 73-84). -/
def Sequencer.advanceFade {F E : Type} (ops : Float64Ops F) (s : Sequencer F E) (dt : F) :
    Sequencer F E :=
  if s.fading = true then
    let s1 : Sequencer F E := { s with fadeTimer := ops.add s.fadeTimer dt }
    let s2 : Sequencer F E :=
      if ops.lt ops.zero s1.fadeDur = true then
        { s1 with fadeAlpha := ops.div s1.fadeTimer s1.fadeDur }
      else { s1 with fadeAlpha := ops.one }
    if ops.le ops.one s2.fadeAlpha = true then { s2 with fadeAlpha := ops.one, fading := false }
    else s2
  else s

/-- The effect updates of `Update` (sequencer.go 87-92). -/
def Sequencer.updateEffects {F E : Type} (s : Sequencer F E) : List EffectCall :=
  (if s.activeIdx ≥ 0 ∧ s.activeIdx < (s.effects.length : Int)
    then [EffectCall.Update s.activeIdx] else []) ++
  (if s.fading = true ∧ s.prevIdx ≥ 0 ∧ s.prevIdx < (s.effects.length : Int)
    then [EffectCall.Update s.prevIdx] else [])

/-- `Sequencer.Update(dt, info, fb)`: the state afterwards and the calls made on the
effects, in order. -/
def Sequencer.Update {F E : Type} (ops : Float64Ops F) (s : Sequencer F E) (dt : F)
    (info : FrameInfo) : Option (Sequencer F E × List EffectCall) :=
  match s.cueChange ops info with
  | none => none
  | some (s1, calls) =>
    let s2 := s1.advanceFade ops dt
    some (s2, calls ++ s2.updateEffects)

/-- `Sequencer.InitFirst(fb)`: the state afterwards and the calls made on the effects.  The
access `s.timeline.Cues[0]` is behind a length test; `s.effects[idx]` is not. -/
def Sequencer.InitFirst {F E : Type} (s : Sequencer F E) :
    Option (Sequencer F E × List EffectCall) :=
  if s.effects.length > 0 then
    let first : Option Int :=
      if s.timeline.Cues.length > 0 then
        match getAt s.timeline.Cues 0 with
        | none => none
        | some cue => some cue.EffectIdx
      else some 0
    match first with
    | none => none
    | some idx =>
      let s1 : Sequencer F E := { s with activeIdx := idx }
      match getAt s1.effects idx with
      | none => none
      | some _ =>
        some ({ s1 with initialized := Function.update s1.initialized idx true },
              [EffectCall.Init idx])
  else some (s, [])

/-- `vga.Framebuffer`: the array of `n` palette indices (`n` is `vga.Size`) and the
palette, a value of a type `P`.  The conversion buffer `rgba` is left out. -/
structure Framebuffer (n : Nat) (P : Type) where
  Pixels : Fin n → Music.Byte
  Palette : P

/-- The zero value of `Framebuffer`, with the zero value `pal` of the palette. -/
def Framebuffer.zero {n : Nat} {P : Type} (pal : P) : Framebuffer n P :=
  { Pixels := fun _ => 0, Palette := pal }

/-- The blend loop of `Draw` (sequencer.go 117-123) over the pixel indices in `idxs`. -/
def blendLoop {n : Nat} (low : Bool) (prev : Fin n → Music.Byte) :
    List (Fin n) → (Fin n → Music.Byte) → Fin n → Music.Byte
  | [], px => px
  | i :: rest, px => blendLoop low prev rest (if low = true then Function.update px i (prev i) else px)

/-- `Sequencer.Draw(fb)`: the framebuffer afterwards and the calls made on the effects.
The `Draw` method of an effect may change the effect and draw random numbers, so
two calls need not do the same: what the call number `k` (from 0) of this
`Sequencer.Draw`, made on the effect at index `i`, does to the framebuffer it is
given is the parameter `paint k i`.  `pal0` is the zero value of the palette type. -/
def Sequencer.Draw {F E P : Type} {n : Nat} (ops : Float64Ops F) (pal0 : P)
    (paint : Nat → Int → Framebuffer n P → Framebuffer n P) (s : Sequencer F E)
    (fb : Framebuffer n P) : Framebuffer n P × List EffectCall :=
  if s.fading = false then
    if s.activeIdx ≥ 0 ∧ s.activeIdx < (s.effects.length : Int) then
      (paint 0 s.activeIdx fb, [EffectCall.Draw s.activeIdx])
    else (fb, [])
  else
    let prevFB0 : Framebuffer n P := { Framebuffer.zero pal0 with Palette := fb.Palette }
    let prev : Framebuffer n P × List EffectCall :=
      if s.prevIdx ≥ 0 ∧ s.prevIdx < (s.effects.length : Int) then
        (paint 0 s.prevIdx prevFB0, [EffectCall.Draw s.prevIdx])
      else (prevFB0, [])
    let cur : Framebuffer n P × List EffectCall :=
      if s.activeIdx ≥ 0 ∧ s.activeIdx < (s.effects.length : Int) then
        (paint prev.2.length s.activeIdx fb, [EffectCall.Draw s.activeIdx])
      else (fb, [])
    let alpha := s.fadeAlpha
    ({ cur.1 with
        Pixels := blendLoop (ops.lt alpha ops.half) prev.1.Pixels (List.finRange n) cur.1.Pixels },
     prev.2 ++ cur.2)

/-- A call on the sequencer from the host loop.  A `Draw` call comes with what the
effects paint at that moment and with the framebuffer it is given. -/
inductive Call (F P : Type) (n : Nat) where
  | InitFirst
  | Update (dt : F) (info : FrameInfo)
  | Draw (paint : Nat → Int → Framebuffer n P → Framebuffer n P) (fb : Framebuffer n P)

/-- One call on the sequencer: the state afterwards and the calls made on the effects. -/
def Sequencer.perform {F E P : Type} {n : Nat} (ops : Float64Ops F) (pal0 : P)
    (s : Sequencer F E) : Call F P n → Option (Sequencer F E × List EffectCall)
  | Call.InitFirst => s.InitFirst
  | Call.Update dt info => s.Update ops dt info
  | Call.Draw paint fb => some (s, (s.Draw ops pal0 paint fb).2)

/-- A sequence of calls on the sequencer: the final state and all calls made on the
effects, in order. -/
def Sequencer.performAll {F E P : Type} {n : Nat} (ops : Float64Ops F) (pal0 : P) :
    Sequencer F E → List (Call F P n) → Option (Sequencer F E × List EffectCall)
  | s, [] => some (s, [])
  | s, c :: rest =>
    match s.perform ops pal0 c with
    | none => none
    | some (s1, calls1) =>
      match Sequencer.performAll ops pal0 s1 rest with
      | none => none
      | some (s2, calls2) => some (s2, calls1 ++ calls2)

/-- A sequence of `Update` calls: the final state and all calls made on the effects. -/
def Sequencer.updates {F E : Type} (ops : Float64Ops F) :
    Sequencer F E → List (F × FrameInfo) → Option (Sequencer F E × List EffectCall)
  | s, [] => some (s, [])
  | s, (dt, info) :: rest =>
    match s.Update ops dt info with
    | none => none
    | some (s1, calls1) =>
      match Sequencer.updates ops s1 rest with
      | none => none
      | some (s2, calls2) => some (s2, calls1 ++ calls2)

/-- The index of the effects list that a call goes to. -/
def EffectCall.idx : EffectCall → Int
  | EffectCall.Init i => i
  | EffectCall.Update i => i
  | EffectCall.Draw i => i

/-! ## `LoadCueFile` (`internal/sync/cuefile.go`), from the parsed file on -/

/-- `CueDef`: a cue record of the cue file.  A field that the JSON leaves out has the zero
value. -/
structure CueDef (F : Type) where
  Order : Int
  Row : Int
  Effect : String
  Transition : String
  FadeDur : F

/-- `CueFile`: the parsed cue file. -/
structure CueFile (F : Type) where
  Effects : List String
  Cues : List (CueDef F)

/-- The Go map `effectMap`, from effect name to index. -/
abbrev EffectMap := String → Option Int

/-- The loop that fills `effectMap` (cuefile.go 34-36) with the names from index `i` on. -/
def fillEffectMap : List String → Nat → EffectMap → EffectMap
  | [], _, m => m
  | name :: rest, i, m =>
    fillEffectMap rest (i + 1) (fun k => if k = name then some (i : Int) else m k)

/-- The error of the name resolution: `unknown effect: <name>`. -/
inductive LoadError where
  | unknownEffect (name : String)
deriving DecidableEq, Repr

/-- The body of the loop over the cue records (cuefile.go 40-57) for one record. -/
def loadCue {F : Type} (ops : Float64Ops F) (effectMap : EffectMap) (cd : CueDef F) :
    Except LoadError (Cue F) :=
  match effectMap cd.Effect with
  | none => Except.error (LoadError.unknownEffect cd.Effect)
  | some idx =>
    let transition := if cd.Transition = "" then "cut" else cd.Transition
    let fadeDur := if ops.le cd.FadeDur ops.zero = true then ops.one else cd.FadeDur
    Except.ok { Pos := { Order := cd.Order, Row := cd.Row }, EffectIdx := idx,
                Transition := transition, FadeDur := fadeDur }

/-- The loop over the cue records (cuefile.go 38-58): it returns at the first error. -/
def loadCues {F : Type} (ops : Float64Ops F) (effectMap : EffectMap) :
    List (CueDef F) → Except LoadError (List (Cue F))
  | [] => Except.ok []
  | cd :: rest =>
    match loadCue ops effectMap cd with
    | Except.error e => Except.error e
    | Except.ok cue =>
      match loadCues ops effectMap rest with
      | Except.error e => Except.error e
      | Except.ok cues => Except.ok (cue :: cues)

/-- `LoadCueFile` after the file has been read and parsed (cuefile.go 33-60). -/
def LoadCueFile {F : Type} (ops : Float64Ops F) (cf : CueFile F) : Except LoadError (Timeline F) :=
  match loadCues ops (fillEffectMap cf.Effects 0 (fun _ => none)) cf.Cues with
  | Except.error e => Except.error e
  | Except.ok cues => Except.ok (NewTimeline cues)

end Sync

namespace Music

/-! ## Auxiliary notions for stating the properties of the ring -/

/-- The outcome of a stretch of the ring write, from the flag and the final `written`. -/
def outcomeOf (playing : Bool) (w1 len : Nat) : WriteOutcome :=
  if playing = false then WriteOutcome.interrupted
  else if w1 < len then WriteOutcome.blocked else WriteOutcome.finished

/-- A waiting or woken render goroutine has bytes left to write. -/
def PC.WF : PC → Prop
  | PC.waiting buf written => 0 ≤ written ∧ written < (buf.length : Int)
  | PC.woken buf written => 0 ≤ written ∧ written < (buf.length : Int)
  | _ => True

/-- The invariant of the system: the ring invariant, and a well-formed position. -/
def SysInv (cap : Nat) (s : Sys) : Prop :=
  RingInv cap s.p ∧ s.pc.WF

/-- The position of the render goroutine after a stretch of the ring write. -/
def pcAfter (playing : Bool) (buf : List Byte) (w1 : Nat) : PC :=
  if playing = false then PC.exited
  else if w1 < buf.length then PC.waiting buf (w1 : Int) else PC.top

/-- The render goroutine is inside the ring write of `buf` with `w` bytes deposited. -/
def Pending (buf : List Byte) (s : Sys) (w : Nat) : Prop :=
  (s.pc = PC.waiting buf (w : Int) ∨ s.pc = PC.woken buf (w : Int)) ∧ w < buf.length

instance (cap : Nat) (p : Player) : Decidable (RingInv cap p) := by
  unfold RingInv
  infer_instance

end Music

namespace Sync

open Go
open Music (FrameInfo)

/-! ## Notions of the specification of cue resolution -/

/-- Lexicographic order on (order, row): `a` is not later than `b`. -/
def Position.le (a b : Position) : Prop :=
  a.Order < b.Order ∨ (a.Order = b.Order ∧ a.Row ≤ b.Row)

/-- Lexicographic order on (order, row): `a` is strictly earlier than `b`. -/
def Position.lt (a b : Position) : Prop :=
  a.Order < b.Order ∨ (a.Order = b.Order ∧ a.Row < b.Row)

/-- The position of a snapshot. -/
def snapshotPos (info : FrameInfo) : Position :=
  { Order := info.Order, Row := info.Row }

/-- The specification's test: the threshold of the cue is at or before the position of the
snapshot, lexicographically on (order, row), the row comparison being skipped when
the row of the cue is the wildcard -1. -/
def reached {F : Type} (cue : Cue F) (info : FrameInfo) : Prop :=
  cue.Pos.Order < info.Order ∨
    (cue.Pos.Order = info.Order ∧ (cue.Pos.Row = -1 ∨ cue.Pos.Row ≤ info.Row))

/-- The specification of cue resolution: `k` is -1 exactly when no cue is reached, and
otherwise `k` is the index of a reached cue whose threshold is latest among the
reached cues. -/
def LatestReached {F : Type} (t : Timeline F) (info : FrameInfo) (k : Int) : Prop :=
  (k = -1 ↔ ∀ c ∈ t.Cues, ¬ reached c info) ∧
  (k ≠ -1 → ∃ c, getAt t.Cues k = some c ∧ reached c info ∧
    ∀ d ∈ t.Cues, reached d info → d.Pos.le c.Pos)

/-- The cue list is in non-decreasing order of threshold. -/
def Timeline.Sorted {F : Type} (t : Timeline F) : Prop :=
  t.Cues.Pairwise fun a b => a.Pos.le b.Pos

instance (a b : Position) : Decidable (a.le b) := by
  unfold Position.le
  infer_instance

instance (a b : Position) : Decidable (a.lt b) := by
  unfold Position.lt
  infer_instance

instance {F : Type} (t : Timeline F) : Decidable t.Sorted := by
  unfold Timeline.Sorted
  infer_instance

/-! ## Notions for stating the properties of the sequencer -/

/-- Laws of the float64 comparisons on values that are not NaN: `le` is reflexive and
transitive, `lt` is the negation of the converse of `le` and implies `le`, and
0 < 1.  Nothing is said about equality, so that +0 and -0 need not be told apart. -/
structure Float64Ops.Ordered {F : Type} (ops : Float64Ops F) : Prop where
  le_refl : ∀ a, ops.le a a = true
  le_trans : ∀ a b c, ops.le a b = true → ops.le b c = true → ops.le a c = true
  le_of_lt : ∀ a b, ops.lt a b = true → ops.le a b = true
  lt_iff_not_le : ∀ a b, ops.lt a b = true ↔ ops.le b a = false
  zero_lt_one : ops.lt ops.zero ops.one = true

/-- Laws of the float64 addition and of the division by a duration `D` on values that
are not negative: adding a value that is not negative does not make a value
smaller, the division by `D` is monotone and keeps zero at or below the quotient,
and the quotient reaches 1 exactly when the dividend reaches `D`.  Correctly rounded
arithmetic has them for every finite `D > 0`. -/
structure Float64Ops.FadeLaws {F : Type} (ops : Float64Ops F) (D : F) : Prop where
  add_mono : ∀ t dt, ops.le ops.zero t = true → ops.le ops.zero dt = true →
    ops.le t (ops.add t dt) = true
  div_mono : ∀ a b, ops.le ops.zero a = true → ops.le a b = true →
    ops.le (ops.div a D) (ops.div b D) = true
  div_nonneg : ∀ a, ops.le ops.zero a = true → ops.le ops.zero (ops.div a D) = true
  one_le_div : ∀ a, ops.le ops.zero a = true →
    (ops.le ops.one (ops.div a D) = true ↔ ops.le D a = true)

/-- The delta times of a sequence of updates, added up the way `fadeTimer` adds them. -/
def accumulated {F : Type} (ops : Float64Ops F) (dts : List F) : F :=
  dts.foldl ops.add ops.zero

/-- No `Update` of the sequence triggers a transition: each leaves the active effect as
it was. -/
def Sequencer.steady {F E : Type} (ops : Float64Ops F) :
    Sequencer F E → List (F × FrameInfo) → Prop
  | _, [] => True
  | s, (dt, info) :: rest =>
    match s.Update ops dt info with
    | none => False
    | some (s1, _) => s1.activeIdx = s.activeIdx ∧ Sequencer.steady ops s1 rest

/-- This `Update` is a cut transition that makes the effect `e` active: afterwards `e` is
the active effect, before it was not, and the resolved cue is not a fade or a
crossfade. -/
def Sequencer.cutsTo {F E : Type} (ops : Float64Ops F) (s : Sequencer F E) (dt : F)
    (info : FrameInfo) (e : Int) : Bool :=
  match s.Update ops dt info, getAt s.timeline.Cues (s.timeline.ActiveCue info) with
  | some (s1, _), some cue =>
    decide (s1.activeIdx = e ∧ s.activeIdx ≠ e ∧
      ¬ (cue.Transition = "fade" ∨ cue.Transition = "crossfade"))
  | _, _ => false

/-- The number of cut transitions that make the effect `e` active in a sequence of
`Update` calls. -/
def Sequencer.cutCount {F E : Type} (ops : Float64Ops F) (e : Int) :
    Sequencer F E → List (F × FrameInfo) → Nat
  | _, [] => 0
  | s, (dt, info) :: rest =>
    (if s.cutsTo ops dt info e = true then 1 else 0) +
      match s.Update ops dt info with
      | none => 0
      | some (s1, _) => Sequencer.cutCount ops e s1 rest

/-- The effect that `InitFirst` starts on: the `EffectIdx` of the first cue in the list,
or 0 when the timeline has no cues. -/
def Timeline.firstEffect {F : Type} (t : Timeline F) : Int :=
  match t.Cues with
  | [] => 0
  | c :: _ => c.EffectIdx

/-- The state of a fade of duration `D` after delta times that add up to `acc`: either
the fade is in progress, `fadeTimer` is `acc`, `fadeAlpha` is `acc / D` and `acc` is
below `D`; or the fade has ended with `fadeAlpha` 1.0 and `acc` has reached `D`. -/
def FadeState {F E : Type} (ops : Float64Ops F) (D acc : F) (q : Sequencer F E) : Prop :=
  q.fadeDur = D ∧ ops.le ops.zero acc = true ∧
  ((q.fading = true ∧ q.fadeTimer = acc ∧ q.fadeAlpha = ops.div acc D ∧
      ops.lt acc D = true) ∨
   (q.fading = false ∧ q.fadeAlpha = ops.one ∧ ops.le D acc = true))

/-- The state right after a fade or crossfade transition as the specification gives it,
for the state `s` before, the index `k` of the resolved cue, the target effect `T`
and the fade duration `D`: previous = the active effect of `s`, active = `T`, timer
and alpha at zero, fading.  The target is recorded as initialised. -/
def Sequencer.fadeStart {F E : Type} (ops : Float64Ops F) (s : Sequencer F E) (k T : Int)
    (D : F) : Sequencer F E :=
  { s with currentIdx := k, initialized := Function.update s.initialized T true,
           prevIdx := s.activeIdx, activeIdx := T, fadeDur := D, fadeTimer := ops.zero,
           fadeAlpha := ops.zero, fading := true }

/-- The cue qualifies at the snapshot: the order of the snapshot is greater than the order
of the cue, or the orders are equal and the row of the snapshot is at least the row
of the cue. -/
def qualifies {F : Type} (info : FrameInfo) (cue : Cue F) : Prop :=
  info.Order > cue.Pos.Order ∨ (info.Order = cue.Pos.Order ∧ info.Row ≥ cue.Pos.Row)

/-- The index `k` is the greatest list index of a cue that qualifies, or -1 when no cue
qualifies. -/
def GreatestQualifying {F : Type} (t : Timeline F) (info : FrameInfo) (k : Int) : Prop :=
  (k = -1 ∧ ∀ c ∈ t.Cues, ¬ qualifies info c) ∨
  (0 ≤ k ∧ ∃ c, getAt t.Cues k = some c ∧ qualifies info c ∧
    ∀ (j : Int) (d : Cue F), k < j → getAt t.Cues j = some d → ¬ qualifies info d)

end Sync

namespace Music

/-! ## Notions for stating the properties of `FadeOut` -/

/-- Laws of the float64 operations of `FadeOut` on values that are not NaN and not
negative: the comparisons are a total order, the conversion, the division by a positive
value, the subtraction from 1 and the multiplication by a value that is not
negative are monotone, and the results at the ends of the ranges are on the right
side of 0 and 1.  They are inequalities only; correctly rounded arithmetic has them. -/
structure VolumeOps.Laws {F : Type} (ops : VolumeOps F) : Prop where
  le_refl : ∀ a, ops.le a a = true
  le_trans : ∀ a b c, ops.le a b = true → ops.le b c = true → ops.le a c = true
  le_total : ∀ a b, ops.le a b = true ∨ ops.le b a = true
  lt_iff_not_le : ∀ a b, ops.lt a b = true ↔ ops.le b a = false
  zero_le_one : ops.le ops.zero ops.one = true
  of_mono : ∀ a b : Int, a ≤ b → ops.le (ops.ofDuration a) (ops.ofDuration b) = true
  of_zero : ops.le ops.zero (ops.ofDuration 0) = true
  of_pos : ∀ d : Int, 0 < d → ops.lt ops.zero (ops.ofDuration d) = true
  div_mono : ∀ a b D, ops.lt ops.zero D = true → ops.le a b = true →
    ops.le (ops.div a D) (ops.div b D) = true
  zero_div : ∀ a D, ops.lt ops.zero D = true → ops.le ops.zero a = true →
    ops.le ops.zero (ops.div a D) = true
  div_self : ∀ D, ops.lt ops.zero D = true → ops.le (ops.div D D) ops.one = true
  sub_anti : ∀ x y, ops.le x y = true → ops.le (ops.sub ops.one y) (ops.sub ops.one x) = true
  sub_one : ∀ x, ops.le x ops.one = true → ops.le ops.zero (ops.sub ops.one x) = true
  sub_zero : ∀ x, ops.le ops.zero x = true → ops.le (ops.sub ops.one x) ops.one = true
  mul_mono : ∀ v a b, ops.le ops.zero v = true → ops.le a b = true →
    ops.le (ops.mul v a) (ops.mul v b) = true
  mul_zero : ∀ v a, ops.le ops.zero v = true → ops.le ops.zero a = true →
    ops.le ops.zero (ops.mul v a) = true
  mul_one : ∀ v a, ops.le ops.zero v = true → ops.le a ops.one = true →
    ops.le (ops.mul v a) v = true

/-- The value `startVol * (1.0 - float64(elapsed)/float64(duration))`. -/
def fadeValue {F : Type} (ops : VolumeOps F) (startVol : F) (duration elapsed : Int) : F :=
  ops.mul startVol
    (ops.sub ops.one (ops.div (ops.ofDuration elapsed) (ops.ofDuration duration)))

/-- The clock readings up to and including the first one that has reached `duration`. -/
def untilElapsed (duration : Int) : List Int → List Int
  | [] => []
  | e :: rest => if e ≥ duration then [e] else e :: untilElapsed duration rest

/-- The volume of the ramp at the clock reading `elapsed`: the value of the ramp before
`duration` has passed, 0 from then on. -/
def volumeAt {F : Type} (ops : VolumeOps F) (startVol : F) (duration elapsed : Int) : F :=
  if elapsed < duration then fadeValue ops startVol duration elapsed else ops.zero

/-! ## Notions for stating the properties of the snapshot slot -/

/-- The snapshot of the frame rendered last when the first `k` frames of the decoder
script `frames` have been rendered: the zero snapshot of `NewPlayer` when `k` is 0. -/
def lastSnapshot (frames : List (FrameInfo × List Byte)) (k : Nat) : FrameInfo :=
  match k with
  | 0 => FrameInfo.zero
  | j + 1 =>
    match frames[j]? with
    | some f => f.1
    | none => FrameInfo.zero

/-- The slot `info` holds the snapshot published for the last rendered frame: for a decoder
that started with the script of `ctx0`, some number `k` of its frames have been
rendered, the rest are left, and `info` is the snapshot of frame `k`, or the zero
snapshot when no frame has been rendered. -/
def Published (ctx0 : Context) (p : Player) : Prop :=
  ∃ k, k ≤ ctx0.frames.length ∧ p.ctx.frames = ctx0.frames.drop k ∧
    p.info = lastSnapshot ctx0.frames k

end Music

/-! ## Concrete inputs for evaluating the embedding -/

namespace Music

/-- A decoder script of three frames: six bytes, an empty buffer, two bytes. -/
def demoCtx : Context :=
  { frames := [(FrameInfo.zero, [1, 2, 3, 4, 5, 6]), (FrameInfo.zero, []),
               (FrameInfo.zero, [7, 8])],
    cur := (FrameInfo.zero, []), playFrameCalls := 0 }

/-- A schedule on a ring of four bytes: a read before `Start`, a frame that blocks on the
full ring, reads that free room, and the rest of the frames. -/
def demoActs : List Action :=
  [Action.read [9, 9], Action.start, Action.render, Action.render, Action.read [9, 9, 9],
   Action.render, Action.read [9, 9, 9, 9, 9, 9], Action.render, Action.render, Action.render,
   Action.render, Action.read [9, 9, 9], Action.render]

/-- A player whose ring of four cells holds the bytes 7, 8 and 5, in this order, wrapped
around the end of the ring. -/
def demoPlayer : Player :=
  { ctx := demoCtx, info := FrameInfo.zero, ring := [8, 5, 6, 7], ringR := 3, ringW := 2,
    ringLen := 3, playing := true, done := false, framesRendered := 1, bytesWritten := 7,
    bytesRead := 4 }

/-- The scenario of the specification: a ring of 1000 bytes, empty, while playing. -/
def scenarioPlayer : Player :=
  { NewPlayer 1000 demoCtx with playing := true }

/-- The scenario of the specification: a frame of 1500 bytes. -/
def scenarioBuf : List Byte := List.replicate 1500 7

/-- A player with an empty ring. -/
def emptyPlayer : Player :=
  { demoPlayer with ringR := 2, ringLen := 0 }

/-- A decoder at the end of its module: no frame is left, and the frame information of
the decoder is not the zero value. -/
def endedCtx : Context :=
  { frames := [], cur := ({ FrameInfo.zero with Order := 3, Speed := 6, BPM := 125 }, []),
    playFrameCalls := 0 }

/-- A decoder with two frames that have no samples. -/
def twoFrameCtx : Context :=
  { frames := [({ FrameInfo.zero with Order := 0, Row := 3 }, []),
               ({ FrameInfo.zero with Order := 1, Row := 7 }, [])],
    cur := (FrameInfo.zero, []), playFrameCalls := 0 }

/-- The system with `twoFrameCtx` after `Start` and two render stretches: both frames are
rendered and the render goroutine is at the loop test. -/
def lastFrameSys : Sys :=
  { p := { NewPlayer 4 twoFrameCtx with
           ctx := { frames := [], cur := ({ FrameInfo.zero with Order := 1, Row := 7 }, []),
                    playFrameCalls := 2 },
           info := { FrameInfo.zero with Order := 1, Row := 7 },
           playing := true, framesRendered := 2 },
    pc := PC.top }

/-- Fixed-point numbers counted in thousandths, for evaluating `FadeOut`: 1.0 is 1000,
and products and quotients are rounded down. -/
def milliVolumeOps : VolumeOps Int :=
  { zero := 0, one := 1000, sub := fun a b => a - b, mul := fun a b => a * b / 1000,
    div := fun a b => a * 1000 / b, lt := fun a b => decide (a < b),
    le := fun a b => decide (a ≤ b), ofDuration := fun d => d }

/-- The clock readings of the scenario, in nanoseconds: 0 s, 1 s, 2.5 s and 5 s. -/
def fadeSamples : List Int := [0, 1000000000, 2500000000, 5000000000]

end Music

namespace Sync

open Music (FrameInfo)

/-- A snapshot at the given order and row. -/
def snapshotAt (order row : Int) : FrameInfo :=
  { FrameInfo.zero with Order := order, Row := row }

/-- A cue at (order, row) for the given effect, with a two-second fade. -/
def cueAt (order row effect : Int) (transition : String) : Cue ℚ :=
  { Pos := { Order := order, Row := row }, EffectIdx := effect, Transition := transition,
    FadeDur := 2 }

/-- A cue list that is out of order: the threshold (2, 0) comes before (0, 0). -/
def unorderedTimeline : Timeline ℚ :=
  { Cues := [cueAt 2 0 0 "cut", cueAt 0 0 1 "cut"] }

/-- A cue list that is out of order: the thresholds are (0, 0), (2, 0), (1, 0). -/
def shuffledTimeline : Timeline ℚ :=
  { Cues := [cueAt 0 0 0 "cut", cueAt 2 0 1 "fade", cueAt 1 0 2 "cut"] }

/-- A cue list in order, with a wildcard row. -/
def orderedTimeline : Timeline ℚ :=
  { Cues := [cueAt 0 0 0 "cut", cueAt 1 (-1) 1 "fade", cueAt 2 16 2 "cut"] }

/-- A sequencer over three effects whose first cue is at order 1. -/
def lateSequencer : Sequencer ℚ Unit :=
  NewSequencer ratOps [(), (), ()] { Cues := [cueAt 1 0 1 "cut", cueAt 2 0 2 "fade"] }

/-- The cue list of `lateSequencer`. -/
def lateTimeline : Timeline ℚ := { Cues := [cueAt 1 0 1 "cut", cueAt 2 0 2 "fade"] }

/-- A cue file with a repeated effect name, a missing transition and fade durations
that are not positive. -/
def demoCueFile : CueFile ℚ :=
  { Effects := ["plasma", "fire", "tunnel", "fire"],
    Cues := [{ Order := 0, Row := 0, Effect := "plasma", Transition := "", FadeDur := 0 },
             { Order := 1, Row := -1, Effect := "fire", Transition := "fade", FadeDur := 3 },
             { Order := 2, Row := 0, Effect := "tunnel", Transition := "cut", FadeDur := -1 }] }

/-- The timeline that `LoadCueFile` makes of `demoCueFile`. -/
def demoLoaded : Timeline ℚ :=
  { Cues := [{ Pos := { Order := 0, Row := 0 }, EffectIdx := 0, Transition := "cut", FadeDur := 1 },
             { Pos := { Order := 1, Row := -1 }, EffectIdx := 3, Transition := "fade", FadeDur := 3 },
             { Pos := { Order := 2, Row := 0 }, EffectIdx := 2, Transition := "cut", FadeDur := 1 }] }

/-- A timeline whose first cue names an effect index 5. -/
def strayTimeline : Timeline ℚ := { Cues := [cueAt 0 0 5 "cut", cueAt 1 0 1 "cut"] }

/-- A cue file that names three effects. -/
def longCueFile : CueFile ℚ :=
  { Effects := ["plasma", "fire", "tunnel"],
    Cues := [{ Order := 0, Row := 0, Effect := "tunnel", Transition := "", FadeDur := 0 }] }

/-- The timeline that `LoadCueFile` makes of `longCueFile`. -/
def longLoaded : Timeline ℚ :=
  { Cues := [{ Pos := { Order := 0, Row := 0 }, EffectIdx := 2, Transition := "cut",
               FadeDur := 1 }] }

/-- A host loop: `InitFirst`, a `Draw`, an `Update` at order 0, an `Update` at order 1 that
starts a fade, and a `Draw` during the fade.  The effects paint nothing. -/
def demoCalls : List (Call ℚ Unit 4) :=
  [Call.InitFirst, Call.Draw (fun _ _ fb => fb) (Framebuffer.zero ()),
   Call.Update (1 / 2) (snapshotAt 0 0), Call.Update (1 / 2) (snapshotAt 1 0),
   Call.Draw (fun _ _ fb => fb) (Framebuffer.zero ())]

/-- A list of two effects. -/
def twoEffects : List Unit := [(), ()]

/-- A sequencer over three effects that is on effect 0, all effects initialised, with a
cue list that cuts to effect 2 at order 1. -/
def cutSequencer : Sequencer ℚ Unit :=
  { NewSequencer ratOps [(), (), ()] { Cues := [cueAt 0 0 0 "cut", cueAt 1 0 2 "cut"] } with
    currentIdx := 0, initialized := fun _ => true }

/-- A cue list that cuts to effect 1, back to effect 0 and to effect 1 again. -/
def cutTimeline : Timeline ℚ :=
  { Cues := [cueAt 0 0 0 "cut", cueAt 1 0 1 "cut", cueAt 2 0 0 "cut", cueAt 3 0 1 "cut"] }

/-- The sequencer over three effects and `cutTimeline` after `InitFirst`. -/
def startedSequencer : Sequencer ℚ Unit :=
  { NewSequencer ratOps [(), (), ()] cutTimeline with
    activeIdx := 0, initialized := Function.update (fun _ => false) 0 true }

/-- Updates of half a second each at the orders 0, 1, 2 and 3. -/
def cutUpdates : List (ℚ × FrameInfo) :=
  [(1 / 2, snapshotAt 0 0), (1 / 2, snapshotAt 1 0), (1 / 2, snapshotAt 2 0),
   (1 / 2, snapshotAt 3 0)]

/-- Fixed-point numbers counted in thousandths, for evaluating the embedding where it
divides: 1.0 is 1000, and the quotient is rounded down. -/
def milliOps : Float64Ops Int :=
  { zero := 0, one := 1000, half := 500, add := fun a b => a + b,
    div := fun a b => a * 1000 / b,
    lt := fun a b => decide (a < b), le := fun a b => decide (a ≤ b) }

/-- The scenario of the specification: effect 0 from order 0 on, and a fade of 2.0
seconds to effect 1 at order 2. -/
def fadeTimeline : Timeline Int :=
  { Cues := [{ Pos := { Order := 0, Row := 0 }, EffectIdx := 0, Transition := "cut",
               FadeDur := 1000 },
             { Pos := { Order := 2, Row := 0 }, EffectIdx := 1, Transition := "fade",
               FadeDur := 2000 }] }

/-- The sequencer of the scenario while the music is at the orders 0 and 1. -/
def fadeSequencer : Sequencer Int Unit :=
  { NewSequencer milliOps [(), ()] fadeTimeline with
    currentIdx := 0, initialized := Function.update (fun _ => false) 0 true }

/-- The sequencer of the scenario after the `Update` of half a second that starts the
fade. -/
def fadeStarted : Sequencer Int Unit :=
  { fadeSequencer with
    currentIdx := 1, activeIdx := 1, prevIdx := 0, fadeAlpha := 250, fadeDur := 2000,
    fadeTimer := 500, fading := true,
    initialized := Function.update fadeSequencer.initialized 1 true }

/-- The updates of the scenario that follow the start of the fade: half a second each. -/
def fadeUpdates : List (Int × FrameInfo) :=
  [(500, snapshotAt 2 0), (500, snapshotAt 2 1), (500, snapshotAt 2 2)]

/-- Effects that fill the framebuffer they are given: the effect at index 0 with the
palette index 10, every other effect with 20, whatever the number of the call. -/
def demoPaint : Nat → Int → Framebuffer 4 Unit → Framebuffer 4 Unit :=
  fun _ i fb => { fb with Pixels := fun _ => if i = 0 then 10 else 20 }

/-- The sequencer of the scenario halfway through the fade. -/
def fadeHalfway : Sequencer Int Unit :=
  { fadeStarted with fadeAlpha := 500, fadeTimer := 1000 }

/-- The timeline of the scenario with a crossfade in the place of the fade. -/
def crossfadeTimeline : Timeline Int :=
  { Cues := [{ Pos := { Order := 0, Row := 0 }, EffectIdx := 0, Transition := "cut",
               FadeDur := 1000 },
             { Pos := { Order := 2, Row := 0 }, EffectIdx := 1, Transition := "crossfade",
               FadeDur := 2000 }] }

end Sync

/-! # Theorems -/

namespace Music

open Go

/-! ## Ring arithmetic -/

theorem ringSlice_length (cap : Nat) (ring : List Byte) (r len : Nat) :
    (ringSlice cap ring r len).length = len := by
  simp [ringSlice]

theorem ringSlice_succ_right (cap : Nat) (ring : List Byte) (r len : Nat) :
    ringSlice cap ring r (len + 1) =
      ringSlice cap ring r len ++ [ring.getD ((r + len) % cap) 0] := by
  simp [ringSlice, List.range_succ]

theorem ringSlice_succ_left (cap : Nat) (ring : List Byte) (r len : Nat) :
    ringSlice cap ring r (len + 1) =
      ring.getD (r % cap) 0 :: ringSlice cap ring ((r + 1) % cap) len := by
  simp only [ringSlice, List.range_succ_eq_map, List.map_cons, List.map_map, Nat.add_zero]
  congr 1
  apply List.map_congr_left
  intro i _
  simp only [Function.comp, Nat.succ_eq_add_one]
  congr 1
  rw [Nat.mod_add_mod]
  congr 1
  omega

theorem ring_cell_ne (cap r i len : Nat) (hi : i < len) (hlen : len < cap) :
    (r + i) % cap ≠ (r + len) % cap := by
  intro h
  have h1 : (r + i) ≡ (r + len) [MOD cap] := h
  have h2 : i ≡ len [MOD cap] := Nat.ModEq.add_left_cancel' r h1
  have h3 : i % cap = len % cap := h2
  rw [Nat.mod_eq_of_lt (by omega), Nat.mod_eq_of_lt hlen] at h3
  omega

theorem ringSlice_set (cap : Nat) (ring : List Byte) (r len w : Nat) (b : Byte)
    (h : ∀ i, i < len → (r + i) % cap ≠ w) :
    ringSlice cap (ring.set w b) r len = ringSlice cap ring r len := by
  simp only [ringSlice]
  apply List.map_congr_left
  intro i hi
  have hi2 : i < len := by simpa using hi
  have hne := h i hi2
  simp only [List.getD_eq_getElem?_getD]
  rw [List.getElem?_set_ne (Ne.symm hne)]

theorem ringSlice_push (cap : Nat) (ring : List Byte) (r len : Nat) (b : Byte)
    (hring : ring.length = cap) (hlen : len < cap) :
    ringSlice cap (ring.set ((r + len) % cap) b) r (len + 1) = ringSlice cap ring r len ++ [b] := by
  rw [ringSlice_succ_right, ringSlice_set cap ring r len _ b
    (fun i hi => ring_cell_ne cap r i len hi hlen)]
  congr 1
  have hlt : (r + len) % cap < ring.length := by
    rw [hring]; exact Nat.mod_lt _ (by omega)
  simp [List.getD_eq_getElem?_getD, List.getElem?_set_self hlt]

theorem take_succ_set {α : Type} (l : List α) (n : Nat) (b : α) (h : n < l.length) :
    (l.set n b).take (n + 1) = l.take n ++ [b] := by
  rw [List.take_succ, List.set_take, List.set_eq_of_length_le (by simp)]
  simp [List.getElem?_set_self h]

theorem tmod_succ_cast (cap w : Nat) :
    ((w : Int) + 1).tmod (cap : Int) = (((w + 1) % cap : Nat) : Int) := by
  rw [Int.tmod_eq_emod (by omega) (by omega)]
  push_cast
  rfl

/-! ## The loops of `Read` and of the write pass -/

theorem readLoop_spec (cap : Nat) :
    ∀ (fuel : Nat) (p : Player) (buf : List Byte) (n r len : Nat),
      p.ring.length = cap → r < cap → p.ringR = (r : Int) → p.ringLen = (len : Int) →
      n + fuel = buf.length →
      readLoop cap fuel p buf n =
        some ({ p with ringR := (((r + min fuel len) % cap : Nat) : Int),
                       ringLen := ((len - min fuel len : Nat) : Int) },
              buf.take n ++ (ringSlice cap p.ring r len).take (min fuel len) ++
                buf.drop (n + min fuel len),
              n + min fuel len) := by
  intro fuel
  induction fuel with
  | zero =>
    intro p buf n r len _ hr hR hL hn
    have hnot : ¬ (n < buf.length ∧ 0 < p.ringLen) := by omega
    simp only [readLoop, hnot, if_false, Nat.zero_min, Nat.add_zero, Nat.sub_zero,
      List.take_zero, List.append_nil, List.take_append_drop, Nat.mod_eq_of_lt hr]
    rw [← hR, ← hL]
  | succ fuel ih =>
    intro p buf n r len hring hr hR hL hn
    rcases Nat.eq_zero_or_pos len with h0 | hpos
    · subst h0
      have hnot : ¬ (n < buf.length ∧ 0 < p.ringLen) := by omega
      simp only [readLoop, hnot, if_false, Nat.min_zero, Nat.add_zero, Nat.sub_zero,
        List.take_zero, List.append_nil, List.take_append_drop, Nat.mod_eq_of_lt hr]
      rw [← hR, ← hL]
    · have hcond : n < buf.length ∧ 0 < p.ringLen := by omega
      obtain ⟨k, rfl⟩ : ∃ k, len = k + 1 := ⟨len - 1, by omega⟩
      have hrl : r < p.ring.length := by omega
      have hget : getAt p.ring p.ringR = some (p.ring.getD (r % cap) 0) := by
        simp [getAt, hR, Nat.mod_eq_of_lt hr, List.getD_eq_getElem?_getD,
          List.getElem?_eq_getElem hrl]
      have hmin : min (fuel + 1) (k + 1) = min fuel k + 1 := by omega
      have hstep := ih
        { p with ringR := (p.ringR + 1).tmod (cap : Int), ringLen := p.ringLen - 1 }
        (buf.set n (p.ring.getD (r % cap) 0)) (n + 1) ((r + 1) % cap) k hring
        (Nat.mod_lt _ (by omega)) (by simp only [hR]; exact tmod_succ_cast cap r)
        (by simp only [hL]; push_cast; omega) (by simp; omega)
      simp only [readLoop, hcond, and_self, if_true, hget, hstep, hmin,
        ringSlice_succ_left cap p.ring r k, List.take_succ_cons]
      have hmod : ((r + 1) % cap + min fuel k) % cap = (r + (min fuel k + 1)) % cap := by
        rw [Nat.mod_add_mod]; congr 1; omega
      have hsub : k - min fuel k = k + 1 - (min fuel k + 1) := by omega
      have htake : (buf.set n (p.ring.getD (r % cap) 0)).take (n + 1) =
          buf.take n ++ [p.ring.getD (r % cap) 0] := by
        exact take_succ_set buf n _ hcond.1
      have hdrop : (buf.set n (p.ring.getD (r % cap) 0)).drop (n + 1 + min fuel k) =
          buf.drop (n + (min fuel k + 1)) := by
        rw [List.drop_set_of_lt _ _ (by omega),
          show n + 1 + min fuel k = n + (min fuel k + 1) by omega]
      rw [hmod, hsub, htake, hdrop,
        show n + 1 + min fuel k = n + (min fuel k + 1) by omega]
      simp

theorem copyLoop_spec (cap : Nat) (buf : List Byte) (written toWrite : Nat) :
    ∀ (fuel i : Nat) (p : Player) (r len : Nat),
      i + fuel = toWrite → written + toWrite ≤ buf.length → p.ring.length = cap →
      len + fuel ≤ cap → p.ringW = (((r + len) % cap : Nat) : Int) →
      ∃ ring1, copyLoop cap buf (written : Int) (toWrite : Int) fuel i p =
          some { p with ring := ring1, ringW := (((r + len + fuel) % cap : Nat) : Int) } ∧
        ring1.length = cap ∧
        ringSlice cap ring1 r (len + fuel) =
          ringSlice cap p.ring r len ++ (buf.drop (written + i)).take fuel := by
  intro fuel
  induction fuel with
  | zero =>
    intro i p r len hi _ hring _ hW
    refine ⟨p.ring, ?_, hring, by simp⟩
    have hnot : ¬ ((i : Int) < (toWrite : Int)) := by omega
    simp only [copyLoop, hnot, if_false, Nat.add_zero]
    rw [← hW]
  | succ fuel ih =>
    intro i p r len hi hbuf hring hcap hW
    have hcond : (i : Int) < (toWrite : Int) := by omega
    have hib : written + i < buf.length := by omega
    have hget : getAt buf ((written : Int) + (i : Int)) = some (buf[written + i]) := by
      have h1 : ((written : Int) + (i : Int)).toNat = written + i := by omega
      simp [getAt, h1, List.getElem?_eq_getElem hib]
      omega
    have hcpos : 0 < cap := by omega
    have hwlt : (r + len) % cap < cap := Nat.mod_lt _ hcpos
    have hset : setAt p.ring p.ringW (buf[written + i]) =
        some (p.ring.set ((r + len) % cap) (buf[written + i])) := by
      have h1 : ((((r + len) % cap : Nat) : Int)).toNat = (r + len) % cap := by omega
      simp only [setAt, hW, h1, hring]
      rw [if_pos]
      omega
    obtain ⟨ring1, hrun, hlen1, hslice⟩ := ih (i + 1)
      { p with ring := p.ring.set ((r + len) % cap) (buf[written + i]),
               ringW := (p.ringW + 1).tmod (cap : Int) }
      r (len + 1) (by omega) hbuf (by simp [hring]) (by omega)
      (by simp only [hW]; rw [tmod_succ_cast, Nat.mod_add_mod, Nat.add_assoc])
    refine ⟨ring1, ?_, hlen1, ?_⟩
    · simp only [copyLoop, hcond, if_true, hget, hset, hrun]
      have : r + (len + 1) + fuel = r + len + (fuel + 1) := by omega
      rw [this]
    · have h2 : len + 1 + fuel = len + (fuel + 1) := by omega
      rw [← h2, hslice]
      simp only []
      rw [ringSlice_push cap p.ring r len _ hring (by omega)]
      have h3 : (buf.drop (written + i)).take (fuel + 1) =
          buf[written + i] :: (buf.drop (written + (i + 1))).take fuel := by
        rw [List.drop_eq_getElem_cons hib, List.take_succ_cons]
        rfl
      rw [h3]
      simp

/-! ## `Read` and the write pass on a ring that satisfies the invariant -/

theorem ringSlice_mod (cap : Nat) (ring : List Byte) (r len : Nat) :
    ringSlice cap ring (r % cap) len = ringSlice cap ring r len := by
  simp only [ringSlice]
  apply List.map_congr_left
  intro i _
  rw [Nat.mod_add_mod]

theorem ringSlice_drop (cap : Nat) (ring : List Byte) :
    ∀ (m r len : Nat), m ≤ len →
      (ringSlice cap ring r len).drop m = ringSlice cap ring ((r + m) % cap) (len - m) := by
  intro m
  induction m with
  | zero => intro r len _; simp [ringSlice_mod]
  | succ m ih =>
    intro r len hm
    obtain ⟨k, rfl⟩ : ∃ k, len = k + 1 := ⟨len - 1, by omega⟩
    rw [ringSlice_succ_left, List.drop_succ_cons, ih _ _ (by omega), Nat.mod_add_mod]
    have h1 : r + 1 + m = r + (m + 1) := by omega
    have h2 : k + 1 - (m + 1) = k - m := by omega
    rw [h1, h2]

theorem RingInv.repr {cap : Nat} {p : Player} (h : RingInv cap p) :
    ∃ r len : Nat, p.ringR = (r : Int) ∧ p.ringLen = (len : Int) ∧ r < cap ∧ len ≤ cap ∧
      p.ringW = (((r + len) % cap : Nat) : Int) ∧ p.ring.length = cap ∧
      contents cap p = ringSlice cap p.ring r len := by
  obtain ⟨hring, hl0, hl1, hr0, hr1, _, _, hw⟩ := h
  refine ⟨p.ringR.toNat, p.ringLen.toNat, by omega, by omega, by omega, by omega, ?_, hring, rfl⟩
  rw [hw]
  push_cast
  rw [Int.toNat_of_nonneg hr0, Int.toNat_of_nonneg hl0]

theorem RingInv.of_nat {cap : Nat} {p : Player} (r len : Nat) (hring : p.ring.length = cap)
    (hR : p.ringR = (r : Int)) (hL : p.ringLen = (len : Int)) (hr : r < cap) (hlen : len ≤ cap)
    (hW : p.ringW = (((r + len) % cap : Nat) : Int)) : RingInv cap p := by
  have hm : (r + len) % cap < cap := Nat.mod_lt _ (by omega)
  refine ⟨hring, by omega, by omega, by omega, by omega, by omega, by omega, ?_⟩
  rw [hW, hR, hL]
  push_cast
  rfl

theorem contents_of_nat {cap : Nat} {p : Player} (r len : Nat)
    (hR : p.ringR = (r : Int)) (hL : p.ringLen = (len : Int)) :
    contents cap p = ringSlice cap p.ring r len := by
  simp [contents, hR, hL]

/-- The locked part of `Read` on a ring that satisfies the invariant: it dequeues the
oldest `min (len buf) ringLen` bytes into the front of the buffer and keeps the
invariant. -/
theorem readLocked_spec (cap : Nat) (p : Player) (buf : List Byte) (h : RingInv cap p) :
    ∃ p1, readLocked cap p buf =
        some (p1, (contents cap p).take (min buf.length p.ringLen.toNat) ++
                    buf.drop (min buf.length p.ringLen.toNat),
              min buf.length p.ringLen.toNat) ∧
      RingInv cap p1 ∧
      contents cap p1 = (contents cap p).drop (min buf.length p.ringLen.toNat) ∧
      p1.ringLen = p.ringLen - (min buf.length p.ringLen.toNat : Nat) ∧
      p1.ring = p.ring ∧ p1.ringW = p.ringW ∧ p1.playing = p.playing ∧ p1.done = p.done ∧
      p1.ctx = p.ctx ∧ p1.info = p.info := by
  obtain ⟨r, len, hR, hL, hr, hlen, hW, hring, hc⟩ := h.repr
  have hloop := readLoop_spec cap buf.length p buf 0 r len hring hr hR hL (by simp)
  have hlen2 : p.ringLen.toNat = len := by omega
  refine ⟨{ p with ringR := (((r + min buf.length len) % cap : Nat) : Int),
                   ringLen := ((len - min buf.length len : Nat) : Int),
                   bytesRead := (p.bytesRead + min buf.length len) % 2 ^ 64 },
    ?_, ?_, ?_, ?_, rfl, rfl, rfl, rfl, rfl, rfl⟩
  · simp only [readLocked, hloop, hlen2, hc]
    simp
  · refine RingInv.of_nat ((r + min buf.length len) % cap) (len - min buf.length len)
      (by exact hring) (by rfl) (by rfl) (Nat.mod_lt _ (by omega)) (by omega) ?_
    simp only [hW]
    rw [Nat.mod_add_mod]
    congr 2
    omega
  · rw [hc, hlen2, ringSlice_drop cap p.ring _ r len (by omega)]
    exact contents_of_nat _ _ (by rfl) (by rfl)
  · simp only [hlen2, hL]
    omega

/-- One write pass on a ring that satisfies the invariant and is not full, with bytes
left to write: it appends the next `min (len buf - written) (cap - ringLen)` bytes of
the buffer to the queue and keeps the invariant. -/
theorem writePass_spec (cap : Nat) (p : Player) (buf : List Byte) (w : Nat)
    (h : RingInv cap p) (hw : w < buf.length) (hfull : p.ringLen < (cap : Int)) :
    ∃ p1, writePass cap p buf (w : Int) =
        some (p1, ((w + min (buf.length - w) (cap - p.ringLen.toNat) : Nat) : Int)) ∧
      RingInv cap p1 ∧
      contents cap p1 =
        contents cap p ++ (buf.drop w).take (min (buf.length - w) (cap - p.ringLen.toNat)) ∧
      p1.ringLen = p.ringLen + (min (buf.length - w) (cap - p.ringLen.toNat) : Nat) ∧
      p1.ringR = p.ringR ∧ p1.playing = p.playing ∧ p1.done = p.done ∧
      p1.ctx = p.ctx ∧ p1.info = p.info := by
  obtain ⟨r, len, hR, hL, hr, hlen, hW, hring, hc⟩ := h.repr
  have hlen2 : p.ringLen.toNat = len := by omega
  have hsize : passSize cap p buf (w : Int) = ((min (buf.length - w) (cap - len) : Nat) : Int) := by
    simp only [passSize, hL]
    split <;> omega
  obtain ⟨ring1, hrun, hlen1, hslice⟩ := copyLoop_spec cap buf w (min (buf.length - w) (cap - len))
    (min (buf.length - w) (cap - len)) 0 p r len (by omega) (by omega) hring (by omega) hW
  refine ⟨{ p with ring := ring1,
                   ringW := (((r + len + min (buf.length - w) (cap - len)) % cap : Nat) : Int),
                   ringLen := p.ringLen + ((min (buf.length - w) (cap - len) : Nat) : Int),
                   bytesWritten := (p.bytesWritten +
                     (((min (buf.length - w) (cap - len) : Nat) : Int) % 2 ^ 64).toNat) % 2 ^ 64 },
    ?_, ?_, ?_, ?_, rfl, rfl, rfl, rfl, rfl⟩
  · simp only [writePass, hsize, Int.toNat_ofNat, hrun, hlen2]
    push_cast
    rfl
  · refine RingInv.of_nat r (len + min (buf.length - w) (cap - len)) (by exact hlen1)
      (by exact hR) (by simp only [hL]; push_cast; rfl) hr (by omega) ?_
    simp only [Nat.add_assoc]
  · rw [contents_of_nat r (len + min (buf.length - w) (cap - len)) (by exact hR)
      (by simp only [hL]; push_cast; rfl), hc, hlen2]
    simpa using hslice
  · simp only [hlen2]

/-- A stretch of the ring write on a ring that satisfies the invariant, with bytes left
to write: when playing it appends as many of the remaining bytes as there is room
for, and then is finished or waits on a full ring; when not playing it returns at
once.  Two units of the pass bound are enough. -/
theorem writeFrom_spec (cap fuel : Nat) (p : Player) (buf : List Byte) (w : Nat)
    (h : RingInv cap p) (hw : w < buf.length) (hfuel : 2 ≤ fuel) :
    ∃ (p1 : Player) (w1 : Nat),
      writeFrom cap fuel p buf (w : Int) = some (p1, outcomeOf p.playing w1 buf.length, (w1 : Int)) ∧
      RingInv cap p1 ∧
      w1 = (if p.playing = true then w + min (buf.length - w) (cap - p.ringLen.toNat) else w) ∧
      contents cap p1 = contents cap p ++ (buf.drop w).take (w1 - w) ∧
      p1.ringLen = p.ringLen + ((w1 - w : Nat) : Int) ∧
      p1.ringR = p.ringR ∧ p1.playing = p.playing ∧ p1.done = p.done ∧
      p1.ctx = p.ctx ∧ p1.info = p.info ∧
      (p.playing = false ∨ p.ringLen ≥ (cap : Int) → p1 = p) := by
  obtain ⟨f, rfl⟩ : ∃ f, fuel = f + 2 := ⟨fuel - 2, by omega⟩
  have hinv := h
  obtain ⟨_, hl0, hl1, _⟩ := h
  by_cases hplay : p.playing = true
  · by_cases hfull : p.ringLen ≥ (cap : Int)
    · refine ⟨p, w, ?_, hinv, ?_, by simp, by simp, rfl, rfl, rfl, rfl, rfl, fun _ => rfl⟩
      · simp [writeFrom, hfull, hplay, outcomeOf, hw]
      · have : cap - p.ringLen.toNat = 0 := by omega
        simp [hplay, this]
    · obtain ⟨p1, hpass, hinv1, hc1, hlen1, hR1, hplay1, hdone1, hctx1, hinfo1⟩ :=
        writePass_spec cap p buf w hinv hw (by omega)
      refine ⟨p1, w + min (buf.length - w) (cap - p.ringLen.toNat), ?_, hinv1, by simp [hplay],
        by simpa using hc1, by simpa using hlen1, hR1, hplay1, hdone1, hctx1, hinfo1,
        fun hh => hh.elim (fun h1 => absurd (hplay.symm.trans h1) (by decide))
          (fun h2 => absurd h2 hfull)⟩
      have hnot : ¬ (p.ringLen ≥ (cap : Int) ∧ p.playing = true) := fun hh => hfull hh.1
      have hnf : ¬ (p.playing = false) := by simp [hplay]
      have hout : outcomeOf p.playing (w + min (buf.length - w) (cap - p.ringLen.toNat)) buf.length =
          if w + min (buf.length - w) (cap - p.ringLen.toNat) < buf.length
            then WriteOutcome.blocked else WriteOutcome.finished := by
        simp [outcomeOf, hplay]
      rw [hout, writeFrom, if_neg hnot, if_neg hnf]
      simp only [hpass]
      by_cases hmore : w + min (buf.length - w) (cap - p.ringLen.toNat) < buf.length
      · have hmore2 : ((w + min (buf.length - w) (cap - p.ringLen.toNat) : Nat) : Int) <
            (buf.length : Int) := by exact_mod_cast hmore
        have hfull1 : p1.ringLen ≥ (cap : Int) ∧ p1.playing = true := by
          refine ⟨?_, by rw [hplay1, hplay]⟩
          rw [hlen1]
          omega
        rw [if_pos hmore2, if_pos hmore, writeFrom, if_pos hfull1]
      · have hmore2 : ¬ ((w + min (buf.length - w) (cap - p.ringLen.toNat) : Nat) : Int) <
            (buf.length : Int) := by
          intro hh; exact hmore (by exact_mod_cast hh)
        rw [if_neg hmore2, if_neg hmore]
  · have hpf : p.playing = false := by simpa using hplay
    refine ⟨p, w, ?_, hinv, by simp [hpf], by simp, by simp, rfl, rfl, rfl, rfl, rfl,
      fun _ => rfl⟩
    simp [writeFrom, hpf, outcomeOf]

/-! ## The step function keeps the invariant and moves bytes in order -/

theorem wake_WF (pc : PC) (h : pc.WF) : (wake pc).WF := by
  cases pc <;> simp_all [wake, PC.WF]

theorem resumeWrite_spec (cap : Nat) (p : Player) (buf : List Byte) (w : Nat)
    (h : RingInv cap p) (hw : w < buf.length) :
    ∃ (p1 : Player) (w1 : Nat),
      resumeWrite cap p buf (w : Int) =
        some ({ p := if p.playing = false then { p1 with done := true } else p1,
                pc := pcAfter p.playing buf w1 },
              { deq := [], enq := (buf.drop w).take (w1 - w) }) ∧
      RingInv cap p1 ∧
      w1 = (if p.playing = true then w + min (buf.length - w) (cap - p.ringLen.toNat) else w) ∧
      contents cap p1 = contents cap p ++ (buf.drop w).take (w1 - w) ∧
      p1.ringLen = p.ringLen + ((w1 - w : Nat) : Int) ∧
      p1.ringR = p.ringR ∧ p1.playing = p.playing ∧ p1.done = p.done ∧
      p1.ctx = p.ctx ∧ p1.info = p.info ∧
      (p.playing = false ∨ p.ringLen ≥ (cap : Int) → p1 = p) := by
  obtain ⟨p1, w1, hrun, hinv1, hw1, rest⟩ :=
    writeFrom_spec cap (buf.length + 1) p buf w h hw (by omega)
  refine ⟨p1, w1, ?_, hinv1, hw1, rest⟩
  have hle : w ≤ w1 := by rw [hw1]; split <;> omega
  have hsub : ((w1 : Int) - (w : Int)).toNat = w1 - w := by omega
  simp only [resumeWrite, hrun, Int.toNat_ofNat, hsub]
  cases hp : p.playing
  · simp [outcomeOf, pcAfter]
  · by_cases hlt : w1 < buf.length <;> simp [outcomeOf, pcAfter, hlt]

theorem RingInv.congr {cap : Nat} {p q : Player} (h : RingInv cap p) (h1 : q.ring = p.ring)
    (h2 : q.ringR = p.ringR) (h3 : q.ringW = p.ringW) (h4 : q.ringLen = p.ringLen) :
    RingInv cap q := by
  unfold RingInv at *
  rw [h1, h2, h3, h4]
  exact h

theorem contents_congr {cap : Nat} {p q : Player} (h1 : q.ring = p.ring)
    (h2 : q.ringR = p.ringR) (h4 : q.ringLen = p.ringLen) :
    contents cap q = contents cap p := by
  unfold contents
  rw [h1, h2, h4]

theorem renderStep_spec (cap : Nat) (s : Sys) (h : SysInv cap s) :
    ∃ s1 m, renderStep cap s = some (s1, m) ∧ SysInv cap s1 ∧ m.deq = [] ∧
      contents cap s1.p = contents cap s.p ++ m.enq := by
  obtain ⟨p, pc⟩ := s
  obtain ⟨hring, hpc⟩ := h
  cases pc with
  | idle => exact ⟨_, _, rfl, ⟨hring, hpc⟩, rfl, by simp⟩
  | waiting buf w => exact ⟨_, _, rfl, ⟨hring, hpc⟩, rfl, by simp⟩
  | exited => exact ⟨_, _, rfl, ⟨hring, hpc⟩, rfl, by simp⟩
  | top =>
    simp only [renderStep]
    by_cases hplay : p.playing = true
    · rw [if_pos hplay]
      cases hframes : p.ctx.frames with
      | nil =>
        simp only [Context.PlayFrame, hframes]
        exact ⟨_, _, rfl, ⟨hring.congr rfl rfl rfl rfl, trivial⟩, rfl, by
          simp [contents_congr]; rfl⟩
      | cons f rest =>
        simp only [Context.PlayFrame, hframes]
        by_cases hlen : (Context.GetBuffer
            { frames := rest, cur := f, playFrameCalls := p.ctx.playFrameCalls + 1 }).length = 0
        · rw [if_pos hlen]
          exact ⟨_, _, rfl, ⟨hring.congr rfl rfl rfl rfl, trivial⟩, rfl, by simp; rfl⟩
        · rw [if_neg hlen]
          exact ⟨_, _, rfl, ⟨hring.congr rfl rfl rfl rfl, trivial⟩, rfl, by simp; rfl⟩
    · rw [if_neg hplay]
      exact ⟨_, _, rfl, ⟨hring.congr rfl rfl rfl rfl, trivial⟩, rfl, by simp; rfl⟩
  | locking buf =>
    simp only [renderStep]
    by_cases hlen : (0 : Int) < (buf.length : Int)
    · rw [if_pos hlen]
      obtain ⟨p1, w1, hrun, hinv1, hw1, hc1, _, _, hplay1, _, _, _, _⟩ :=
        resumeWrite_spec cap p buf 0 hring (by omega)
      have hrun2 : resumeWrite cap p buf 0 = _ := hrun
      refine ⟨_, _, hrun2, ⟨?_, ?_⟩, rfl, ?_⟩
      · cases hp : p.playing <;> simp only [if_true, if_false]
        · exact hinv1.congr rfl rfl rfl rfl
        · simpa using hinv1
      · simp only [pcAfter]
        split
        · trivial
        · split
          · exact ⟨by omega, by omega⟩
          · trivial
      · cases hp : p.playing <;> simp only [if_true, if_false]
        · exact hc1
        · simpa using hc1
    · rw [if_neg hlen]
      exact ⟨_, _, rfl, ⟨hring, trivial⟩, rfl, by simp⟩
  | woken buf w =>
    simp only [renderStep]
    obtain ⟨hw0, hw1⟩ := hpc
    obtain ⟨wn, rfl⟩ : ∃ wn : Nat, w = (wn : Int) := ⟨w.toNat, by omega⟩
    obtain ⟨p1, w1, hrun, hinv1, hw1, hc1, _, _, hplay1, _, _, _, _⟩ :=
      resumeWrite_spec cap p buf wn hring (by omega)
    refine ⟨_, _, hrun, ⟨?_, ?_⟩, rfl, ?_⟩
    · cases hp : p.playing <;> simp only [if_true, if_false]
      · exact hinv1.congr rfl rfl rfl rfl
      · simpa using hinv1
    · simp only [pcAfter]
      split
      · trivial
      · split
        · exact ⟨by omega, by omega⟩
        · trivial
    · cases hp : p.playing <;> simp only [if_true, if_false]
      · exact hc1
      · simpa using hc1

theorem step_spec (cap : Nat) (s : Sys) (a : Action) (h : SysInv cap s) :
    ∃ s1 m, step cap s a = some (s1, m) ∧ SysInv cap s1 ∧
      m.deq ++ contents cap s1.p = contents cap s.p ++ m.enq := by
  cases a with
  | start =>
    obtain ⟨p, pc⟩ := s
    cases pc <;>
      first
      | exact ⟨_, _, rfl, ⟨h.1.congr rfl rfl rfl rfl, trivial⟩, by simp; rfl⟩
      | exact ⟨_, _, rfl, h, by simp⟩
  | render =>
    obtain ⟨s1, m, hrun, hinv, hdeq, hc⟩ := renderStep_spec cap s h
    exact ⟨s1, m, hrun, hinv, by rw [hdeq, hc]; rfl⟩
  | read buf =>
    obtain ⟨p1, hrun, hinv1, hc1, hlen1, _⟩ := readLocked_spec cap s.p buf h.1
    have hstep : step cap s (Action.read buf) =
        some ({ p := p1, pc := if 0 < min buf.length s.p.ringLen.toNat then wake s.pc else s.pc },
              { deq := ((contents cap s.p).take (min buf.length s.p.ringLen.toNat) ++
                  buf.drop (min buf.length s.p.ringLen.toNat)).take
                    (min buf.length s.p.ringLen.toNat), enq := [] }) := by
      simp only [step, hrun]
    refine ⟨_, _, hstep, ⟨hinv1, ?_⟩, ?_⟩
    · simp only []
      split
      · exact wake_WF _ h.2
      · exact h.2
    · simp only [List.append_nil]
      rw [hc1]
      have hlen : (List.take (min buf.length s.p.ringLen.toNat) (contents cap s.p)).length =
          min buf.length s.p.ringLen.toNat := by
        simp [contents, ringSlice_length]
      rw [List.take_append_of_le_length (by omega), List.take_of_length_le (by omega),
        List.take_append_drop]
  | stop =>
    exact ⟨_, _, rfl, ⟨h.1.congr rfl rfl rfl rfl, wake_WF _ h.2⟩, by simp; rfl⟩
  | stopMissed =>
    exact ⟨_, _, rfl, ⟨h.1.congr rfl rfl rfl rfl, h.2⟩, by simp; rfl⟩

/-- Every run from a state that satisfies the invariant goes through, ends in a state that
satisfies it, and what was dequeued followed by what is still queued is what was
queued at the start followed by what was deposited. -/
theorem run_spec (cap : Nat) (acts : List Action) :
    ∀ s : Sys, SysInv cap s →
      ∃ s1 m, run cap s acts = some (s1, m) ∧ SysInv cap s1 ∧
        m.deq ++ contents cap s1.p = contents cap s.p ++ m.enq := by
  induction acts with
  | nil => intro s h; exact ⟨s, _, rfl, h, by simp⟩
  | cons a rest ih =>
    intro s h
    obtain ⟨s1, m1, hstep, hinv1, hm1⟩ := step_spec cap s a h
    obtain ⟨s2, m2, hrun, hinv2, hm2⟩ := ih s1 hinv1
    refine ⟨s2, { deq := m1.deq ++ m2.deq, enq := m1.enq ++ m2.enq },
      by simp only [run, hstep, hrun], hinv2, ?_⟩
    simp only [List.append_assoc]
    rw [hm2, ← List.append_assoc, hm1, List.append_assoc]

theorem init_inv (cap : Nat) (ctx : Context) (hcap : 0 < cap) : SysInv cap (Sys.init cap ctx) := by
  refine ⟨⟨by simp [Sys.init, NewPlayer], ?_⟩, trivial⟩
  simp [Sys.init, NewPlayer, hcap]

theorem contents_init (cap : Nat) (ctx : Context) : contents cap (Sys.init cap ctx).p = [] := by
  simp [Sys.init, NewPlayer, contents, ringSlice]

/-! ## Properties of the ring buffer -/

/-- C1. On a ring that starts empty (the ring of `NewPlayer`), after any sequence of render
stretches, `Read` calls, `Start` and `Stop`, in any order: the run goes through, the
bytes the reads dequeued followed by the bytes still queued are exactly the bytes the
write passes deposited, in order; so the dequeued bytes are a prefix of the deposited
bytes, and equal them whenever the ring is empty. -/
theorem ring_fifo (cap : Nat) (hcap : 0 < cap) (ctx : Context) (acts : List Action) :
    ∃ s m, run cap (Sys.init cap ctx) acts = some (s, m) ∧
      m.deq ++ contents cap s.p = m.enq ∧ m.deq <+: m.enq ∧
      (s.p.ringLen = 0 → m.deq = m.enq) := by
  obtain ⟨s, m, hrun, _, hm⟩ := run_spec cap acts (Sys.init cap ctx) (init_inv cap ctx hcap)
  rw [contents_init, List.nil_append] at hm
  refine ⟨s, m, hrun, hm, ⟨contents cap s.p, hm⟩, ?_⟩
  intro h0
  have : contents cap s.p = [] := by simp [contents, ringSlice, h0]
  rw [this, List.append_nil] at hm
  exact hm

theorem ring_fifo_witness :
    0 < 4 ∧
    (run 4 (Sys.init 4 demoCtx) demoActs).map (fun r => (r.2.deq, r.2.enq, r.1.p.ringLen)) =
      some ([1, 2, 3, 4, 5, 6, 7, 8], [1, 2, 3, 4, 5, 6, 7, 8], 0) ∧
    ∃ s m, run 4 (Sys.init 4 demoCtx) demoActs = some (s, m) ∧
      m.deq ++ contents 4 s.p = m.enq ∧ m.deq <+: m.enq ∧
      (s.p.ringLen = 0 → m.deq = m.enq) :=
  ⟨by decide, by decide, ring_fifo 4 (by decide) demoCtx demoActs⟩

/-- C2. `Read` on an empty ring while `done` is not closed returns `(len(buf), nil)`, leaves
every byte of the buffer zero, and leaves the ring, both cursors and the occupancy
as they were. -/
theorem read_empty_active (cap : Nat) (p : Player) (buf : List Byte)
    (hempty : p.ringLen = 0) (hdone : p.done = false) :
    ∃ p1, Read cap p buf = some (p1, List.replicate buf.length 0, buf.length, none) ∧
      p1.ring = p.ring ∧ p1.ringR = p.ringR ∧ p1.ringW = p.ringW ∧ p1.ringLen = p.ringLen := by
  have hnot : ∀ n, ¬ (n < buf.length ∧ 0 < p.ringLen) := by intro n; omega
  have hloop : readLoop cap buf.length p buf 0 = some (p, buf, 0) := by
    cases buf.length <;> simp [readLoop, hnot]
  refine ⟨{ p with bytesRead := (p.bytesRead + 0) % 2 ^ 64 }, ?_, rfl, rfl, rfl, rfl⟩
  simp [Read, readLocked, hloop, readFinish, hdone]

theorem read_empty_active_witness :
    emptyPlayer.ringLen = 0 ∧ emptyPlayer.done = false ∧
    ∃ p1, Read 4 emptyPlayer [9, 9, 9] = some (p1, List.replicate 3 0, 3, none) ∧
      p1.ring = emptyPlayer.ring ∧ p1.ringR = emptyPlayer.ringR ∧
      p1.ringW = emptyPlayer.ringW ∧ p1.ringLen = emptyPlayer.ringLen :=
  ⟨by decide, by decide, read_empty_active 4 emptyPlayer [9, 9, 9] (by decide) (by decide)⟩

/-- C3. `Read` on an empty ring after `done` has been closed returns `(0, io.EOF)`; the
buffer is not filled with silence. -/
theorem read_empty_done (cap : Nat) (p : Player) (buf : List Byte)
    (hempty : p.ringLen = 0) (hdone : p.done = true) :
    ∃ p1, Read cap p buf = some (p1, buf, 0, some Err.EOF) ∧
      p1.ring = p.ring ∧ p1.ringR = p.ringR ∧ p1.ringW = p.ringW ∧ p1.ringLen = p.ringLen := by
  have hnot : ∀ n, ¬ (n < buf.length ∧ 0 < p.ringLen) := by intro n; omega
  have hloop : readLoop cap buf.length p buf 0 = some (p, buf, 0) := by
    cases buf.length <;> simp [readLoop, hnot]
  refine ⟨{ p with bytesRead := (p.bytesRead + 0) % 2 ^ 64 }, ?_, rfl, rfl, rfl, rfl⟩
  simp [Read, readLocked, hloop, readFinish, hdone]

theorem read_empty_done_witness :
    ({ emptyPlayer with done := true } : Player).ringLen = 0 ∧
    ({ emptyPlayer with done := true } : Player).done = true ∧
    ∃ p1, Read 4 { emptyPlayer with done := true } [9, 9, 9] =
        some (p1, [9, 9, 9], 0, some Err.EOF) ∧
      p1.ring = emptyPlayer.ring ∧ p1.ringR = emptyPlayer.ringR ∧
      p1.ringW = emptyPlayer.ringW ∧ p1.ringLen = emptyPlayer.ringLen :=
  ⟨by decide, by decide,
    read_empty_done 4 { emptyPlayer with done := true } [9, 9, 9] (by decide) (by decide)⟩

/-- C4. `Read` with a buffer of length `L` on a ring that satisfies the invariant and holds
`k` bytes: the call goes through; when it does not return `io.EOF` the count is `L`;
and when `k > 0` the buffer afterwards is the oldest `min k L` queued bytes, in queue
order, followed by `L - min k L` zero bytes, and the occupancy is `k - min k L`. -/
theorem read_contract (cap : Nat) (p : Player) (buf : List Byte) (h : RingInv cap p) :
    ∃ p1 buf1 n err, Read cap p buf = some (p1, buf1, n, err) ∧
      (err = none → n = buf.length) ∧
      (0 < p.ringLen →
        buf1 = (contents cap p).take (min p.ringLen.toNat buf.length) ++
          List.replicate (buf.length - min p.ringLen.toNat buf.length) 0 ∧
        p1.ringLen = p.ringLen - (min p.ringLen.toNat buf.length : Nat)) := by
  obtain ⟨p1, hrun, _, _, hlen1, _⟩ := readLocked_spec cap p buf h
  have hclen : (contents cap p).length = p.ringLen.toNat := by
    simp [contents, ringSlice_length]
  rw [Nat.min_comm] at hrun hlen1
  generalize hm : min p.ringLen.toNat buf.length = m at hrun hlen1 ⊢
  have htl : ((contents cap p).take m).length = m := by
    rw [List.length_take, hclen]; omega
  have hread : Read cap p buf =
      some (p1, readFinish p1.done ((contents cap p).take m ++ buf.drop m) m) := by
    simp only [Read, hrun]
  have hBlen : ((contents cap p).take m ++ buf.drop m).length = buf.length := by
    rw [List.length_append, htl, List.length_drop]; omega
  have htt : ((contents cap p).take m ++ buf.drop m).take m = (contents cap p).take m := by
    rw [List.take_append_of_le_length (by omega), List.take_of_length_le (by omega)]
  refine ⟨p1, (readFinish p1.done ((contents cap p).take m ++ buf.drop m) m).1,
    (readFinish p1.done ((contents cap p).take m ++ buf.drop m) m).2.1,
    (readFinish p1.done ((contents cap p).take m ++ buf.drop m) m).2.2, hread, ?_, ?_⟩
  · unfold readFinish
    rw [hBlen]
    split_ifs <;> simp_all
  · intro hk
    refine ⟨?_, hlen1⟩
    unfold readFinish
    rw [hBlen, htt]
    split_ifs with h0 hd hlt
    · subst h0
      have hL : buf.length = 0 := by omega
      simp [List.length_eq_zero.mp hL]
    · subst h0
      simp
    · rfl
    · have hmL : m = buf.length := by omega
      have hdrop : buf.drop buf.length = [] := List.drop_length buf
      simp [hmL, hdrop]

theorem read_contract_witness :
    RingInv 4 demoPlayer ∧
    (Read 4 demoPlayer [9, 9, 9, 9, 9]).map
        (fun r => (r.2.1, r.2.2.1, r.2.2.2, r.1.ringR, r.1.ringLen)) =
      some ([7, 8, 5, 0, 0], 5, none, 2, 0) ∧
    ∃ p1 buf1 n err, Read 4 demoPlayer [9, 9, 9, 9, 9] = some (p1, buf1, n, err) ∧
      (err = none → n = 5) ∧
      (0 < demoPlayer.ringLen →
        buf1 = (contents 4 demoPlayer).take (min demoPlayer.ringLen.toNat 5) ++
          List.replicate (5 - min demoPlayer.ringLen.toNat 5) 0 ∧
        p1.ringLen = demoPlayer.ringLen - (min demoPlayer.ringLen.toNat 5 : Nat)) :=
  ⟨by decide, by rfl, read_contract 4 demoPlayer [9, 9, 9, 9, 9] (by decide)⟩

/-- C5. Every state reached from the ring of `NewPlayer` by render stretches, `Read` calls,
`Start` and `Stop` has `0 ≤ ringLen ≤ cap`, `0 ≤ ringR < cap`, `0 ≤ ringW < cap` and
`ringW = (ringR + ringLen) mod cap`, and `ringLen` is the number of bytes deposited
minus the number of bytes dequeued. -/
theorem ring_invariant (cap : Nat) (hcap : 0 < cap) (ctx : Context) (acts : List Action) :
    ∃ s m, run cap (Sys.init cap ctx) acts = some (s, m) ∧
      0 ≤ s.p.ringLen ∧ s.p.ringLen ≤ (cap : Int) ∧
      0 ≤ s.p.ringR ∧ s.p.ringR < (cap : Int) ∧
      0 ≤ s.p.ringW ∧ s.p.ringW < (cap : Int) ∧
      s.p.ringW = (s.p.ringR + s.p.ringLen) % (cap : Int) ∧
      s.p.ringLen = (m.enq.length : Int) - (m.deq.length : Int) := by
  obtain ⟨s, m, hrun, hinv, hm⟩ := run_spec cap acts (Sys.init cap ctx) (init_inv cap ctx hcap)
  obtain ⟨_, h1, h2, h3, h4, h5, h6, h7⟩ := hinv.1
  refine ⟨s, m, hrun, h1, h2, h3, h4, h5, h6, h7, ?_⟩
  rw [contents_init, List.nil_append] at hm
  have hl := congrArg List.length hm
  simp only [List.length_append, contents, ringSlice_length] at hl
  omega

theorem ring_invariant_witness :
    0 < 4 ∧
    (run 4 (Sys.init 4 demoCtx) (demoActs.take 6)).map
        (fun r => (r.1.p.ring, r.1.p.ringR, r.1.p.ringW, r.1.p.ringLen, r.2.deq, r.2.enq)) =
      some ([5, 6, 3, 4], 3, 2, 3, [1, 2, 3], [1, 2, 3, 4, 5, 6]) ∧
    ∃ s m, run 4 (Sys.init 4 demoCtx) (demoActs.take 6) = some (s, m) ∧
      0 ≤ s.p.ringLen ∧ s.p.ringLen ≤ ((4 : Nat) : Int) ∧
      0 ≤ s.p.ringR ∧ s.p.ringR < ((4 : Nat) : Int) ∧
      0 ≤ s.p.ringW ∧ s.p.ringW < ((4 : Nat) : Int) ∧
      s.p.ringW = (s.p.ringR + s.p.ringLen) % ((4 : Nat) : Int) ∧
      s.p.ringLen = (m.enq.length : Int) - (m.deq.length : Int) :=
  ⟨by decide, by rfl, ring_invariant 4 (by decide) demoCtx (demoActs.take 6)⟩

/-! ## A write that does not fit -/

theorem readLocked_deq_length (cap : Nat) (p : Player) (buf : List Byte) :
    ((List.take (min buf.length p.ringLen.toNat) (contents cap p) ++
        List.drop (min buf.length p.ringLen.toNat) buf).take
          (min buf.length p.ringLen.toNat)).length = min buf.length p.ringLen.toNat := by
  have hclen : (contents cap p).length = p.ringLen.toNat := by
    simp [contents, ringSlice_length]
  simp only [List.length_take, List.length_append, List.length_drop, hclen]
  omega

theorem pending_step (cap : Nat) (s : Sys) (a : Action) (buf : List Byte) (w : Nat)
    (hinv : SysInv cap s) (hplay : s.p.playing = true) (hpend : Pending buf s w)
    (ha : a.isStop = false) :
    ∃ s1 m, step cap s a = some (s1, m) ∧ SysInv cap s1 ∧ s1.p.playing = true ∧
      s1.p.ctx = s.p.ctx ∧
      s1.p.ringLen = s.p.ringLen + (m.enq.length : Int) - (m.deq.length : Int) ∧
      ((Pending buf s1 (w + m.enq.length) ∧ m.enq = (buf.drop w).take m.enq.length) ∨
        (s1.pc = PC.top ∧ m.enq = buf.drop w)) := by
  obtain ⟨p, pc⟩ := s
  obtain ⟨hpc, hw⟩ := hpend
  simp only at hpc hplay
  cases a with
  | stop => exact absurd ha (by decide)
  | stopMissed => exact absurd ha (by decide)
  | start =>
    have hstep : step cap ⟨p, pc⟩ Action.start = some (⟨p, pc⟩, { deq := [], enq := [] }) := by
      rcases hpc with h | h <;> subst h <;> rfl
    exact ⟨_, _, hstep, hinv, hplay, rfl, by simp, Or.inl ⟨⟨by simpa using hpc, hw⟩, by simp⟩⟩
  | read rbuf =>
    obtain ⟨p1, hrun, hinv1, _, hlen1, _, _, hplay1, _, hctx1, _⟩ :=
      readLocked_spec cap p rbuf hinv.1
    have hstep : step cap ⟨p, pc⟩ (Action.read rbuf) =
        some ({ p := p1, pc := if 0 < min rbuf.length p.ringLen.toNat then wake pc else pc },
              { deq := ((contents cap p).take (min rbuf.length p.ringLen.toNat) ++
                  rbuf.drop (min rbuf.length p.ringLen.toNat)).take
                    (min rbuf.length p.ringLen.toNat), enq := [] }) := by
      simp only [step, hrun]
    refine ⟨_, _, hstep, ⟨hinv1, ?_⟩, by rw [hplay1]; exact hplay, hctx1, ?_, Or.inl ⟨⟨?_, hw⟩, by simp⟩⟩
    · simp only []
      split
      · exact wake_WF _ hinv.2
      · exact hinv.2
    · simp only [readLocked_deq_length cap p rbuf, hlen1, List.length_nil]
      push_cast
      omega
    · simp only [List.length_nil, Nat.add_zero]
      split
      · rcases hpc with h | h <;> subst h <;> simp [wake]
      · exact hpc
  | render =>
    rcases hpc with h | h
    · subst h
      exact ⟨_, _, rfl, hinv, hplay, rfl, by simp, Or.inl ⟨⟨by simp, hw⟩, by simp⟩⟩
    · subst h
      obtain ⟨p1, w1, hrun, hinv1, hw1, hc1, hlen1, _, hplay1, _, hctx1, _, _⟩ :=
        resumeWrite_spec cap p buf w hinv.1 hw
      rw [if_pos hplay] at hw1
      have hstep : step cap ⟨p, PC.woken buf (w : Int)⟩ Action.render = _ := hrun
      simp only [hplay, Bool.true_eq_false, if_false] at hstep
      have hle : w ≤ w1 := by omega
      have henq : ((buf.drop w).take (w1 - w)).length = w1 - w := by
        rw [List.length_take, List.length_drop]; omega
      refine ⟨_, _, hstep, ⟨hinv1, ?_⟩, by rw [hplay1]; exact hplay, hctx1, ?_, ?_⟩
      · simp only [pcAfter]
        split
        · trivial
        · split
          · exact ⟨by omega, by omega⟩
          · trivial
      · simp only [henq, hlen1, List.length_nil]
        push_cast
        omega
      · have e : w + (w1 - w) = w1 := by omega
        by_cases hlt : w1 < buf.length
        · left
          refine ⟨⟨Or.inl ?_, ?_⟩, ?_⟩
          · simp only [henq, e, pcAfter, Bool.true_eq_false, if_false, if_pos hlt]
          · simp only [henq, e]; exact hlt
          · simp only [henq]
        · right
          refine ⟨?_, ?_⟩
          · simp only [pcAfter, Bool.true_eq_false, if_false, if_neg hlt]
          · simp only []
            rw [List.take_of_length_le]
            rw [List.length_drop]; omega

theorem step_calls (cap : Nat) (s : Sys) (a : Action) (hinv : SysInv cap s) :
    ∃ s1 m, step cap s a = some (s1, m) ∧ SysInv cap s1 ∧
      s.p.ctx.playFrameCalls ≤ s1.p.ctx.playFrameCalls := by
  obtain ⟨p, pc⟩ := s
  cases a with
  | start =>
    cases pc <;>
      first
      | exact ⟨_, _, rfl, ⟨hinv.1.congr rfl rfl rfl rfl, trivial⟩, Nat.le_refl _⟩
      | exact ⟨_, _, rfl, hinv, Nat.le_refl _⟩
  | stop =>
    exact ⟨_, _, rfl, ⟨hinv.1.congr rfl rfl rfl rfl, wake_WF _ hinv.2⟩, Nat.le_refl _⟩
  | stopMissed =>
    exact ⟨_, _, rfl, ⟨hinv.1.congr rfl rfl rfl rfl, hinv.2⟩, Nat.le_refl _⟩
  | read rbuf =>
    obtain ⟨s1, m, hstep, hinv1, _⟩ := step_spec cap ⟨p, pc⟩ (Action.read rbuf) hinv
    obtain ⟨p1, hrun, _, _, _, _, _, _, _, hctx1, _⟩ := readLocked_spec cap p rbuf hinv.1
    refine ⟨s1, m, hstep, hinv1, ?_⟩
    simp only [step, hrun, Option.some.injEq, Prod.mk.injEq] at hstep
    obtain ⟨rfl, _⟩ := hstep
    simp only [hctx1]
    exact Nat.le_refl _
  | render =>
    obtain ⟨s1, m, hstep, hinv1, _⟩ := renderStep_spec cap ⟨p, pc⟩ hinv
    refine ⟨s1, m, hstep, hinv1, ?_⟩
    cases pc with
    | idle => cases hstep; exact Nat.le_refl _
    | waiting buf w => cases hstep; exact Nat.le_refl _
    | exited => cases hstep; exact Nat.le_refl _
    | top =>
      simp only [renderStep] at hstep
      by_cases hplay : p.playing = true
      · rw [if_pos hplay] at hstep
        cases hframes : p.ctx.frames with
        | nil =>
          simp only [Context.PlayFrame, hframes, Option.some.injEq, Prod.mk.injEq] at hstep
          obtain ⟨rfl, _⟩ := hstep
          exact Nat.le_succ _
        | cons f rest =>
          simp only [Context.PlayFrame, hframes] at hstep
          split at hstep <;>
            (simp only [Option.some.injEq, Prod.mk.injEq] at hstep
             obtain ⟨rfl, _⟩ := hstep
             exact Nat.le_succ _)
      · rw [if_neg hplay] at hstep
        cases hstep
        exact Nat.le_refl _
    | locking buf =>
      simp only [renderStep] at hstep
      by_cases hlen : (0 : Int) < (buf.length : Int)
      · rw [if_pos hlen] at hstep
        obtain ⟨p1, w1, hrun, _, _, _, _, _, _, _, hctx1, _, _⟩ :=
          resumeWrite_spec cap p buf 0 hinv.1 (by omega)
        have hrun2 : resumeWrite cap p buf 0 = _ := hrun
        rw [hrun2] at hstep
        cases hstep
        simp only []
        split <;> simp [hctx1]
      · rw [if_neg hlen] at hstep
        cases hstep
        exact Nat.le_refl _
    | woken buf w =>
      simp only [renderStep] at hstep
      obtain ⟨hw0, hw1⟩ := hinv.2
      obtain ⟨wn, rfl⟩ : ∃ wn : Nat, w = (wn : Int) := ⟨w.toNat, by omega⟩
      obtain ⟨p1, w1, hrun, _, _, _, _, _, _, _, hctx1, _, _⟩ :=
        resumeWrite_spec cap p buf wn hinv.1 (by omega)
      rw [hrun] at hstep
      cases hstep
      simp only []
      split <;> simp [hctx1]

theorem run_calls (cap : Nat) (acts : List Action) :
    ∀ s : Sys, SysInv cap s →
      ∃ s2 m2, run cap s acts = some (s2, m2) ∧ SysInv cap s2 ∧
        s.p.ctx.playFrameCalls ≤ s2.p.ctx.playFrameCalls := by
  induction acts with
  | nil => intro s h; exact ⟨s, _, rfl, h, Nat.le_refl _⟩
  | cons a rest ih =>
    intro s h
    obtain ⟨s1, m1, hstep, hinv1, h1⟩ := step_calls cap s a h
    obtain ⟨s2, m2, hrun, hinv2, h2⟩ := ih s1 hinv1
    exact ⟨s2, { deq := m1.deq ++ m2.deq, enq := m1.enq ++ m2.enq },
      by simp only [run, hstep, hrun], hinv2, Nat.le_trans h1 h2⟩

theorem top_step (cap : Nat) (s : Sys) (a : Action) (hinv : SysInv cap s)
    (hplay : s.p.playing = true) (hpc : s.pc = PC.top) (ha : a.isStop = false) :
    ∃ s1 m, step cap s a = some (s1, m) ∧ SysInv cap s1 ∧
      ((s1.pc = PC.top ∧ s1.p.playing = true ∧ s1.p.ctx = s.p.ctx ∧ m.enq = []) ∨
        s.p.ctx.playFrameCalls < s1.p.ctx.playFrameCalls) := by
  obtain ⟨p, pc⟩ := s
  simp only at hpc hplay
  subst hpc
  cases a with
  | stop => exact absurd ha (by decide)
  | stopMissed => exact absurd ha (by decide)
  | start => exact ⟨_, _, rfl, hinv, Or.inl ⟨rfl, hplay, rfl, rfl⟩⟩
  | read rbuf =>
    obtain ⟨p1, hrun, hinv1, _, _, _, _, hplay1, _, hctx1, _⟩ :=
      readLocked_spec cap p rbuf hinv.1
    have hstep : step cap ⟨p, PC.top⟩ (Action.read rbuf) =
        some ({ p := p1, pc := if 0 < min rbuf.length p.ringLen.toNat
                  then wake PC.top else PC.top },
              { deq := ((contents cap p).take (min rbuf.length p.ringLen.toNat) ++
                  rbuf.drop (min rbuf.length p.ringLen.toNat)).take
                    (min rbuf.length p.ringLen.toNat), enq := [] }) := by
      simp only [step, hrun]
    refine ⟨_, _, hstep, ⟨hinv1, ?_⟩, Or.inl ⟨?_, by rw [hplay1]; exact hplay, hctx1, rfl⟩⟩
    · simp only []; split <;> trivial
    · simp only []; split <;> rfl
  | render =>
    obtain ⟨s1, m, hstep, hinv1, _⟩ := renderStep_spec cap ⟨p, PC.top⟩ hinv
    refine ⟨s1, m, hstep, hinv1, Or.inr ?_⟩
    simp only [renderStep] at hstep
    rw [if_pos hplay] at hstep
    cases hframes : p.ctx.frames with
    | nil =>
      simp only [Context.PlayFrame, hframes, Option.some.injEq, Prod.mk.injEq] at hstep
      obtain ⟨rfl, _⟩ := hstep
      exact Nat.lt_succ_self _
    | cons f rest =>
      simp only [Context.PlayFrame, hframes] at hstep
      split at hstep <;>
        (simp only [Option.some.injEq, Prod.mk.injEq] at hstep
         obtain ⟨rfl, _⟩ := hstep
         exact Nat.lt_succ_self _)

theorem top_run (cap : Nat) (acts : List Action) :
    ∀ s : Sys, (∀ a ∈ acts, a.isStop = false) → SysInv cap s → s.p.playing = true →
      s.pc = PC.top →
      ∃ s2 m2, run cap s acts = some (s2, m2) ∧
        (s2.p.ctx.playFrameCalls = s.p.ctx.playFrameCalls → s2.pc = PC.top ∧ m2.enq = []) := by
  induction acts with
  | nil => intro s _ _ _ hpc; exact ⟨s, _, rfl, fun _ => ⟨hpc, rfl⟩⟩
  | cons a rest ih =>
    intro s hns hinv hplay hpc
    obtain ⟨s1, m1, hstep, hinv1, hcase⟩ :=
      top_step cap s a hinv hplay hpc (hns a (List.mem_cons_self _ _))
    rcases hcase with ⟨hpc1, hplay1, hctx1, henq1⟩ | hlt
    · obtain ⟨s2, m2, hrun, h2⟩ :=
        ih s1 (fun b hb => hns b (List.mem_cons_of_mem _ hb)) hinv1 hplay1 hpc1
      refine ⟨s2, { deq := m1.deq ++ m2.deq, enq := m1.enq ++ m2.enq },
        by simp only [run, hstep, hrun], ?_⟩
      intro hc
      rw [hctx1] at h2
      obtain ⟨h3, h4⟩ := h2 hc
      exact ⟨h3, by simp [henq1, h4]⟩
    · obtain ⟨s2, m2, hrun, _, hle⟩ := run_calls cap rest s1 hinv1
      refine ⟨s2, { deq := m1.deq ++ m2.deq, enq := m1.enq ++ m2.enq },
        by simp only [run, hstep, hrun], ?_⟩
      intro hc
      omega

theorem take_drop_glue {α : Type} (l : List α) (w n : Nat) :
    (l.drop w).take n ++ l.drop (w + n) = l.drop w := by
  have h : l.drop (w + n) = (l.drop w).drop n := by
    rw [List.drop_drop]
  rw [h, List.take_append_drop]

theorem take_take_glue {α : Type} (l : List α) (w n1 n2 : Nat) :
    (l.drop w).take n1 ++ (l.drop (w + n1)).take n2 = (l.drop w).take (n1 + n2) := by
  have h : l.drop (w + n1) = (l.drop w).drop n1 := by
    rw [List.drop_drop]
  rw [h, List.take_add]

theorem pending_run (cap : Nat) (buf : List Byte) (acts : List Action) :
    ∀ (s : Sys) (w : Nat), (∀ a ∈ acts, a.isStop = false) → SysInv cap s →
      s.p.playing = true → Pending buf s w →
      ∃ s2 m2, run cap s acts = some (s2, m2) ∧
        (s2.p.ctx.playFrameCalls = s.p.ctx.playFrameCalls →
          (s2.pc = PC.top ∧ m2.enq = buf.drop w) ∨
          (Pending buf s2 (w + m2.enq.length) ∧ m2.enq = (buf.drop w).take m2.enq.length)) ∧
        (w + (cap - s.p.ringLen.toNat) + m2.deq.length < buf.length →
          Pending buf s2 (w + m2.enq.length) ∧ m2.enq = (buf.drop w).take m2.enq.length) := by
  induction acts with
  | nil =>
    intro s w _ _ _ hpend
    exact ⟨s, _, rfl, fun _ => Or.inr ⟨by simpa using hpend, by simp⟩,
      fun _ => ⟨by simpa using hpend, by simp⟩⟩
  | cons a rest ih =>
    intro s w hns hinv hplay hpend
    obtain ⟨s1, m1, hstep, hinv1, hplay1, hctx1, hlen1, hcase⟩ :=
      pending_step cap s a buf w hinv hplay hpend (hns a (List.mem_cons_self _ _))
    have hns1 : ∀ b ∈ rest, b.isStop = false := fun b hb => hns b (List.mem_cons_of_mem _ hb)
    obtain ⟨_, hs0, hs1, _⟩ := hinv.1
    obtain ⟨_, ht0, ht1, _⟩ := hinv1.1
    generalize hn1 : m1.enq.length = n1 at hlen1 hcase
    rcases hcase with ⟨hpend1, henq1⟩ | ⟨hpc1, henq1⟩
    · obtain ⟨s2, m2, hrun, hA, hB⟩ := ih s1 (w + n1) hns1 hinv1 hplay1 hpend1
      generalize hn2 : m2.enq.length = n2 at hA hB
      have hglue : ∀ P : Prop, P → (Pending buf s2 (w + n1 + n2) ∧
          m2.enq = (buf.drop (w + n1)).take n2) →
          Pending buf s2 (w + (m1.enq ++ m2.enq).length) ∧
            m1.enq ++ m2.enq = (buf.drop w).take (m1.enq ++ m2.enq).length := by
        intro _ _ hh
        rw [List.length_append, hn1, hn2, ← Nat.add_assoc]
        refine ⟨hh.1, ?_⟩
        rw [henq1, hh.2, take_take_glue]
      refine ⟨s2, { deq := m1.deq ++ m2.deq, enq := m1.enq ++ m2.enq },
        by simp only [run, hstep, hrun], ?_, ?_⟩
      · intro hc
        rw [hctx1] at hA
        rcases hA hc with ⟨h3, h4⟩ | h5
        · left
          refine ⟨h3, ?_⟩
          simp only []
          rw [henq1, h4, take_drop_glue]
        · right
          exact hglue True trivial h5
      · intro hb
        simp only [List.length_append] at hb
        exact hglue True trivial (hB (by omega))
    · obtain ⟨s2, m2, hrun, hA⟩ := top_run cap rest s1 hns1 hinv1 hplay1 hpc1
      refine ⟨s2, { deq := m1.deq ++ m2.deq, enq := m1.enq ++ m2.enq },
        by simp only [run, hstep, hrun], ?_, ?_⟩
      · intro hc
        rw [hctx1] at hA
        obtain ⟨h3, h4⟩ := hA hc
        left
        exact ⟨h3, by simp [h4, henq1]⟩
      · intro hb
        exfalso
        have hl : n1 = buf.length - w := by
          rw [← hn1, henq1, List.length_drop]
        have hw := hpend.2
        simp only [List.length_append] at hb
        omega

theorem locking_blocks (cap : Nat) (p : Player) (buf : List Byte)
    (h : RingInv cap p) (hplay : p.playing = true)
    (hbig : cap - p.ringLen.toNat < buf.length) :
    ∃ p1, step cap { p := p, pc := PC.locking buf } Action.render =
        some ({ p := p1, pc := PC.waiting buf ((cap - p.ringLen.toNat : Nat) : Int) },
              { deq := [], enq := buf.take (cap - p.ringLen.toNat) }) ∧
      RingInv cap p1 ∧ p1.ringLen = (cap : Int) ∧
      contents cap p1 = contents cap p ++ buf.take (cap - p.ringLen.toNat) ∧
      p1.playing = true ∧ p1.ctx = p.ctx := by
  have hl0 := h.2.1
  have hl1 := h.2.2.1
  obtain ⟨p1, w1, hrun, hinv1, hw1, hc1, hlen1, _, hplay1, _, hctx1, _, _⟩ :=
    resumeWrite_spec cap p buf 0 h (by omega)
  rw [if_pos hplay] at hw1
  have hw1e : w1 = cap - p.ringLen.toNat := by omega
  subst hw1e
  have hpos : (0 : Int) < (buf.length : Int) := by omega
  simp only [hplay, Bool.true_eq_false, if_false, pcAfter, if_pos hbig, List.drop_zero,
    Nat.sub_zero, Nat.cast_zero] at hrun hc1 hlen1
  have hstep : step cap { p := p, pc := PC.locking buf } Action.render =
      some ({ p := p1, pc := PC.waiting buf ((cap - p.ringLen.toNat : Nat) : Int) },
            { deq := [], enq := buf.take (cap - p.ringLen.toNat) }) := by
    simp only [step, renderStep, if_pos hpos]
    exact hrun
  exact ⟨p1, hstep, hinv1, by rw [hlen1]; omega, hc1, hplay1.trans hplay, hctx1⟩

theorem waiting_read (cap : Nat) (p1 : Player) (buf rbuf : List Byte) (w : Int)
    (hinv : RingInv cap p1) (hn : 0 < min rbuf.length p1.ringLen.toNat) :
    ∃ p2 deq, step cap { p := p1, pc := PC.waiting buf w } (Action.read rbuf) =
        some ({ p := p2, pc := PC.woken buf w }, { deq := deq, enq := [] }) ∧
      RingInv cap p2 ∧ p2.playing = p1.playing ∧ p2.ctx = p1.ctx ∧
      p2.ringLen = p1.ringLen - (min rbuf.length p1.ringLen.toNat : Nat) ∧
      deq.length = min rbuf.length p1.ringLen.toNat := by
  obtain ⟨p2, hrun, hinv2, _, hlen2, _, _, hplay2, _, hctx2, _⟩ :=
    readLocked_spec cap p1 rbuf hinv
  refine ⟨p2, _, ?_, hinv2, hplay2, hctx2, hlen2, readLocked_deq_length cap p1 rbuf⟩
  simp only [step, hrun, if_pos hn, wake]

theorem woken_completes (cap : Nat) (p2 : Player) (buf : List Byte) (w : Nat)
    (hinv : RingInv cap p2) (hplay : p2.playing = true) (hw : w < buf.length)
    (hroom : buf.length - w ≤ cap - p2.ringLen.toNat) :
    ∃ p3, step cap { p := p2, pc := PC.woken buf (w : Int) } Action.render =
        some ({ p := p3, pc := PC.top }, { deq := [], enq := buf.drop w }) ∧
      p3.ctx = p2.ctx := by
  obtain ⟨p3, w1, hrun3, _, hw1, _, _, _, _, _, hctx3, _, _⟩ :=
    resumeWrite_spec cap p2 buf w hinv hw
  rw [if_pos hplay, Nat.min_eq_left hroom] at hw1
  have hw1e : w1 = buf.length := by omega
  rw [hw1e] at hrun3
  refine ⟨p3, ?_, hctx3⟩
  have htake : (buf.drop w).take (buf.length - w) = buf.drop w :=
    List.take_of_length_le (by rw [List.length_drop])
  simp only [hplay, Bool.true_eq_false, if_false, pcAfter, Nat.lt_irrefl, htake] at hrun3
  exact hrun3

theorem one_read_completes (cap : Nat) (p1 : Player) (buf rbuf : List Byte) (w : Nat)
    (hinv : RingInv cap p1) (hplay : p1.playing = true) (hfull : p1.ringLen = (cap : Int))
    (hw : w < buf.length) (hfit : buf.length - w ≤ cap) (hread : buf.length - w ≤ rbuf.length) :
    ∃ s2 m2, run cap { p := p1, pc := PC.waiting buf (w : Int) }
        [Action.read rbuf, Action.render] = some (s2, m2) ∧
      s2.pc = PC.top ∧ m2.enq = buf.drop w ∧ s2.p.ctx = p1.ctx ∧
      m2.deq.length = min rbuf.length cap := by
  have hk : p1.ringLen.toNat = cap := by omega
  obtain ⟨p2, deq, hstep1, hinv2, hplay2, hctx2, hlen2, hdeq⟩ :=
    waiting_read cap p1 buf rbuf (w : Int) hinv (by omega)
  have hroom : buf.length - w ≤ cap - p2.ringLen.toNat := by omega
  obtain ⟨p3, hstep2, hctx3⟩ :=
    woken_completes cap p2 buf w hinv2 (hplay2.trans hplay) hw hroom
  have hrun2 : run cap { p := p1, pc := PC.waiting buf (w : Int) }
      [Action.read rbuf, Action.render] =
      some ({ p := p3, pc := PC.top },
            { deq := deq ++ ([] ++ []), enq := [] ++ (buf.drop w ++ []) }) := by
    simp only [run, hstep1, hstep2]
  refine ⟨_, _, hrun2, rfl, by simp, hctx3.trans hctx2, ?_⟩
  simp only [List.append_nil, hdeq, hk]

/-- C6. A frame of `L` bytes arrives at a ring of capacity `cap` that holds `k` bytes, with
`L > cap - k`, while playing.  The ring write deposits the first `cap - k` bytes and
waits in `Wait` with the ring full.  From there, in every schedule without `Stop`:
as long as the reads have dequeued fewer than `L - (cap - k)` bytes the write is
still in progress, and what it has deposited is a front part of the frame; and when
the goroutine is back at the top of its loop without having asked for another frame,
the reads have dequeued at least `L - (cap - k)` bytes and exactly the `L` bytes of
the frame have been deposited, in order.  Such a schedule exists: when the rest of
the frame fits in the ring, one `Read` of at least `L - (cap - k)` bytes followed by
the wake-up completes the write. -/
theorem write_blocks_until_freed (cap : Nat) (p : Player) (buf : List Byte)
    (h : RingInv cap p) (hplay : p.playing = true)
    (hbig : cap - p.ringLen.toNat < buf.length) :
    ∃ p1, step cap { p := p, pc := PC.locking buf } Action.render =
        some ({ p := p1, pc := PC.waiting buf ((cap - p.ringLen.toNat : Nat) : Int) },
              { deq := [], enq := buf.take (cap - p.ringLen.toNat) }) ∧
      p1.ringLen = (cap : Int) ∧
      contents cap p1 = contents cap p ++ buf.take (cap - p.ringLen.toNat) ∧
      (∀ acts : List Action, (∀ a ∈ acts, a.isStop = false) →
        ∃ s2 m2, run cap { p := p1, pc := PC.waiting buf ((cap - p.ringLen.toNat : Nat) : Int) }
            acts = some (s2, m2) ∧
          (m2.deq.length < buf.length - (cap - p.ringLen.toNat) →
            ∃ w, Pending buf s2 w ∧ buf.take (cap - p.ringLen.toNat) ++ m2.enq = buf.take w) ∧
          (s2.pc = PC.top → s2.p.ctx.playFrameCalls = p.ctx.playFrameCalls →
            buf.take (cap - p.ringLen.toNat) ++ m2.enq = buf ∧
            buf.length - (cap - p.ringLen.toNat) ≤ m2.deq.length)) ∧
      ∀ rbuf : List Byte, buf.length - (cap - p.ringLen.toNat) ≤ rbuf.length →
        buf.length - (cap - p.ringLen.toNat) ≤ cap →
        ∃ s2 m2, run cap { p := p1, pc := PC.waiting buf ((cap - p.ringLen.toNat : Nat) : Int) }
            [Action.read rbuf, Action.render] = some (s2, m2) ∧
          s2.pc = PC.top ∧ s2.p.ctx.playFrameCalls = p.ctx.playFrameCalls ∧
          buf.take (cap - p.ringLen.toNat) ++ m2.enq = buf := by
  obtain ⟨p1, hstep, hinv1, hlen1, hc1, hplay1, hctx1⟩ :=
    locking_blocks cap p buf h hplay hbig
  refine ⟨p1, hstep, hlen1, hc1, ?_, ?_⟩
  swap
  · intro rbuf hread hfit
    obtain ⟨s2, m2, hrun, hpc, henq, hctx, _⟩ :=
      one_read_completes cap p1 buf rbuf (cap - p.ringLen.toNat) hinv1 hplay1 hlen1 hbig hfit hread
    exact ⟨s2, m2, hrun, hpc, by rw [hctx, hctx1], by rw [henq, List.take_append_drop]⟩
  intro acts hns
  have hpend : Pending buf { p := p1, pc := PC.waiting buf ((cap - p.ringLen.toNat : Nat) : Int) }
      (cap - p.ringLen.toNat) := ⟨Or.inl rfl, hbig⟩
  have hsys : SysInv cap
      { p := p1, pc := PC.waiting buf ((cap - p.ringLen.toNat : Nat) : Int) } :=
    ⟨hinv1, ⟨Int.natCast_nonneg _, Int.ofNat_lt.mpr hbig⟩⟩
  obtain ⟨s2, m2, hrun2, hA, hB⟩ := pending_run cap buf acts
    { p := p1, pc := PC.waiting buf ((cap - p.ringLen.toNat : Nat) : Int) }
    (cap - p.ringLen.toNat) hns hsys hplay1 hpend
  have hfree : cap - p1.ringLen.toNat = 0 := by rw [hlen1]; omega
  simp only [hfree, Nat.add_zero] at hB
  have hfront : ∀ n, buf.take (cap - p.ringLen.toNat) ++
      (buf.drop (cap - p.ringLen.toNat)).take n = buf.take (cap - p.ringLen.toNat + n) := by
    intro n; rw [List.take_add]
  have hstill : m2.deq.length < buf.length - (cap - p.ringLen.toNat) →
      Pending buf s2 (cap - p.ringLen.toNat + m2.enq.length) ∧
        buf.take (cap - p.ringLen.toNat) ++ m2.enq =
          buf.take (cap - p.ringLen.toNat + m2.enq.length) := by
    intro hd
    obtain ⟨h1, h2⟩ := hB (by omega)
    refine ⟨h1, ?_⟩
    generalize m2.enq.length = n at h2 ⊢
    rw [h2, hfront]
  refine ⟨s2, m2, hrun2, fun hd => ⟨cap - p.ringLen.toNat + m2.enq.length, hstill hd⟩, ?_⟩
  intro htop hcalls
  rw [hctx1] at hA
  rcases hA hcalls with ⟨_, h4⟩ | ⟨h5, _⟩
  · refine ⟨by rw [h4, List.take_append_drop], ?_⟩
    by_contra hlt
    obtain ⟨⟨h6, _⟩, _⟩ := hstill (by omega)
    rw [htop] at h6
    rcases h6 with h6 | h6 <;> cases h6
  · obtain ⟨h6, _⟩ := h5
    rw [htop] at h6
    rcases h6 with h6 | h6 <;> cases h6

theorem scenario_inv : RingInv 1000 scenarioPlayer :=
  ⟨List.length_replicate 1000 (0 : Byte), by decide, by decide, by decide, by decide, by decide,
    by decide, by decide⟩

theorem scenario_big : 1000 - scenarioPlayer.ringLen.toNat < scenarioBuf.length := by
  have h : scenarioBuf.length = 1500 := List.length_replicate 1500 (7 : Byte)
  rw [h]
  decide

theorem write_blocks_until_freed_witness :
    (run 4 { p := demoPlayer, pc := PC.locking [1, 2, 3] }
        [Action.render, Action.read [9, 9], Action.render]).map
        (fun r => (r.1.pc, r.2.deq, r.2.enq, contents 4 r.1.p)) =
      some (PC.top, [7, 8], [1, 2, 3], [5, 1, 2, 3]) ∧
    RingInv 1000 scenarioPlayer ∧ scenarioPlayer.playing = true ∧
    1000 - scenarioPlayer.ringLen.toNat < scenarioBuf.length ∧
    ∃ p1, step 1000 { p := scenarioPlayer, pc := PC.locking scenarioBuf } Action.render =
        some ({ p := p1,
                pc := PC.waiting scenarioBuf ((1000 - scenarioPlayer.ringLen.toNat : Nat) : Int) },
              { deq := [], enq := scenarioBuf.take (1000 - scenarioPlayer.ringLen.toNat) }) ∧
      p1.ringLen = ((1000 : Nat) : Int) ∧
      contents 1000 p1 = contents 1000 scenarioPlayer ++
        scenarioBuf.take (1000 - scenarioPlayer.ringLen.toNat) ∧
      (∀ acts : List Action, (∀ a ∈ acts, a.isStop = false) →
        ∃ s2 m2,
          run 1000
            { p := p1,
              pc := PC.waiting scenarioBuf ((1000 - scenarioPlayer.ringLen.toNat : Nat) : Int) }
            acts = some (s2, m2) ∧
          (m2.deq.length < scenarioBuf.length - (1000 - scenarioPlayer.ringLen.toNat) →
            ∃ w, Pending scenarioBuf s2 w ∧
              scenarioBuf.take (1000 - scenarioPlayer.ringLen.toNat) ++ m2.enq =
                scenarioBuf.take w) ∧
          (s2.pc = PC.top → s2.p.ctx.playFrameCalls = scenarioPlayer.ctx.playFrameCalls →
            scenarioBuf.take (1000 - scenarioPlayer.ringLen.toNat) ++ m2.enq = scenarioBuf ∧
            scenarioBuf.length - (1000 - scenarioPlayer.ringLen.toNat) ≤ m2.deq.length)) ∧
      ∀ rbuf : List Byte,
        scenarioBuf.length - (1000 - scenarioPlayer.ringLen.toNat) ≤ rbuf.length →
        scenarioBuf.length - (1000 - scenarioPlayer.ringLen.toNat) ≤ 1000 →
        ∃ s2 m2,
          run 1000
            { p := p1,
              pc := PC.waiting scenarioBuf ((1000 - scenarioPlayer.ringLen.toNat : Nat) : Int) }
            [Action.read rbuf, Action.render] = some (s2, m2) ∧
          s2.pc = PC.top ∧ s2.p.ctx.playFrameCalls = scenarioPlayer.ctx.playFrameCalls ∧
          scenarioBuf.take (1000 - scenarioPlayer.ringLen.toNat) ++ m2.enq = scenarioBuf :=
  ⟨by rfl, scenario_inv, rfl, scenario_big,
   write_blocks_until_freed 1000 scenarioPlayer scenarioBuf scenario_inv rfl scenario_big⟩

/-! ## Stop while the render goroutine waits -/

theorem exited_step (cap : Nat) (s : Sys) (a : Action) (hinv : RingInv cap s.p)
    (hpc : s.pc = PC.exited) :
    ∃ s1 m, step cap s a = some (s1, m) ∧ RingInv cap s1.p ∧ s1.pc = PC.exited ∧
      s1.p.ctx = s.p.ctx ∧ s1.p.done = s.p.done ∧ m.enq = [] := by
  obtain ⟨p, pc⟩ := s
  simp only at hpc hinv
  subst hpc
  cases a with
  | start => exact ⟨_, _, rfl, hinv, rfl, rfl, rfl, rfl⟩
  | render => exact ⟨_, _, rfl, hinv, rfl, rfl, rfl, rfl⟩
  | stop => exact ⟨_, _, rfl, hinv.congr rfl rfl rfl rfl, rfl, rfl, rfl, rfl⟩
  | stopMissed => exact ⟨_, _, rfl, hinv.congr rfl rfl rfl rfl, rfl, rfl, rfl, rfl⟩
  | read rbuf =>
    obtain ⟨p1, hrun, hinv1, _, _, _, _, _, hdone1, hctx1, _⟩ := readLocked_spec cap p rbuf hinv
    have hstep : step cap ⟨p, PC.exited⟩ (Action.read rbuf) =
        some ({ p := p1, pc := if 0 < min rbuf.length p.ringLen.toNat
                  then wake PC.exited else PC.exited },
              { deq := ((contents cap p).take (min rbuf.length p.ringLen.toNat) ++
                  rbuf.drop (min rbuf.length p.ringLen.toNat)).take
                    (min rbuf.length p.ringLen.toNat), enq := [] }) := by
      simp only [step, hrun]
    refine ⟨_, _, hstep, hinv1, ?_, hctx1, hdone1, rfl⟩
    simp only []; split <;> rfl

theorem exited_run (cap : Nat) (acts : List Action) :
    ∀ s : Sys, RingInv cap s.p → s.pc = PC.exited →
      ∃ s2 m2, run cap s acts = some (s2, m2) ∧ s2.pc = PC.exited ∧
        s2.p.ctx = s.p.ctx ∧ s2.p.done = s.p.done ∧ m2.enq = [] := by
  induction acts with
  | nil => intro s _ hpc; exact ⟨s, _, rfl, hpc, rfl, rfl, rfl⟩
  | cons a rest ih =>
    intro s hinv hpc
    obtain ⟨s1, m1, hstep, hinv1, hpc1, hctx1, hdone1, henq1⟩ := exited_step cap s a hinv hpc
    obtain ⟨s2, m2, hrun, hpc2, hctx2, hdone2, henq2⟩ := ih s1 hinv1 hpc1
    exact ⟨s2, { deq := m1.deq ++ m2.deq, enq := m1.enq ++ m2.enq },
      by simp only [run, hstep, hrun], hpc2, by rw [hctx2, hctx1], by rw [hdone2, hdone1],
      by simp [henq1, henq2]⟩

/-- C7. The render goroutine waits in `Wait` inside the ring write, whatever the occupancy
of the ring.  `Stop` clears `playing` and its broadcast wakes the goroutine.  A woken
goroutine that finds `playing` false returns from `renderLoop` at once: `done` is
closed, and the ring, both cursors, the occupancy and the decoder are as they were,
so nothing was deposited and `PlayFrame` was not called.  (A goroutine whose wake-up
comes from a `Read`, after a broadcast it did not hear, leaves in the same way.)
Whatever is scheduled afterwards, the goroutine stays gone, nothing is deposited and
the decoder is never touched again. -/
theorem stop_releases_writer (cap : Nat) (p : Player) (buf : List Byte) (w : Int)
    (h : RingInv cap p) (acts : List Action) :
    step cap { p := p, pc := PC.waiting buf w } Action.stop =
        some ({ p := { p with playing := false }, pc := PC.woken buf w },
              { deq := [], enq := [] }) ∧
      step cap { p := { p with playing := false }, pc := PC.woken buf w } Action.render =
        some ({ p := { p with playing := false, done := true }, pc := PC.exited },
              { deq := [], enq := [] }) ∧
      ∃ s2 m2, run cap { p := p, pc := PC.waiting buf w }
          (Action.stop :: Action.render :: acts) = some (s2, m2) ∧
        s2.pc = PC.exited ∧ s2.p.done = true ∧ s2.p.ctx = p.ctx ∧ m2.enq = [] := by
  have hstop : step cap { p := p, pc := PC.waiting buf w } Action.stop =
      some ({ p := { p with playing := false }, pc := PC.woken buf w },
            { deq := [], enq := [] }) := rfl
  have hrender : step cap { p := { p with playing := false }, pc := PC.woken buf w }
      Action.render =
      some ({ p := { p with playing := false, done := true }, pc := PC.exited },
            { deq := [], enq := [] }) := by
    simp [step, renderStep, resumeWrite, writeFrom]
  refine ⟨hstop, hrender, ?_⟩
  obtain ⟨s2, m2, hrun, hpc2, hctx2, hdone2, henq2⟩ := exited_run cap acts
    { p := { p with playing := false, done := true }, pc := PC.exited }
    (h.congr rfl rfl rfl rfl) rfl
  exact ⟨s2, { deq := [] ++ ([] ++ m2.deq), enq := [] ++ ([] ++ m2.enq) },
    by simp only [run, hstop, hrender, hrun], hpc2, by rw [hdone2], by rw [hctx2],
    by simp [henq2]⟩

theorem stop_releases_writer_witness :
    RingInv 4 demoPlayer ∧
    (step 4 { p := demoPlayer, pc := PC.waiting [1, 2, 3] 1 } Action.stop =
        some ({ p := { demoPlayer with playing := false }, pc := PC.woken [1, 2, 3] 1 },
              { deq := [], enq := [] }) ∧
      step 4 { p := { demoPlayer with playing := false }, pc := PC.woken [1, 2, 3] 1 }
          Action.render =
        some ({ p := { demoPlayer with playing := false, done := true }, pc := PC.exited },
              { deq := [], enq := [] }) ∧
      ∃ s2 m2, run 4 { p := demoPlayer, pc := PC.waiting [1, 2, 3] 1 }
          (Action.stop :: Action.render :: [Action.read [9, 9], Action.render]) =
            some (s2, m2) ∧
        s2.pc = PC.exited ∧ s2.p.done = true ∧ s2.p.ctx = demoPlayer.ctx ∧ m2.enq = []) :=
  ⟨by decide,
   stop_releases_writer 4 demoPlayer [1, 2, 3] 1 (by decide) [Action.read [9, 9], Action.render]⟩

/-! ## The end of the stream -/

/-- C17, counterexample.  On a decoder that is at the end of its module, the render
goroutine started by `Start` terminates in its first stretch and closes `done`, and
the slot that `SyncState` reads still holds the zero snapshot of `NewPlayer`,
although the frame information of the decoder is a different one: nothing has been
published. -/
theorem final_snapshot_counterexample :
    endedCtx.PlayFrame.1 = false ∧
    (run 4 (Sys.init 4 endedCtx) [Action.start, Action.render]).map
        (fun r => (r.1.pc, r.1.p.done, SyncState r.1.p)) =
      some (PC.exited, true, FrameInfo.zero) ∧
    endedCtx.PlayFrame.2.GetFrameInfo ≠ FrameInfo.zero := by
  refine ⟨by rfl, by rfl, by decide⟩

/-! ## The published snapshot -/

theorem published_congr {ctx0 : Context} {p q : Player} (h : Published ctx0 p)
    (h1 : q.ctx.frames = p.ctx.frames) (h2 : q.info = p.info) : Published ctx0 q := by
  obtain ⟨k, hk, hf, hi⟩ := h
  exact ⟨k, hk, h1.trans hf, h2.trans hi⟩

/-- Every step keeps the slot at the snapshot of the last rendered frame. -/
theorem step_published (cap : Nat) (ctx0 : Context) (s : Sys) (a : Action)
    (hinv : SysInv cap s) (hpub : Published ctx0 s.p) :
    ∃ s1 m, step cap s a = some (s1, m) ∧ SysInv cap s1 ∧ Published ctx0 s1.p := by
  obtain ⟨s1, m, hstep, hinv1, _⟩ := step_spec cap s a hinv
  refine ⟨s1, m, hstep, hinv1, ?_⟩
  obtain ⟨p, pc⟩ := s
  cases a with
  | start =>
    simp only [step] at hstep
    cases pc <;> (cases hstep; exact published_congr hpub rfl rfl)
  | stop =>
    cases hstep
    exact published_congr hpub rfl rfl
  | stopMissed =>
    cases hstep
    exact published_congr hpub rfl rfl
  | read rbuf =>
    obtain ⟨p1, hrun, _, _, _, _, _, _, _, hctx1, hinfo1⟩ := readLocked_spec cap p rbuf hinv.1
    simp only [step, hrun, Option.some.injEq, Prod.mk.injEq] at hstep
    obtain ⟨rfl, _⟩ := hstep
    exact published_congr hpub (by simp only [hctx1]) hinfo1
  | render =>
    simp only [step] at hstep
    cases pc with
    | idle => cases hstep; exact hpub
    | waiting buf w => cases hstep; exact hpub
    | exited => cases hstep; exact hpub
    | top =>
      simp only [renderStep] at hstep
      by_cases hplay : p.playing = true
      · rw [if_pos hplay] at hstep
        cases hframes : p.ctx.frames with
        | nil =>
          simp only [Context.PlayFrame, hframes, Option.some.injEq, Prod.mk.injEq] at hstep
          obtain ⟨rfl, _⟩ := hstep
          exact published_congr hpub (by simp only [hframes]) rfl
        | cons f rest =>
          obtain ⟨k, hk, hf, hi⟩ := hpub
          have hdrop : ctx0.frames.drop k = f :: rest := by
            rw [← hf]
            exact hframes
          have hklt : k < ctx0.frames.length := by
            by_contra hge
            rw [List.drop_of_length_le (by omega)] at hdrop
            exact absurd hdrop (by simp)
          have hget : ctx0.frames[k]? = some f := by
            rw [← List.head?_drop, hdrop]
            rfl
          have hrest : ctx0.frames.drop (k + 1) = rest := by
            have := List.drop_drop 1 k ctx0.frames
            rw [hdrop] at this
            simpa [Nat.add_comm] using this.symm
          have hpub1 : ∀ q : Player, q.ctx.frames = rest → q.info = f.1 → Published ctx0 q := by
            intro q h1 h2
            refine ⟨k + 1, by omega, by rw [h1, hrest], ?_⟩
            simp only [lastSnapshot, hget, h2]
          simp only [Context.PlayFrame, hframes] at hstep
          split at hstep <;>
            (simp only [Option.some.injEq, Prod.mk.injEq] at hstep
             obtain ⟨rfl, _⟩ := hstep
             exact hpub1 _ rfl rfl)
      · rw [if_neg hplay] at hstep
        cases hstep
        exact published_congr hpub rfl rfl
    | locking buf =>
      simp only [renderStep] at hstep
      by_cases hlen : (0 : Int) < (buf.length : Int)
      · rw [if_pos hlen] at hstep
        obtain ⟨p1, w1, hrun, _, _, _, _, _, _, _, hctx1, hinfo1, _⟩ :=
          resumeWrite_spec cap p buf 0 hinv.1 (by omega)
        have hrun2 : resumeWrite cap p buf 0 = _ := hrun
        rw [hrun2] at hstep
        cases hstep
        simp only []
        split
        · exact published_congr hpub (by simp only [hctx1]) hinfo1
        · exact published_congr hpub (by simp only [hctx1]) hinfo1
      · rw [if_neg hlen] at hstep
        cases hstep
        exact hpub
    | woken buf w =>
      simp only [renderStep] at hstep
      obtain ⟨hw0, hw1⟩ := hinv.2
      obtain ⟨wn, rfl⟩ : ∃ wn : Nat, w = (wn : Int) := ⟨w.toNat, by omega⟩
      obtain ⟨p1, w1, hrun, _, _, _, _, _, _, _, hctx1, hinfo1, _⟩ :=
        resumeWrite_spec cap p buf wn hinv.1 (by omega)
      rw [hrun] at hstep
      cases hstep
      simp only []
      split
      · exact published_congr hpub (by simp only [hctx1]) hinfo1
      · exact published_congr hpub (by simp only [hctx1]) hinfo1

/-- Every run from a state that satisfies the invariant keeps the slot at the snapshot of
the last rendered frame. -/
theorem run_published (cap : Nat) (ctx0 : Context) (acts : List Action) :
    ∀ s : Sys, SysInv cap s → Published ctx0 s.p →
      ∃ s1 m, run cap s acts = some (s1, m) ∧ SysInv cap s1 ∧ Published ctx0 s1.p := by
  induction acts with
  | nil => intro s h hp; exact ⟨s, _, rfl, h, hp⟩
  | cons a rest ih =>
    intro s h hp
    obtain ⟨s1, m1, hstep, hinv1, hp1⟩ := step_published cap ctx0 s a h hp
    obtain ⟨s2, m2, hrun, hinv2, hp2⟩ := ih s1 hinv1 hp1
    exact ⟨s2, { deq := m1.deq ++ m2.deq, enq := m1.enq ++ m2.enq },
      by simp only [run, hstep, hrun], hinv2, hp2⟩

theorem init_published (cap : Nat) (ctx0 : Context) : Published ctx0 (Sys.init cap ctx0).p :=
  ⟨0, Nat.zero_le _, by simp [Sys.init, NewPlayer], by simp [Sys.init, NewPlayer, lastSnapshot]⟩

/-- C17, amended.  On the stretch of the render loop in which `PlayFrame` returns false,
the render goroutine terminates the loop and closes `done` without publishing a
snapshot: the slot read by `SyncState`, the frame counter and the ring are as they
were.  In every run from `NewPlayer` the slot then holds the snapshot published for
the last rendered frame, which is the last frame of the module, or the zero snapshot
when no frame was rendered. -/
theorem end_of_stream_exits (cap : Nat) (s : Sys) (hpc : s.pc = PC.top)
    (hplay : s.p.playing = true) (hend : s.p.ctx.PlayFrame.1 = false) :
    ∃ s1, step cap s Action.render = some (s1, { deq := [], enq := [] }) ∧
      s1.pc = PC.exited ∧ s1.p.done = true ∧ SyncState s1.p = SyncState s.p ∧
      s1.p.framesRendered = s.p.framesRendered ∧ s1.p.ring = s.p.ring ∧
      s1.p.ringLen = s.p.ringLen ∧
      ∀ (ctx0 : Context) (acts : List Action) (m : Moved), 0 < cap →
        run cap (Sys.init cap ctx0) acts = some (s, m) →
        SyncState s1.p = lastSnapshot ctx0.frames ctx0.frames.length := by
  cases hpf : s.p.ctx.PlayFrame with
  | mk ok ctx1 =>
    rw [hpf] at hend
    simp only at hend
    subst hend
    refine ⟨{ p := { s.p with ctx := ctx1, done := true }, pc := PC.exited },
      by simp only [step, renderStep, hpc, hplay, if_true, hpf], rfl, rfl, rfl, rfl, rfl, rfl, ?_⟩
    intro ctx0 acts m hcap hrun
    obtain ⟨s2, m2, hrun2, _, hp⟩ :=
      run_published cap ctx0 acts (Sys.init cap ctx0) (init_inv cap ctx0 hcap)
        (init_published cap ctx0)
    rw [hrun, Option.some.injEq, Prod.mk.injEq] at hrun2
    obtain ⟨rfl, _⟩ := hrun2
    obtain ⟨k, hk, hf, hi⟩ := hp
    have hnil : s.p.ctx.frames = [] := by
      cases hfr : s.p.ctx.frames with
      | nil => rfl
      | cons f rest =>
        simp only [Context.PlayFrame, hfr] at hpf
        have := congrArg Prod.fst hpf
        simp at this
    have hklen : k = ctx0.frames.length := by
      rw [hnil] at hf
      have := congrArg List.length hf
      simp only [List.length_nil, List.length_drop] at this
      omega
    show s.p.info = _
    rw [hi, hklen]

theorem end_of_stream_exits_witness :
    lastFrameSys.pc = PC.top ∧ lastFrameSys.p.playing = true ∧
    lastFrameSys.p.ctx.PlayFrame.1 = false ∧
    run 4 (Sys.init 4 twoFrameCtx) [Action.start, Action.render, Action.render] =
      some (lastFrameSys, { deq := [], enq := [] }) ∧
    lastSnapshot twoFrameCtx.frames twoFrameCtx.frames.length =
      { FrameInfo.zero with Order := 1, Row := 7 } ∧
    ∃ s1, step 4 lastFrameSys Action.render = some (s1, { deq := [], enq := [] }) ∧
      s1.pc = PC.exited ∧ s1.p.done = true ∧ SyncState s1.p = SyncState lastFrameSys.p ∧
      s1.p.framesRendered = lastFrameSys.p.framesRendered ∧ s1.p.ring = lastFrameSys.p.ring ∧
      s1.p.ringLen = lastFrameSys.p.ringLen ∧
      ∀ (ctx0 : Context) (acts : List Action) (m : Moved), 0 < 4 →
        run 4 (Sys.init 4 ctx0) acts = some (lastFrameSys, m) →
        SyncState s1.p = lastSnapshot ctx0.frames ctx0.frames.length :=
  ⟨by rfl, by rfl, by rfl, by rfl, by rfl,
    end_of_stream_exits 4 lastFrameSys (by rfl) (by rfl) (by rfl)⟩

/-! ## `FadeOut` -/

theorem milliVolumeOps_laws : milliVolumeOps.Laws where
  le_refl := by simp [milliVolumeOps]
  le_trans := by
    intro a b c
    simp only [milliVolumeOps, decide_eq_true_eq]
    exact le_trans
  le_total := by
    intro a b
    simp only [milliVolumeOps, decide_eq_true_eq]
    exact le_total a b
  lt_iff_not_le := by
    intro a b
    simp [milliVolumeOps]
  zero_le_one := by simp [milliVolumeOps]
  of_mono := by
    intro a b h
    simpa [milliVolumeOps] using h
  of_zero := by simp [milliVolumeOps]
  of_pos := by
    intro d h
    simpa [milliVolumeOps] using h
  div_mono := by
    intro a b D
    simp only [milliVolumeOps, decide_eq_true_eq]
    intro hD hab
    exact Int.ediv_le_ediv hD (by omega)
  zero_div := by
    intro a D
    simp only [milliVolumeOps, decide_eq_true_eq]
    intro hD ha
    exact Int.ediv_nonneg (by omega) (by omega)
  div_self := by
    intro D
    simp only [milliVolumeOps, decide_eq_true_eq]
    intro hD
    rw [Int.mul_ediv_cancel_left _ (by omega)]
  sub_anti := by
    intro x y
    simp only [milliVolumeOps, decide_eq_true_eq]
    omega
  sub_one := by
    intro x
    simp only [milliVolumeOps, decide_eq_true_eq]
    omega
  sub_zero := by
    intro x
    simp only [milliVolumeOps, decide_eq_true_eq]
    omega
  mul_mono := by
    intro v a b
    simp only [milliVolumeOps, decide_eq_true_eq]
    intro hv hab
    exact Int.ediv_le_ediv (by decide) (Int.mul_le_mul_of_nonneg_left hab hv)
  mul_zero := by
    intro v a
    simp only [milliVolumeOps, decide_eq_true_eq]
    intro hv ha
    exact Int.ediv_nonneg (Int.mul_nonneg hv ha) (by decide)
  mul_one := by
    intro v a
    simp only [milliVolumeOps, decide_eq_true_eq]
    intro hv ha
    have h1 : v * a ≤ v * 1000 := Int.mul_le_mul_of_nonneg_left ha hv
    have h2 : v * a / 1000 ≤ v * 1000 / 1000 := Int.ediv_le_ediv (by decide) h1
    rw [Int.mul_ediv_cancel _ (by decide)] at h2
    exact h2

/-- `SetVolume` stores a value between 0 and 1 as it is. -/
theorem setVolume_of_range {F : Type} (ops : VolumeOps F) (hlaws : ops.Laws) (v : F)
    (h0 : ops.le ops.zero v = true) (h1 : ops.le v ops.one = true) : SetVolume ops v = v := by
  have hlt0 : ops.lt v ops.zero = false := by
    cases hx : ops.lt v ops.zero
    · rfl
    · rw [(hlaws.lt_iff_not_le _ _).mp hx] at h0
      exact absurd h0 (by decide)
  have hlt1 : ops.lt ops.one v = false := by
    cases hx : ops.lt ops.one v
    · rfl
    · rw [(hlaws.lt_iff_not_le _ _).mp hx] at h1
      exact absurd h1 (by decide)
  simp [SetVolume, hlt0, hlt1]

/-- The value of the ramp at a reading before the end is between 0 and the starting
volume. -/
theorem fadeValue_range {F : Type} (ops : VolumeOps F) (hlaws : ops.Laws) (v0 : F) (d e : Int)
    (hv0 : ops.le ops.zero v0 = true) (he0 : 0 ≤ e) (hed : e < d) :
    ops.le ops.zero (fadeValue ops v0 d e) = true ∧
    ops.le (fadeValue ops v0 d e) v0 = true := by
  have hD : ops.lt ops.zero (ops.ofDuration d) = true := hlaws.of_pos d (by omega)
  have he : ops.le ops.zero (ops.ofDuration e) = true :=
    hlaws.le_trans _ _ _ hlaws.of_zero (hlaws.of_mono 0 e he0)
  have hq0 : ops.le ops.zero (ops.div (ops.ofDuration e) (ops.ofDuration d)) = true :=
    hlaws.zero_div _ _ hD he
  have hq1 : ops.le (ops.div (ops.ofDuration e) (ops.ofDuration d)) ops.one = true :=
    hlaws.le_trans _ _ _ (hlaws.div_mono _ _ _ hD (hlaws.of_mono e d (by omega)))
      (hlaws.div_self _ hD)
  exact ⟨hlaws.mul_zero _ _ hv0 (hlaws.sub_one _ hq1), hlaws.mul_one _ _ hv0 (hlaws.sub_zero _ hq0)⟩

/-- The value of the ramp does not increase with the reading. -/
theorem fadeValue_anti {F : Type} (ops : VolumeOps F) (hlaws : ops.Laws) (v0 : F) (d e1 e2 : Int)
    (hv0 : ops.le ops.zero v0 = true) (hd : 0 < d) (h : e1 ≤ e2) :
    ops.le (fadeValue ops v0 d e2) (fadeValue ops v0 d e1) = true :=
  hlaws.mul_mono _ _ _ hv0
    (hlaws.sub_anti _ _ (hlaws.div_mono _ _ _ (hlaws.of_pos d hd) (hlaws.of_mono e1 e2 h)))

theorem volumeAt_range {F : Type} (ops : VolumeOps F) (hlaws : ops.Laws) (v0 : F) (d e : Int)
    (hv0 : ops.le ops.zero v0 = true) (he0 : 0 ≤ e) :
    ops.le ops.zero (volumeAt ops v0 d e) = true ∧ ops.le (volumeAt ops v0 d e) v0 = true := by
  by_cases hed : e < d
  · simp only [volumeAt, if_pos hed]
    exact fadeValue_range ops hlaws v0 d e hv0 he0 hed
  · simp only [volumeAt, if_neg hed]
    exact ⟨hlaws.le_refl _, hv0⟩

theorem volumeAt_anti {F : Type} (ops : VolumeOps F) (hlaws : ops.Laws) (v0 : F) (d e1 e2 : Int)
    (hv0 : ops.le ops.zero v0 = true) (hd : 0 < d) (he1 : 0 ≤ e1) (h : e1 ≤ e2) :
    ops.le (volumeAt ops v0 d e2) (volumeAt ops v0 d e1) = true := by
  by_cases h2 : e2 < d
  · have h1 : e1 < d := by omega
    simp only [volumeAt, if_pos h1, if_pos h2]
    exact fadeValue_anti ops hlaws v0 d e1 e2 hv0 hd h
  · have := (volumeAt_range ops hlaws v0 d e1 hv0 he1).1
    simp only [volumeAt, if_neg h2]
    exact this

theorem untilElapsed_sublist (d : Int) : ∀ l : List Int, (untilElapsed d l).Sublist l := by
  intro l
  induction l with
  | nil => exact List.Sublist.refl _
  | cons e rest ih =>
    simp only [untilElapsed]
    split_ifs
    · exact List.Sublist.cons₂ _ (List.nil_sublist _)
    · exact List.Sublist.cons₂ _ ih

/-- The loop of `FadeOut`, for a starting volume between 0 and 1 and readings that are
not negative: it stores the volume of the ramp at each reading up to the first one
that has reached the duration, where it stores 0, closes `done` and returns. -/
theorem fadeLoop_spec {F : Type} (ops : VolumeOps F) (hlaws : ops.Laws) (v0 : F) (d : Int)
    (hv0 : ops.le ops.zero v0 = true) (hv1 : ops.le v0 ops.one = true) :
    ∀ (samples : List Int) (r : FadeRun F), (∀ e ∈ samples, 0 ≤ e) →
      (fadeLoop ops v0 d samples r).sets =
        r.sets ++ (untilElapsed d samples).map (volumeAt ops v0 d) ∧
      (fadeLoop ops v0 d samples r).volume =
        ((untilElapsed d samples).map (volumeAt ops v0 d)).getLast?.getD r.volume ∧
      ((∃ e ∈ samples, d ≤ e) →
        (fadeLoop ops v0 d samples r).closes = r.closes + 1 ∧
        (fadeLoop ops v0 d samples r).running = false ∧
        (fadeLoop ops v0 d samples r).volume = ops.zero) ∧
      ((∀ e ∈ samples, e < d) →
        (fadeLoop ops v0 d samples r).closes = r.closes ∧
        (fadeLoop ops v0 d samples r).running = r.running) := by
  intro samples
  induction samples with
  | nil =>
    intro r _
    refine ⟨by simp [fadeLoop, untilElapsed], by simp [fadeLoop, untilElapsed], ?_, fun _ => ⟨rfl, rfl⟩⟩
    rintro ⟨e, he, _⟩
    simp at he
  | cons e rest ih =>
    intro r hnn
    by_cases hed : e ≥ d
    · have hzero : SetVolume ops ops.zero = ops.zero :=
        setVolume_of_range ops hlaws _ (hlaws.le_refl _) hlaws.zero_le_one
      have hnot : ¬ e < d := by omega
      simp only [fadeLoop, untilElapsed, if_pos hed, hzero, List.map_cons, List.map_nil,
        volumeAt, if_neg hnot]
      refine ⟨trivial, by simp, fun _ => ⟨trivial, trivial, trivial⟩, ?_⟩
      intro hall
      have := hall e (List.mem_cons_self _ _)
      omega
    · have hlt : e < d := by omega
      have he0 : 0 ≤ e := hnn e (List.mem_cons_self _ _)
      obtain ⟨hr0, hr1⟩ := fadeValue_range ops hlaws v0 d e hv0 he0 hlt
      have hset : SetVolume ops (ops.mul v0 (ops.sub ops.one
          (ops.div (ops.ofDuration e) (ops.ofDuration d)))) = fadeValue ops v0 d e :=
        setVolume_of_range ops hlaws _ hr0 (hlaws.le_trans _ _ _ hr1 hv1)
      obtain ⟨i1, i2, i3, i4⟩ := ih
        { r with volume := fadeValue ops v0 d e, sets := r.sets ++ [fadeValue ops v0 d e] }
        (fun x hx => hnn x (List.mem_cons_of_mem _ hx))
      have hv : volumeAt ops v0 d e = fadeValue ops v0 d e := by
        simp only [volumeAt, if_pos hlt]
      simp only [fadeLoop, untilElapsed, if_neg hed, hset, List.map_cons, hv]
      refine ⟨by rw [i1]; simp, ?_, ?_, ?_⟩
      · rw [i2]
        cases hl : ((untilElapsed d rest).map (volumeAt ops v0 d)).getLast? with
        | none =>
          have hnil := List.getLast?_eq_none_iff.mp hl
          rw [hnil]
          simp
        | some x =>
          rw [List.getLast?_cons, hl]
          simp
      · rintro ⟨x, hx, hdx⟩
        rcases List.mem_cons.mp hx with rfl | hx1
        · omega
        · exact i3 ⟨x, hx1, hdx⟩
      · intro hall
        exact i4 (fun x hx => hall x (List.mem_cons_of_mem _ hx))

/-- C18. For every duration `d > 0`, every starting volume `v0` with `0 < v0 ≤ 1` and all
clock readings that are not negative and do not decrease: `FadeOut` stores, for each
reading `e` up to the first one with `e ≥ d`, the volume `v0 * (1 - e/d)` when
`e < d` and 0 when `e ≥ d`; the volumes stored do not increase, beginning at `v0`;
the channel is closed once, at the first reading `e ≥ d`, where the volume ends at
exactly 0, and it is not closed before; and with a starting volume that is at most 0
the channel is closed at once and the volume is not changed.  The float64 operations
are assumed to have the laws `VolumeOps.Laws`. -/
theorem fadeOut_ramp {F : Type} (ops : VolumeOps F) (hlaws : ops.Laws) (v0 : F) (d : Int)
    (samples : List Int) (hd : 0 < d) (hv0 : ops.lt ops.zero v0 = true)
    (hv1 : ops.le v0 ops.one = true) (hnn : ∀ e ∈ samples, 0 ≤ e)
    (hsorted : samples.Pairwise (fun a b => a ≤ b)) :
    (FadeOut ops v0 d samples).sets = (untilElapsed d samples).map (volumeAt ops v0 d) ∧
    (v0 :: (FadeOut ops v0 d samples).sets).Pairwise (fun a b => ops.le b a = true) ∧
    (FadeOut ops v0 d samples).volume = (FadeOut ops v0 d samples).sets.getLast?.getD v0 ∧
    ((∃ e ∈ samples, d ≤ e) →
      (FadeOut ops v0 d samples).closes = 1 ∧ (FadeOut ops v0 d samples).running = false ∧
      (FadeOut ops v0 d samples).volume = ops.zero) ∧
    ((∀ e ∈ samples, e < d) →
      (FadeOut ops v0 d samples).closes = 0 ∧ (FadeOut ops v0 d samples).running = true) ∧
    ∀ v, ops.le v ops.zero = true →
      FadeOut ops v d samples = { volume := v, sets := [], closes := 1, running := false } := by
  have hnle : ops.le v0 ops.zero = false := (hlaws.lt_iff_not_le _ _).mp hv0
  have hle : ops.le ops.zero v0 = true := by
    rcases hlaws.le_total ops.zero v0 with h | h
    · exact h
    · rw [hnle] at h
      exact absurd h (by decide)
  have hout : FadeOut ops v0 d samples =
      fadeLoop ops v0 d samples { volume := v0, sets := [], closes := 0, running := true } := by
    simp [FadeOut, hnle]
  obtain ⟨h1, h2, h3, h4⟩ := fadeLoop_spec ops hlaws v0 d hle hv1 samples
    { volume := v0, sets := [], closes := 0, running := true } hnn
  rw [← hout] at h1 h2 h3 h4
  simp only [List.nil_append, Nat.zero_add] at h1 h3
  have hsub := untilElapsed_sublist d samples
  refine ⟨h1, ?_, by rw [h2, h1], h3, h4, ?_⟩
  · rw [h1, List.pairwise_cons]
    constructor
    · intro x hx
      obtain ⟨e, he, rfl⟩ := List.mem_map.mp hx
      exact (volumeAt_range ops hlaws v0 d e hle (hnn e (hsub.subset he))).2
    · rw [List.pairwise_map]
      refine List.Pairwise.imp_of_mem ?_ (hsorted.sublist hsub)
      intro a b ha _ hab
      exact volumeAt_anti ops hlaws v0 d a b hle hd (hnn a (hsub.subset ha)) hab
  · intro v hv
    simp [FadeOut, hv]

theorem fadeOut_ramp_witness :
    (0 : Int) < 5000000000 ∧ milliVolumeOps.lt milliVolumeOps.zero 800 = true ∧
    milliVolumeOps.le 800 milliVolumeOps.one = true ∧ (∀ e ∈ fadeSamples, 0 ≤ e) ∧
    fadeSamples.Pairwise (fun a b => a ≤ b) ∧
    (FadeOut milliVolumeOps 800 5000000000 fadeSamples).sets = [800, 640, 400, 0] ∧
    ((FadeOut milliVolumeOps 800 5000000000 fadeSamples).sets =
        (untilElapsed 5000000000 fadeSamples).map (volumeAt milliVolumeOps 800 5000000000) ∧
    (800 :: (FadeOut milliVolumeOps 800 5000000000 fadeSamples).sets).Pairwise
        (fun a b => milliVolumeOps.le b a = true) ∧
    (FadeOut milliVolumeOps 800 5000000000 fadeSamples).volume =
        (FadeOut milliVolumeOps 800 5000000000 fadeSamples).sets.getLast?.getD 800 ∧
    ((∃ e ∈ fadeSamples, 5000000000 ≤ e) →
      (FadeOut milliVolumeOps 800 5000000000 fadeSamples).closes = 1 ∧
      (FadeOut milliVolumeOps 800 5000000000 fadeSamples).running = false ∧
      (FadeOut milliVolumeOps 800 5000000000 fadeSamples).volume = milliVolumeOps.zero) ∧
    ((∀ e ∈ fadeSamples, e < 5000000000) →
      (FadeOut milliVolumeOps 800 5000000000 fadeSamples).closes = 0 ∧
      (FadeOut milliVolumeOps 800 5000000000 fadeSamples).running = true) ∧
    ∀ v, milliVolumeOps.le v milliVolumeOps.zero = true →
      FadeOut milliVolumeOps v 5000000000 fadeSamples =
        { volume := v, sets := [], closes := 1, running := false }) :=
  ⟨by decide, by decide, by decide, by decide, by decide, by rfl,
    fadeOut_ramp milliVolumeOps milliVolumeOps_laws 800 5000000000 fadeSamples
      (by decide) (by decide) (by decide) (by decide) (by decide)⟩

end Music

namespace Sync

open Go
open Music (FrameInfo)

/-! ## Cue resolution -/

/-- The loop of `ActiveCue`: either no cue matches and the result is the initial `best`, or
the result is the index of the last cue that matches. -/
theorem activeCueLoop_spec {F : Type} (info : FrameInfo) :
    ∀ (cues : List (Cue F)) (i : Nat) (best : Int),
      (activeCueLoop info cues i best = best ∧
        ∀ (j : Nat) (c : Cue F), cues[j]? = some c → cueMatches info c = false) ∨
      (∃ (j : Nat) (c : Cue F), activeCueLoop info cues i best = ((i + j : Nat) : Int) ∧
        cues[j]? = some c ∧ cueMatches info c = true ∧
        ∀ (k : Nat) (d : Cue F), j < k → cues[k]? = some d → cueMatches info d = false) := by
  intro cues
  induction cues with
  | nil =>
    intro i best
    left
    exact ⟨rfl, fun j c h => by simp at h⟩
  | cons c rest ih =>
    intro i best
    rcases ih (i + 1) (if cueMatches info c = true then (i : Int) else best) with
      ⟨hk, hnone⟩ | ⟨j, d, hk, hd, hm, hlast⟩
    · by_cases hc : cueMatches info c = true
      · right
        rw [if_pos hc] at hk
        refine ⟨0, c, ?_, List.getElem?_cons_zero, hc, ?_⟩
        · simp only [activeCueLoop, if_pos hc, hk, Nat.add_zero]
        · intro k d hk0 hkd
          obtain ⟨k1, rfl⟩ : ∃ k1, k = k1 + 1 := ⟨k - 1, by omega⟩
          exact hnone k1 d (by simpa using hkd)
      · left
        rw [if_neg hc] at hk
        refine ⟨by simp only [activeCueLoop, if_neg hc, hk], ?_⟩
        intro j d hjd
        cases j with
        | zero =>
          simp only [List.getElem?_cons_zero, Option.some.injEq] at hjd
          subst hjd
          simpa using hc
        | succ j1 => exact hnone j1 d (by simpa using hjd)
    · right
      refine ⟨j + 1, d, ?_, by simpa using hd, hm, ?_⟩
      · simp only [activeCueLoop, hk]
        congr 1
        omega
      · intro k e hk0 hke
        obtain ⟨k1, rfl⟩ : ∃ k1, k = k1 + 1 := ⟨k - 1, by omega⟩
        exact hlast k1 e (by omega) (by simpa using hke)

/-- `ActiveCue` returns -1 when no cue matches, and otherwise the index of the last cue in
the list that matches. -/
theorem activeCue_spec {F : Type} (t : Timeline F) (info : FrameInfo) :
    (t.ActiveCue info = -1 ∧
      ∀ (j : Nat) (c : Cue F), t.Cues[j]? = some c → cueMatches info c = false) ∨
    (∃ (j : Nat) (c : Cue F), t.ActiveCue info = (j : Int) ∧
      t.Cues[j]? = some c ∧ cueMatches info c = true ∧
      ∀ (k : Nat) (d : Cue F), j < k → t.Cues[k]? = some d → cueMatches info d = false) := by
  rcases activeCueLoop_spec info t.Cues 0 (-1) with h | ⟨j, c, hk, hrest⟩
  · exact Or.inl h
  · exact Or.inr ⟨j, c, by simpa [Timeline.ActiveCue] using hk, hrest⟩

theorem cueMatches_iff {F : Type} (info : FrameInfo) (c : Cue F) :
    cueMatches info c = true ↔ c.Pos.le (snapshotPos info) := by
  simp only [cueMatches, decide_eq_true_eq, Position.le, snapshotPos]
  constructor
  · rintro (h | ⟨h1, h2⟩)
    · exact Or.inl h
    · exact Or.inr ⟨h1.symm, h2⟩
  · rintro (h | ⟨h1, h2⟩)
    · exact Or.inl h
    · exact Or.inr ⟨h1.symm, h2⟩

theorem cueMatches_reached {F : Type} (info : FrameInfo) (c : Cue F) (hrow : -1 ≤ info.Row) :
    cueMatches info c = true ↔ reached c info := by
  rw [cueMatches_iff]
  simp only [Position.le, snapshotPos, reached]
  constructor
  · rintro (h | ⟨h1, h2⟩)
    · exact Or.inl h
    · exact Or.inr ⟨h1, Or.inr h2⟩
  · rintro (h | ⟨h1, h2 | h2⟩)
    · exact Or.inl h
    · exact Or.inr ⟨h1, by omega⟩
    · exact Or.inr ⟨h1, h2⟩

theorem getAt_natCast {α : Type} (l : List α) (j : Nat) : getAt l (j : Int) = l[j]? := by
  simp [getAt]

theorem Position.le_refl (a : Position) : a.le a := Or.inr ⟨rfl, Int.le_refl _⟩

theorem Position.le_trans {a b c : Position} (h1 : a.le b) (h2 : b.le c) : a.le c := by
  simp only [Position.le] at *
  omega

theorem Position.lt_of_le_of_not_le {a b s : Position} (h1 : a.le s) (h2 : ¬ b.le s) :
    a.lt b := by
  simp only [Position.le, Position.lt] at *
  omega

/-! ## Properties of cue resolution -/

/-- C8, counterexample.  On the out-of-order list with thresholds (2, 0) and (0, 0) and a
snapshot at (3, 0), `ActiveCue` returns index 1, the cue with threshold (0, 0),
although the cue with threshold (2, 0) is reached too and is later. -/
theorem activeCue_latest_counterexample :
    unorderedTimeline.ActiveCue (snapshotAt 3 0) = 1 ∧
    ¬ LatestReached unorderedTimeline (snapshotAt 3 0)
        (unorderedTimeline.ActiveCue (snapshotAt 3 0)) := by
  have hk : unorderedTimeline.ActiveCue (snapshotAt 3 0) = 1 := by decide
  refine ⟨hk, ?_⟩
  rw [hk]
  intro h
  obtain ⟨c, hc, _, hmax⟩ := h.2 (by decide)
  have hc1 : c = cueAt 0 0 1 "cut" := by
    simp [getAt, unorderedTimeline] at hc
    exact hc.symm
  subst hc1
  have hle := hmax (cueAt 2 0 0 "cut") (by simp [unorderedTimeline]) (Or.inl (by decide))
  revert hle
  decide

/-- C8, amended.  For every cue list whose thresholds are in non-decreasing lexicographic
order and every snapshot whose row is at least -1, `ActiveCue` returns -1 exactly
when no cue is reached, and otherwise the index of a reached cue whose threshold is
latest among the reached cues. -/
theorem activeCue_latest_of_sorted {F : Type} (t : Timeline F) (info : FrameInfo)
    (hsorted : t.Sorted) (hrow : -1 ≤ info.Row) :
    LatestReached t info (t.ActiveCue info) := by
  rcases activeCue_spec t info with ⟨hk, hnone⟩ | ⟨j, c, hk, hc, hm, hlast⟩
  · rw [hk]
    refine ⟨⟨fun _ d hd hr => ?_, fun _ => rfl⟩, fun h => absurd rfl h⟩
    obtain ⟨n, hn⟩ := List.mem_iff_getElem?.mp hd
    have := hnone n d hn
    rw [(cueMatches_reached info d hrow).mpr hr] at this
    exact absurd this (by decide)
  · rw [hk]
    have hcmem : c ∈ t.Cues := List.mem_iff_getElem?.mpr ⟨j, hc⟩
    have hcr : reached c info := (cueMatches_reached info c hrow).mp hm
    refine ⟨⟨fun h => by omega, fun h => absurd hcr (h c hcmem)⟩, fun _ => ?_⟩
    refine ⟨c, by rw [getAt_natCast]; exact hc, hcr, ?_⟩
    intro d hd hr
    obtain ⟨n, hn⟩ := List.mem_iff_getElem?.mp hd
    have hdm : cueMatches info d = true := (cueMatches_reached info d hrow).mpr hr
    have hnj : n ≤ j := by
      by_contra hlt
      have := hlast n d (by omega) hn
      rw [hdm] at this
      exact absurd this (by decide)
    obtain ⟨hn1, hn2⟩ := List.getElem?_eq_some.mp hn
    obtain ⟨hj1, hj2⟩ := List.getElem?_eq_some.mp hc
    rcases Nat.lt_or_eq_of_le hnj with hlt | heq
    · have := List.pairwise_iff_getElem.mp hsorted n j hn1 hj1 hlt
      rw [hn2, hj2] at this
      exact this
    · subst heq
      rw [← hn2, ← hj2]
      exact Position.le_refl _

theorem activeCue_latest_of_sorted_witness :
    orderedTimeline.Sorted ∧ -1 ≤ (snapshotAt 1 5).Row ∧
    LatestReached orderedTimeline (snapshotAt 1 5) (orderedTimeline.ActiveCue (snapshotAt 1 5)) :=
  ⟨by decide, by decide,
    activeCue_latest_of_sorted orderedTimeline (snapshotAt 1 5) (by decide) (by decide)⟩

/-- C9. For every timeline, in any order, and snapshots `s1` not later than `s2`: when
`ActiveCue` gives `K ≥ 0` at `s1` and a different `K2` at `s2`, both are indices of
cues and the threshold of cue `K2` is strictly later than the threshold of cue `K`. -/
theorem activeCue_monotone {F : Type} (t : Timeline F) (s1 s2 : FrameInfo) (K K2 : Int)
    (hle : (snapshotPos s1).le (snapshotPos s2))
    (h1 : t.ActiveCue s1 = K) (hK : 0 ≤ K) (h2 : t.ActiveCue s2 = K2) (hne : K2 ≠ K) :
    ∃ c c2, getAt t.Cues K = some c ∧ getAt t.Cues K2 = some c2 ∧ c.Pos.lt c2.Pos := by
  rcases activeCue_spec t s1 with ⟨hk1, _⟩ | ⟨j1, c, hk1, hc, hm1, hlast1⟩
  · omega
  · have hm2 : cueMatches s2 c = true :=
      (cueMatches_iff s2 c).mpr (Position.le_trans ((cueMatches_iff s1 c).mp hm1) hle)
    rcases activeCue_spec t s2 with ⟨_, hnone2⟩ | ⟨j2, c2, hk2, hc2, hm22, hlast2⟩
    · have := hnone2 j1 c hc
      rw [hm2] at this
      exact absurd this (by decide)
    · have hj : j1 < j2 := by
        rcases Nat.lt_trichotomy j1 j2 with h | h | h
        · exact h
        · omega
        · have := hlast2 j1 c h hc
          rw [hm2] at this
          exact absurd this (by decide)
      have hnot : ¬ c2.Pos.le (snapshotPos s1) := by
        intro hh
        have := hlast1 j2 c2 hj hc2
        rw [(cueMatches_iff s1 c2).mpr hh] at this
        exact absurd this (by decide)
      refine ⟨c, c2, ?_, ?_, Position.lt_of_le_of_not_le ((cueMatches_iff s1 c).mp hm1) hnot⟩
      · rw [← h1, hk1, getAt_natCast]; exact hc
      · rw [← h2, hk2, getAt_natCast]; exact hc2

theorem activeCue_monotone_witness :
    (snapshotPos (snapshotAt 0 5)).le (snapshotPos (snapshotAt 1 0)) ∧
    shuffledTimeline.ActiveCue (snapshotAt 0 5) = 0 ∧ (0 : Int) ≤ 0 ∧
    shuffledTimeline.ActiveCue (snapshotAt 1 0) = 2 ∧ (2 : Int) ≠ 0 ∧
    ∃ c c2, getAt shuffledTimeline.Cues 0 = some c ∧ getAt shuffledTimeline.Cues 2 = some c2 ∧
      c.Pos.lt c2.Pos :=
  ⟨by decide, by decide, by decide, by decide, by decide,
    activeCue_monotone shuffledTimeline (snapshotAt 0 5) (snapshotAt 1 0) 0 2
      (by decide) (by decide) (by decide) (by decide) (by decide)⟩

/-! ## Properties of the sequencer -/

/-- C10. When `ActiveCue` returns -1 for the snapshot, `Update` goes through without a
transition: `activeIdx`, `prevIdx`, `currentIdx`, the effects and the initialized set
are unchanged, and no `Init` call is made on any effect. -/
theorem update_before_first_cue {F E : Type} (ops : Float64Ops F) (s : Sequencer F E) (dt : F)
    (info : FrameInfo) (h : s.timeline.ActiveCue info = -1) :
    ∃ s1 calls, s.Update ops dt info = some (s1, calls) ∧
      s1.activeIdx = s.activeIdx ∧ s1.prevIdx = s.prevIdx ∧ s1.currentIdx = s.currentIdx ∧
      s1.effects = s.effects ∧ s1.initialized = s.initialized ∧
      ∀ i, EffectCall.Init i ∉ calls := by
  have hcue : s.cueChange ops info = some (s, []) := by
    simp [Sequencer.cueChange, h]
  have hfade : ∀ (q : Sequencer F E),
      (q.advanceFade ops dt).activeIdx = q.activeIdx ∧
      (q.advanceFade ops dt).prevIdx = q.prevIdx ∧
      (q.advanceFade ops dt).currentIdx = q.currentIdx ∧
      (q.advanceFade ops dt).effects = q.effects ∧
      (q.advanceFade ops dt).initialized = q.initialized := by
    intro q
    simp only [Sequencer.advanceFade]
    split_ifs <;> exact ⟨rfl, rfl, rfl, rfl, rfl⟩
  obtain ⟨f1, f2, f3, f4, f5⟩ := hfade s
  refine ⟨s.advanceFade ops dt, [] ++ (s.advanceFade ops dt).updateEffects,
    by simp only [Sequencer.Update, hcue], f1, f2, f3, f4, f5, ?_⟩
  intro i hi
  simp only [List.nil_append, Sequencer.updateEffects, List.mem_append] at hi
  rcases hi with hi | hi <;> split at hi <;> simp at hi

theorem update_before_first_cue_witness :
    lateSequencer.timeline.ActiveCue (snapshotAt 0 5) = -1 ∧
    (lateSequencer.Update ratOps (1 / 60) (snapshotAt 0 5)).map
        (fun r => (r.1.currentIdx, r.1.activeIdx, r.1.prevIdx, r.2)) =
      some (-1, 0, -1, [EffectCall.Update 0]) ∧
    ∃ s1 calls, lateSequencer.Update ratOps (1 / 60) (snapshotAt 0 5) = some (s1, calls) ∧
      s1.activeIdx = lateSequencer.activeIdx ∧ s1.prevIdx = lateSequencer.prevIdx ∧
      s1.currentIdx = lateSequencer.currentIdx ∧
      s1.effects = lateSequencer.effects ∧ s1.initialized = lateSequencer.initialized ∧
      ∀ i, EffectCall.Init i ∉ calls :=
  ⟨by decide, by rfl,
    update_before_first_cue ratOps lateSequencer (1 / 60) (snapshotAt 0 5) (by decide)⟩

/-! ## `LoadCueFile` -/

/-- The loop that fills `effectMap`: a name that is not in the list keeps its old entry, a
name that is in the list gets the index of one of its occurrences. -/
theorem fillEffectMap_spec : ∀ (names : List String) (i : Nat) (m : EffectMap) (k : String),
    (k ∉ names ∧ fillEffectMap names i m k = m k) ∨
    (∃ j : Nat, names[j]? = some k ∧ fillEffectMap names i m k = some ((i + j : Nat) : Int)) := by
  intro names
  induction names with
  | nil =>
    intro i m k
    exact Or.inl ⟨by simp, rfl⟩
  | cons name rest ih =>
    intro i m k
    rcases ih (i + 1) (fun k => if k = name then some (i : Int) else m k) k with
      ⟨hk, hm⟩ | ⟨j, hj, hm⟩
    · by_cases hkn : k = name
      · right
        refine ⟨0, by simp [hkn], ?_⟩
        simp only [fillEffectMap, hm, if_pos hkn, Nat.add_zero]
      · left
        refine ⟨by simp [hkn, hk], ?_⟩
        simp only [fillEffectMap, hm, if_neg hkn]
    · right
      refine ⟨j + 1, by simpa using hj, ?_⟩
      simp only [fillEffectMap, hm]
      congr 2
      omega

/-- The filled `effectMap` of a cue file: a name outside the effects list has no entry, a
name in the list has the index of one of its occurrences. -/
theorem effectMap_spec (effects : List String) (k : String) :
    (k ∉ effects ∧ fillEffectMap effects 0 (fun _ => none) k = none) ∨
    (∃ j : Nat, effects[j]? = some k ∧
      fillEffectMap effects 0 (fun _ => none) k = some (j : Int)) := by
  rcases fillEffectMap_spec effects 0 (fun _ => none) k with h | ⟨j, hj, hm⟩
  · exact Or.inl h
  · exact Or.inr ⟨j, hj, by simpa using hm⟩

theorem forall₂_mem_left {α β : Type} {R : α → β → Prop} {l1 : List α} {l2 : List β}
    (h : List.Forall₂ R l1 l2) {a : α} (ha : a ∈ l1) : ∃ b ∈ l2, R a b := by
  induction h with
  | nil => simp at ha
  | cons hr _ ih =>
    rcases List.mem_cons.mp ha with rfl | ha1
    · exact ⟨_, List.mem_cons_self _ _, hr⟩
    · obtain ⟨b, hb, hab⟩ := ih ha1
      exact ⟨b, List.mem_cons_of_mem _ hb, hab⟩

theorem forall₂_mem_right {α β : Type} {R : α → β → Prop} {l1 : List α} {l2 : List β}
    (h : List.Forall₂ R l1 l2) {b : β} (hb : b ∈ l2) : ∃ a ∈ l1, R a b := by
  induction h with
  | nil => simp at hb
  | cons hr _ ih =>
    rcases List.mem_cons.mp hb with rfl | hb1
    · exact ⟨_, List.mem_cons_self _ _, hr⟩
    · obtain ⟨a, ha, hab⟩ := ih hb1
      exact ⟨a, List.mem_cons_of_mem _ ha, hab⟩

/-- The loop over the cue records either stops at a record whose effect name has no entry
in the map, with the error that names it, or returns one cue per record, in order,
with the index of the map, the position of the record and the defaults filled in. -/
theorem loadCues_spec {F : Type} (ops : Float64Ops F) (m : EffectMap) :
    ∀ cds : List (CueDef F),
      (∃ cd ∈ cds, m cd.Effect = none ∧
        loadCues ops m cds = Except.error (LoadError.unknownEffect cd.Effect)) ∨
      (∃ cues, loadCues ops m cds = Except.ok cues ∧
        List.Forall₂ (fun (cd : CueDef F) (c : Cue F) =>
          m cd.Effect = some c.EffectIdx ∧ c.Pos = { Order := cd.Order, Row := cd.Row } ∧
          c.Transition = (if cd.Transition = "" then "cut" else cd.Transition) ∧
          c.FadeDur = (if ops.le cd.FadeDur ops.zero = true then ops.one else cd.FadeDur))
          cds cues) := by
  intro cds
  induction cds with
  | nil => exact Or.inr ⟨[], rfl, List.Forall₂.nil⟩
  | cons cd rest ih =>
    cases hm : m cd.Effect with
    | none =>
      left
      refine ⟨cd, List.mem_cons_self _ _, hm, ?_⟩
      simp only [loadCues, loadCue, hm]
    | some idx =>
      rcases ih with ⟨cd1, hmem, hnone, herr⟩ | ⟨cues, hok, hall⟩
      · left
        refine ⟨cd1, List.mem_cons_of_mem _ hmem, hnone, ?_⟩
        simp only [loadCues, loadCue, hm, herr]
      · right
        refine ⟨{ Pos := { Order := cd.Order, Row := cd.Row }, EffectIdx := idx,
                  Transition := if cd.Transition = "" then "cut" else cd.Transition,
                  FadeDur := if ops.le cd.FadeDur ops.zero = true then ops.one
                             else cd.FadeDur } :: cues,
          by simp only [loadCues, loadCue, hm, hok], ?_⟩
        exact List.Forall₂.cons ⟨hm, rfl, rfl, rfl⟩ hall

theorem demoCueFile_loads : LoadCueFile ratOps demoCueFile = Except.ok demoLoaded := by
  simp [LoadCueFile, loadCues, loadCue, fillEffectMap, demoCueFile, demoLoaded, NewTimeline, ratOps]

theorem ratOps_ordered : ratOps.Ordered where
  le_refl := by simp [ratOps]
  le_trans := by
    intro a b c
    simp only [ratOps, decide_eq_true_eq]
    exact le_trans
  le_of_lt := by
    intro a b
    simp only [ratOps, decide_eq_true_eq]
    exact le_of_lt
  lt_iff_not_le := by
    intro a b
    simp [ratOps]
  zero_lt_one := by simp [ratOps]

/-- `LoadCueFile` either fails on a record whose effect name is not in the effects list,
or returns one cue per record, in order: the position is the record's, the index is
one of the effects list at which the record's effect name stands, and the defaults
are filled in. -/
theorem loadCueFile_spec {F : Type} (ops : Float64Ops F) (cf : CueFile F) :
    (∃ cd ∈ cf.Cues, cd.Effect ∉ cf.Effects ∧
      LoadCueFile ops cf = Except.error (LoadError.unknownEffect cd.Effect)) ∨
    (∃ tl, LoadCueFile ops cf = Except.ok tl ∧ (∀ cd ∈ cf.Cues, cd.Effect ∈ cf.Effects) ∧
      List.Forall₂ (fun (cd : CueDef F) (c : Cue F) =>
        (c.Pos = { Order := cd.Order, Row := cd.Row } ∧
          0 ≤ c.EffectIdx ∧ c.EffectIdx < (cf.Effects.length : Int) ∧
          getAt cf.Effects c.EffectIdx = some cd.Effect) ∧
        c.Transition = (if cd.Transition = "" then "cut" else cd.Transition) ∧
        c.FadeDur = (if ops.le cd.FadeDur ops.zero = true then ops.one else cd.FadeDur))
        cf.Cues tl.Cues) := by
  have hnone : ∀ k : String, fillEffectMap cf.Effects 0 (fun _ => none) k = none →
      k ∉ cf.Effects := by
    intro k hk
    rcases effectMap_spec cf.Effects k with ⟨h, _⟩ | ⟨j, _, hj⟩
    · exact h
    · rw [hk] at hj
      exact absurd hj (by simp)
  have hsome : ∀ (k : String) (i : Int), fillEffectMap cf.Effects 0 (fun _ => none) k = some i →
      k ∈ cf.Effects ∧ 0 ≤ i ∧ i < (cf.Effects.length : Int) ∧ getAt cf.Effects i = some k := by
    intro k i hk
    rcases effectMap_spec cf.Effects k with ⟨_, h⟩ | ⟨j, hj, hm⟩
    · rw [hk] at h
      exact absurd h (by simp)
    · rw [hk] at hm
      simp only [Option.some.injEq] at hm
      subst hm
      obtain ⟨hlt, hget⟩ := List.getElem?_eq_some.mp hj
      refine ⟨List.mem_iff_getElem?.mpr ⟨j, hj⟩, by omega, by omega, ?_⟩
      rw [getAt_natCast]
      exact hj
  rcases loadCues_spec ops (fillEffectMap cf.Effects 0 (fun _ => none)) cf.Cues with
    ⟨cd, hmem, hmiss, herr⟩ | ⟨cues, hok, hall⟩
  · exact Or.inl ⟨cd, hmem, hnone _ hmiss, by simp only [LoadCueFile, herr]⟩
  · refine Or.inr ⟨NewTimeline cues, by simp only [LoadCueFile, hok], ?_, ?_⟩
    · intro cd hcd
      obtain ⟨c, _, hc⟩ := forall₂_mem_left hall hcd
      exact (hsome _ _ hc.1).1
    · refine List.Forall₂.imp ?_ hall
      intro cd c hc
      obtain ⟨_, h1, h2, h3⟩ := hsome _ _ hc.1
      exact ⟨⟨hc.2.1, h1, h2, h3⟩, hc.2.2.1, hc.2.2.2⟩

/-- C11. For every parsed cue file, `LoadCueFile` fails exactly when some cue record names an
effect that is not in the effects list, and the error is then `unknown effect` with
the name of such a record.  When every record names a listed effect it returns a
timeline with one cue per record, in the same order, with the (order, row) of the
record and an `EffectIdx` that is an index of the effects list at which the effect
name of the record stands. -/
theorem loadCueFile_resolution {F : Type} (ops : Float64Ops F) (cf : CueFile F) :
    ((∃ e, LoadCueFile ops cf = Except.error e) ↔ ∃ cd ∈ cf.Cues, cd.Effect ∉ cf.Effects) ∧
    (∀ e, LoadCueFile ops cf = Except.error e →
      ∃ cd ∈ cf.Cues, cd.Effect ∉ cf.Effects ∧ e = LoadError.unknownEffect cd.Effect) ∧
    ((∀ cd ∈ cf.Cues, cd.Effect ∈ cf.Effects) →
      ∃ tl, LoadCueFile ops cf = Except.ok tl ∧
        List.Forall₂ (fun (cd : CueDef F) (c : Cue F) =>
          c.Pos = { Order := cd.Order, Row := cd.Row } ∧
          0 ≤ c.EffectIdx ∧ c.EffectIdx < (cf.Effects.length : Int) ∧
          getAt cf.Effects c.EffectIdx = some cd.Effect) cf.Cues tl.Cues) := by
  rcases loadCueFile_spec ops cf with ⟨cd, hmem, hmiss, hload⟩ | ⟨tl, hload, hin, hall⟩
  · refine ⟨⟨fun _ => ⟨cd, hmem, hmiss⟩, fun _ => ⟨_, hload⟩⟩, ?_, ?_⟩
    · intro e he
      rw [hload] at he
      exact ⟨cd, hmem, hmiss, (Except.error.inj he).symm⟩
    · intro hallin
      exact absurd (hallin cd hmem) hmiss
  · refine ⟨⟨fun ⟨e, he⟩ => ?_, fun ⟨cd, hcd, hnot⟩ => absurd (hin cd hcd) hnot⟩, ?_, ?_⟩
    · rw [hload] at he
      exact absurd he (by simp)
    · intro e he
      rw [hload] at he
      exact absurd he (by simp)
    · intro _
      exact ⟨tl, hload, List.Forall₂.imp (fun _ _ h => h.1) hall⟩

theorem loadCueFile_resolution_witness :
    (∀ cd ∈ demoCueFile.Cues, cd.Effect ∈ demoCueFile.Effects) ∧
    LoadCueFile ratOps demoCueFile = Except.ok demoLoaded ∧
    ∃ tl, LoadCueFile ratOps demoCueFile = Except.ok tl ∧
      List.Forall₂ (fun (cd : CueDef ℚ) (c : Cue ℚ) =>
        c.Pos = { Order := cd.Order, Row := cd.Row } ∧
        0 ≤ c.EffectIdx ∧ c.EffectIdx < (demoCueFile.Effects.length : Int) ∧
        getAt demoCueFile.Effects c.EffectIdx = some cd.Effect) demoCueFile.Cues tl.Cues :=
  ⟨by decide, demoCueFile_loads,
    (loadCueFile_resolution ratOps demoCueFile).2.2 (by decide)⟩

/-- C12. For a cue file that `LoadCueFile` accepts, every cue of the timeline has the
transition `cut` when the transition of its record is empty and the transition of
the record otherwise, and the fade duration 1.0 when the duration of its record is
at most 0 and the duration of the record otherwise.  With comparisons that behave as
on numbers that are not NaN, every loaded cue has `FadeDur > 0`. -/
theorem loadCueFile_defaults {F : Type} (ops : Float64Ops F) (cf : CueFile F) (tl : Timeline F)
    (hord : ops.Ordered) (hload : LoadCueFile ops cf = Except.ok tl) :
    List.Forall₂ (fun (cd : CueDef F) (c : Cue F) =>
      c.Transition = (if cd.Transition = "" then "cut" else cd.Transition) ∧
      c.FadeDur = (if ops.le cd.FadeDur ops.zero = true then ops.one else cd.FadeDur))
      cf.Cues tl.Cues ∧
    ∀ c ∈ tl.Cues, ops.lt ops.zero c.FadeDur = true := by
  rcases loadCueFile_spec ops cf with ⟨cd, _, _, herr⟩ | ⟨tl1, hok, _, hall⟩
  · rw [hload] at herr
    exact absurd herr (by simp)
  · rw [hload, Except.ok.injEq] at hok
    subst hok
    have hdef : List.Forall₂ (fun (cd : CueDef F) (c : Cue F) =>
        c.Transition = (if cd.Transition = "" then "cut" else cd.Transition) ∧
        c.FadeDur = (if ops.le cd.FadeDur ops.zero = true then ops.one else cd.FadeDur))
        cf.Cues tl.Cues :=
      List.Forall₂.imp (fun _ _ h => h.2) hall
    refine ⟨hdef, ?_⟩
    intro c hc
    obtain ⟨cd, _, _, hfd⟩ := forall₂_mem_right hdef hc
    rw [hfd]
    by_cases hle : ops.le cd.FadeDur ops.zero = true
    · rw [if_pos hle]
      exact hord.zero_lt_one
    · rw [if_neg hle]
      exact (hord.lt_iff_not_le _ _).mpr (by simpa using hle)

theorem loadCueFile_defaults_witness :
    LoadCueFile ratOps demoCueFile = Except.ok demoLoaded ∧
    demoLoaded.Cues.map (fun c => (c.Transition, c.FadeDur)) =
      [("cut", 1), ("fade", 3), ("cut", 1)] ∧
    (List.Forall₂ (fun (cd : CueDef ℚ) (c : Cue ℚ) =>
      c.Transition = (if cd.Transition = "" then "cut" else cd.Transition) ∧
      c.FadeDur = (if ratOps.le cd.FadeDur ratOps.zero = true then ratOps.one else cd.FadeDur))
      demoCueFile.Cues demoLoaded.Cues ∧
    ∀ c ∈ demoLoaded.Cues, ratOps.lt ratOps.zero c.FadeDur = true) :=
  ⟨demoCueFile_loads, by rfl,
    loadCueFile_defaults ratOps demoCueFile demoLoaded ratOps_ordered demoCueFile_loads⟩

/-! ## The parts of `Update` -/

/-- The fade advance leaves everything but `fadeTimer`, `fadeAlpha` and `fading` as it is. -/
theorem advanceFade_frame {F E : Type} (ops : Float64Ops F) (s : Sequencer F E) (dt : F) :
    (s.advanceFade ops dt).effects = s.effects ∧
    (s.advanceFade ops dt).timeline = s.timeline ∧
    (s.advanceFade ops dt).currentIdx = s.currentIdx ∧
    (s.advanceFade ops dt).activeIdx = s.activeIdx ∧
    (s.advanceFade ops dt).prevIdx = s.prevIdx ∧
    (s.advanceFade ops dt).initialized = s.initialized ∧
    (s.advanceFade ops dt).fadeDur = s.fadeDur := by
  simp only [Sequencer.advanceFade]
  split_ifs <;> exact ⟨rfl, rfl, rfl, rfl, rfl, rfl, rfl⟩

/-- Without a fade in progress the fade advance does nothing. -/
theorem advanceFade_idle {F E : Type} (ops : Float64Ops F) (s : Sequencer F E) (dt : F)
    (h : s.fading = false) : s.advanceFade ops dt = s := by
  simp [Sequencer.advanceFade, h]

/-- The cue check of `Update` always goes through, and does one of two things.  Either
there is no transition: at most `currentIdx` changes and no call is made.  Or the
resolved cue is new and targets an effect `T` in range that is not the active one:
`T` becomes active and is recorded as initialised, after an `Init` call if it was
not; a fade or crossfade starts the fade, anything else clears it and calls `Init`
on `T` once more. -/
theorem cueChange_cases {F E : Type} (ops : Float64Ops F) (s : Sequencer F E) (info : FrameInfo) :
    (∃ k, s.cueChange ops info = some ({ s with currentIdx := k }, [])) ∨
    (∃ cue s1 cs, getAt s.timeline.Cues (s.timeline.ActiveCue info) = some cue ∧
      0 ≤ s.timeline.ActiveCue info ∧ s.timeline.ActiveCue info ≠ s.currentIdx ∧
      cue.EffectIdx ≠ s.activeIdx ∧ 0 ≤ cue.EffectIdx ∧
      cue.EffectIdx < (s.effects.length : Int) ∧
      s.cueChange ops info = some (s1, cs) ∧
      s1.effects = s.effects ∧ s1.timeline = s.timeline ∧
      s1.currentIdx = s.timeline.ActiveCue info ∧ s1.activeIdx = cue.EffectIdx ∧
      s1.initialized = Function.update s.initialized cue.EffectIdx true ∧
      (((cue.Transition = "fade" ∨ cue.Transition = "crossfade") ∧
          s1.prevIdx = s.activeIdx ∧ s1.fadeDur = cue.FadeDur ∧ s1.fadeTimer = ops.zero ∧
          s1.fadeAlpha = ops.zero ∧ s1.fading = true ∧
          cs = (if s.initialized cue.EffectIdx = false
                  then [EffectCall.Init cue.EffectIdx] else [])) ∨
       (¬ (cue.Transition = "fade" ∨ cue.Transition = "crossfade") ∧
          s1.prevIdx = s.prevIdx ∧ s1.fadeDur = s.fadeDur ∧ s1.fadeTimer = s.fadeTimer ∧
          s1.fadeAlpha = ops.one ∧ s1.fading = false ∧
          cs = (if s.initialized cue.EffectIdx = false
                  then [EffectCall.Init cue.EffectIdx] else []) ++
                [EffectCall.Init cue.EffectIdx]))) := by
  by_cases hchg : s.timeline.ActiveCue info ≥ 0 ∧ s.timeline.ActiveCue info ≠ s.currentIdx
  · rcases activeCue_spec s.timeline info with ⟨hk, _⟩ | ⟨j, c, hk, hc, _, _⟩
    · omega
    · have hget : getAt s.timeline.Cues (s.timeline.ActiveCue info) = some c := by
        rw [hk, getAt_natCast]
        exact hc
      by_cases hnew : c.EffectIdx ≠ s.activeIdx ∧ c.EffectIdx ≥ 0 ∧
          c.EffectIdx < (s.effects.length : Int)
      · right
        have hupd : ∀ (b : Bool), s.initialized c.EffectIdx = b → b = true →
            s.initialized = Function.update s.initialized c.EffectIdx true := by
          intro b hb hb1
          funext i
          by_cases hi : i = c.EffectIdx
          · subst hi
            simp [hb, hb1]
          · simp [Function.update, hi]
        by_cases hinit : s.initialized c.EffectIdx = false
        · by_cases hfade : c.Transition = "fade" ∨ c.Transition = "crossfade"
          · simp only [Sequencer.cueChange, hget, if_pos hchg, if_pos hnew, if_pos hinit, if_pos hfade]
            exact ⟨c, _, _, rfl, hchg.1, hchg.2, hnew.1, hnew.2.1, hnew.2.2, rfl, rfl, rfl, rfl,
              rfl, rfl, Or.inl ⟨hfade, rfl, rfl, rfl, rfl, rfl, by simp [hinit]⟩⟩
          · simp only [Sequencer.cueChange, hget, if_pos hchg, if_pos hnew, if_pos hinit, if_neg hfade]
            exact ⟨c, _, _, rfl, hchg.1, hchg.2, hnew.1, hnew.2.1, hnew.2.2, rfl, rfl, rfl, rfl,
              rfl, rfl, Or.inr ⟨hfade, rfl, rfl, rfl, rfl, rfl, by simp [hinit]⟩⟩
        · have htrue : s.initialized c.EffectIdx = true := by
            cases h : s.initialized c.EffectIdx
            · exact absurd h hinit
            · rfl
          by_cases hfade : c.Transition = "fade" ∨ c.Transition = "crossfade"
          · simp only [Sequencer.cueChange, hget, if_pos hchg, if_pos hnew, if_neg hinit, if_pos hfade]
            exact ⟨c, _, _, rfl, hchg.1, hchg.2, hnew.1, hnew.2.1, hnew.2.2, rfl, rfl, rfl, rfl,
              rfl, hupd true htrue rfl, Or.inl ⟨hfade, rfl, rfl, rfl, rfl, rfl, by simp [htrue]⟩⟩
          · simp only [Sequencer.cueChange, hget, if_pos hchg, if_pos hnew, if_neg hinit, if_neg hfade]
            exact ⟨c, _, _, rfl, hchg.1, hchg.2, hnew.1, hnew.2.1, hnew.2.2, rfl, rfl, rfl, rfl,
              rfl, hupd true htrue rfl, Or.inr ⟨hfade, rfl, rfl, rfl, rfl, rfl, by simp [htrue]⟩⟩
      · left
        exact ⟨s.timeline.ActiveCue info,
          by simp only [Sequencer.cueChange, hget, if_pos hchg, if_neg hnew]⟩
  · left
    exact ⟨s.currentIdx, by simp only [Sequencer.cueChange, if_neg hchg]⟩

theorem getAt_some_of_lt {α : Type} (l : List α) (i : Int) (h0 : 0 ≤ i)
    (hlt : i < (l.length : Int)) : ∃ x, getAt l i = some x := by
  have h : i.toNat < l.length := by omega
  exact ⟨l[i.toNat], by simp [getAt, h0, List.getElem?_eq_getElem h]⟩

/-- The cue check goes through, keeps the effects list and the timeline, and calls
effects at indices of the effects list only. -/
theorem cueChange_frame {F E : Type} (ops : Float64Ops F) (s : Sequencer F E) (info : FrameInfo) :
    ∃ s1 cs, s.cueChange ops info = some (s1, cs) ∧ s1.effects = s.effects ∧
      s1.timeline = s.timeline ∧
      ∀ c ∈ cs, 0 ≤ c.idx ∧ c.idx < (s.effects.length : Int) := by
  rcases cueChange_cases ops s info with ⟨k, hk⟩ | ⟨cue, s1, cs, _, _, _, _, h0, hlt, heq, he, ht, _, _, _, hcs⟩
  · exact ⟨_, _, hk, rfl, rfl, by simp⟩
  · refine ⟨s1, cs, heq, he, ht, ?_⟩
    intro c hc
    have : c = EffectCall.Init cue.EffectIdx := by
      rcases hcs with ⟨_, _, _, _, _, _, h⟩ | ⟨_, _, _, _, _, _, h⟩
      · rw [h] at hc
        split_ifs at hc <;> simp at hc
        exact hc
      · rw [h] at hc
        split_ifs at hc <;> simp at hc
        · exact hc
        · exact hc
    rw [this]
    exact ⟨h0, hlt⟩

/-- The effect updates of `Update` go to indices of the effects list only. -/
theorem updateEffects_in_range {F E : Type} (s : Sequencer F E) :
    ∀ c ∈ s.updateEffects, 0 ≤ c.idx ∧ c.idx < (s.effects.length : Int) := by
  intro c hc
  simp only [Sequencer.updateEffects, List.mem_append] at hc
  rcases hc with hc | hc <;> split_ifs at hc with h <;> simp at hc
  · rw [hc]
    exact ⟨h.1, h.2⟩
  · rw [hc]
    exact ⟨h.2.1, h.2.2⟩

/-- `Update` goes through on every state, keeps the effects list and the timeline, and
calls effects at indices of the effects list only. -/
theorem update_frame {F E : Type} (ops : Float64Ops F) (s : Sequencer F E) (dt : F)
    (info : FrameInfo) :
    ∃ s1 cs, s.Update ops dt info = some (s1, cs) ∧ s1.effects = s.effects ∧
      s1.timeline = s.timeline ∧
      ∀ c ∈ cs, 0 ≤ c.idx ∧ c.idx < (s.effects.length : Int) := by
  obtain ⟨q, cs0, heq, he, ht, hcs⟩ := cueChange_frame ops s info
  obtain ⟨f1, f2, _⟩ := advanceFade_frame ops q dt
  refine ⟨q.advanceFade ops dt, cs0 ++ (q.advanceFade ops dt).updateEffects,
    by simp only [Sequencer.Update, heq], f1.trans he, f2.trans ht, ?_⟩
  intro c hc
  rcases List.mem_append.mp hc with hc | hc
  · exact hcs c hc
  · have := updateEffects_in_range (q.advanceFade ops dt) c hc
    rw [f1, he] at this
    exact this

/-- `Draw` calls effects at indices of the effects list only. -/
theorem draw_in_range {F E P : Type} {n : Nat} (ops : Float64Ops F) (pal0 : P)
    (paint : Nat → Int → Framebuffer n P → Framebuffer n P) (s : Sequencer F E)
    (fb : Framebuffer n P) :
    ∀ c ∈ (s.Draw ops pal0 paint fb).2, 0 ≤ c.idx ∧ c.idx < (s.effects.length : Int) := by
  intro c hc
  simp only [Sequencer.Draw] at hc
  split_ifs at hc <;> simp at hc
  all_goals
    first
    | (rw [hc]; simp only [EffectCall.idx]; omega)
    | (rcases hc with hc | hc <;> rw [hc] <;> simp only [EffectCall.idx] <;> omega)

/-- `InitFirst` on a state whose effects list is empty does nothing; on a state whose
first cue, if there is one, names an index of the effects list, it makes that effect
(effect 0 without cues) active, calls `Init` on it and records it. -/
theorem initFirst_spec {F E : Type} (s : Sequencer F E)
    (hfirst : ∀ c, s.timeline.Cues.head? = some c →
      0 ≤ c.EffectIdx ∧ c.EffectIdx < (s.effects.length : Int)) :
    (s.effects = [] ∧ s.InitFirst = some (s, [])) ∨
    (s.effects ≠ [] ∧ 0 ≤ s.timeline.firstEffect ∧
      s.timeline.firstEffect < (s.effects.length : Int) ∧
      s.InitFirst =
        some ({ s with activeIdx := s.timeline.firstEffect,
                       initialized := Function.update s.initialized s.timeline.firstEffect true },
              [EffectCall.Init s.timeline.firstEffect])) := by
  by_cases hlen : s.effects.length > 0
  · right
    have hne : s.effects ≠ [] := by
      intro h
      rw [h] at hlen
      simp at hlen
    have hrange : 0 ≤ s.timeline.firstEffect ∧
        s.timeline.firstEffect < (s.effects.length : Int) := by
      cases hc : s.timeline.Cues with
      | nil =>
        simp only [Timeline.firstEffect, hc]
        omega
      | cons c rest =>
        simp only [Timeline.firstEffect, hc]
        exact hfirst c (by simp [hc])
    obtain ⟨x, hx⟩ := getAt_some_of_lt s.effects _ hrange.1 hrange.2
    refine ⟨hne, hrange.1, hrange.2, ?_⟩
    cases hc : s.timeline.Cues with
    | nil =>
      simp only [Timeline.firstEffect, hc] at hx ⊢
      simp [Sequencer.InitFirst, hlen, hc, hx]
    | cons c rest =>
      have h0 : getAt (c :: rest) 0 = some c := by simp [getAt]
      simp only [Timeline.firstEffect, hc] at hx ⊢
      simp [Sequencer.InitFirst, hlen, hc, hx, h0]
  · left
    have he : s.effects = [] := by
      cases h : s.effects with
      | nil => rfl
      | cons a l =>
        rw [h] at hlen
        simp at hlen
    exact ⟨he, by simp [Sequencer.InitFirst, he]⟩

/-- Every call on a sequencer whose cues all name indices of the effects list goes
through, keeps the effects list and the timeline, and calls effects at indices of
the effects list only. -/
theorem perform_frame {F E P : Type} {n : Nat} (ops : Float64Ops F) (pal0 : P)
    (s : Sequencer F E) (call : Call F P n)
    (hvalid : ∀ c ∈ s.timeline.Cues, 0 ≤ c.EffectIdx ∧ c.EffectIdx < (s.effects.length : Int)) :
    ∃ s1 cs, s.perform ops pal0 call = some (s1, cs) ∧ s1.effects = s.effects ∧
      s1.timeline = s.timeline ∧
      ∀ c ∈ cs, 0 ≤ c.idx ∧ c.idx < (s.effects.length : Int) := by
  cases call with
  | InitFirst =>
    have hfirst : ∀ c, s.timeline.Cues.head? = some c →
        0 ≤ c.EffectIdx ∧ c.EffectIdx < (s.effects.length : Int) :=
      fun c hc => hvalid c (List.mem_of_mem_head? hc)
    rcases initFirst_spec s hfirst with ⟨_, h⟩ | ⟨_, h0, hlt, h⟩
    · exact ⟨_, _, h, rfl, rfl, by simp⟩
    · refine ⟨_, _, h, rfl, rfl, ?_⟩
      intro c hc
      simp only [List.mem_singleton] at hc
      rw [hc]
      exact ⟨h0, hlt⟩
  | Update dt info => exact update_frame ops s dt info
  | Draw paint fb => exact ⟨s, _, rfl, rfl, rfl, draw_in_range ops pal0 paint s fb⟩

theorem performAll_frame {F E P : Type} {n : Nat} (ops : Float64Ops F) (pal0 : P) :
    ∀ (calls : List (Call F P n)) (s : Sequencer F E),
      (∀ c ∈ s.timeline.Cues, 0 ≤ c.EffectIdx ∧ c.EffectIdx < (s.effects.length : Int)) →
      ∃ s1 cs, s.performAll ops pal0 calls = some (s1, cs) ∧ s1.effects = s.effects ∧
        s1.timeline = s.timeline ∧
        ∀ c ∈ cs, 0 ≤ c.idx ∧ c.idx < (s.effects.length : Int) := by
  intro calls
  induction calls with
  | nil =>
    intro s _
    exact ⟨s, [], rfl, rfl, rfl, by simp⟩
  | cons call rest ih =>
    intro s hvalid
    obtain ⟨s1, cs1, h1, he1, ht1, hc1⟩ := perform_frame ops pal0 s call hvalid
    obtain ⟨s2, cs2, h2, he2, ht2, hc2⟩ := ih s1 (by rw [he1, ht1]; exact hvalid)
    refine ⟨s2, cs1 ++ cs2, by simp only [Sequencer.performAll, h1, h2], he2.trans he1,
      ht2.trans ht1, ?_⟩
    intro c hc
    rcases List.mem_append.mp hc with hc | hc
    · exact hc1 c hc
    · have := hc2 c hc
      rw [he1] at this
      exact this

/-! ## Properties of the sequencer: indices -/

theorem longCueFile_loads : LoadCueFile ratOps longCueFile = Except.ok longLoaded := by
  simp [LoadCueFile, loadCues, loadCue, fillEffectMap, longCueFile, longLoaded, NewTimeline, ratOps]

/-- C13, counterexample.  The cue file `longCueFile` lists three effects and its cue names
the third.  `LoadCueFile` accepts it and gives the cue the `EffectIdx` 2;
`NewSequencer` over a list of two effects takes the timeline as it is, the index 2
is out of range for that list, and `InitFirst` indexes the effects list out of
range. -/
theorem load_unchecked_counterexample :
    LoadCueFile ratOps longCueFile = Except.ok longLoaded ∧
    (∃ c ∈ (NewSequencer ratOps twoEffects longLoaded).timeline.Cues,
      ¬ c.EffectIdx < (twoEffects.length : Int)) ∧
    (NewSequencer ratOps twoEffects longLoaded).InitFirst = none := by
  refine ⟨longCueFile_loads, ?_, ?_⟩
  · simp [NewSequencer, longLoaded, twoEffects]
  · simp [Sequencer.InitFirst, NewSequencer, longLoaded, twoEffects, getAt]

/-- C13, amended.  The indices that `LoadCueFile` gives the cues are indices of the effects
name list of the cue file.  When the effects list of the sequencer is at least as
long as that name list, every cue of the sequencer built by `NewSequencer` has its
`EffectIdx` in `[0, len(effects))`, and every sequence of `InitFirst`, `Update` and
`Draw` calls goes through and leaves the timeline and the effects list as they are. -/
theorem loaded_indices_in_range {F E P : Type} {n : Nat} (ops : Float64Ops F) (pal0 : P)
    (cf : CueFile F) (tl : Timeline F) (efx : List E)
    (hload : LoadCueFile ops cf = Except.ok tl) (hlen : cf.Effects.length ≤ efx.length) :
    (∀ c ∈ (NewSequencer ops efx tl).timeline.Cues,
      0 ≤ c.EffectIdx ∧ c.EffectIdx < (efx.length : Int)) ∧
    ∀ calls : List (Call F P n), ∃ s cs,
      (NewSequencer ops efx tl).performAll ops pal0 calls = some (s, cs) ∧
      s.effects = efx ∧ s.timeline = tl := by
  have hvalid : ∀ c ∈ tl.Cues, 0 ≤ c.EffectIdx ∧ c.EffectIdx < (efx.length : Int) := by
    intro c hc
    rcases loadCueFile_spec ops cf with ⟨cd, _, _, herr⟩ | ⟨tl1, hok, _, hall⟩
    · rw [hload] at herr
      exact absurd herr (by simp)
    · rw [hload, Except.ok.injEq] at hok
      subst hok
      obtain ⟨cd, _, ⟨_, h0, hlt, _⟩, _⟩ := forall₂_mem_right hall hc
      exact ⟨h0, by omega⟩
  refine ⟨hvalid, ?_⟩
  intro calls
  obtain ⟨s, cs, h, he, ht, _⟩ :=
    performAll_frame ops pal0 calls (NewSequencer ops efx tl) hvalid
  exact ⟨s, cs, h, he, ht⟩

theorem loaded_indices_in_range_witness :
    LoadCueFile ratOps demoCueFile = Except.ok demoLoaded ∧
    demoCueFile.Effects.length ≤ [(), (), (), ()].length ∧
    ((∀ c ∈ (NewSequencer ratOps [(), (), (), ()] demoLoaded).timeline.Cues,
      0 ≤ c.EffectIdx ∧ c.EffectIdx < (([(), (), (), ()] : List Unit).length : Int)) ∧
    ∀ calls : List (Call ℚ Unit 4), ∃ s cs,
      (NewSequencer ratOps [(), (), (), ()] demoLoaded).performAll ratOps () calls =
        some (s, cs) ∧
      s.effects = [(), (), (), ()] ∧ s.timeline = demoLoaded) :=
  ⟨demoCueFile_loads, by decide,
    loaded_indices_in_range ratOps () demoCueFile demoLoaded [(), (), (), ()]
      demoCueFile_loads (by decide)⟩

/-- C14. For a sequencer built by `NewSequencer` over an effects list and a timeline whose
cues all have their `EffectIdx` in `[0, len(effects))`, every sequence of `InitFirst`,
`Update` and `Draw` calls goes through without an out-of-range access to
`timeline.Cues` or to the effects list, and every call made on an effect goes to an
index of the effects list.  Either list may be empty. -/
theorem sequencer_in_bounds {F E P : Type} {n : Nat} (ops : Float64Ops F) (pal0 : P)
    (efx : List E) (tl : Timeline F) (calls : List (Call F P n))
    (hvalid : ∀ c ∈ tl.Cues, 0 ≤ c.EffectIdx ∧ c.EffectIdx < (efx.length : Int)) :
    ∃ s cs, (NewSequencer ops efx tl).performAll ops pal0 calls = some (s, cs) ∧
      ∀ c ∈ cs, 0 ≤ c.idx ∧ c.idx < (efx.length : Int) := by
  obtain ⟨s, cs, h, _, _, hcs⟩ :=
    performAll_frame ops pal0 calls (NewSequencer ops efx tl) hvalid
  exact ⟨s, cs, h, hcs⟩

theorem sequencer_in_bounds_witness :
    (∀ c ∈ orderedTimeline.Cues,
      0 ≤ c.EffectIdx ∧ c.EffectIdx < (([(), (), ()] : List Unit).length : Int)) ∧
    ((NewSequencer ratOps [(), (), ()] orderedTimeline).performAll ratOps ()
        demoCalls).map (fun r => r.2) =
      some [EffectCall.Init 0, EffectCall.Draw 0, EffectCall.Update 0, EffectCall.Init 1,
            EffectCall.Update 1, EffectCall.Update 0, EffectCall.Draw 0, EffectCall.Draw 1] ∧
    ∃ s cs, (NewSequencer ratOps [(), (), ()] orderedTimeline).performAll ratOps ()
        demoCalls = some (s, cs) ∧
      ∀ c ∈ cs, 0 ≤ c.idx ∧ c.idx < (([(), (), ()] : List Unit).length : Int) :=
  ⟨by decide,
    by norm_num [demoCalls, Sequencer.performAll, Sequencer.perform, Sequencer.InitFirst,
      Sequencer.Update, Sequencer.cueChange, Sequencer.advanceFade, Sequencer.updateEffects,
      Sequencer.Draw, NewSequencer, orderedTimeline, cueAt, Timeline.ActiveCue, activeCueLoop,
      cueMatches, snapshotAt, ratOps, getAt, FrameInfo.zero],
    sequencer_in_bounds ratOps () [(), (), ()] orderedTimeline demoCalls (by decide)⟩

/-! ## Properties of the sequencer: the first effect and the cut -/

theorem getAt_none_of_out {α : Type} (l : List α) (i : Int)
    (h : i < 0 ∨ (l.length : Int) ≤ i) : getAt l i = none := by
  by_cases h0 : 0 ≤ i
  · simp only [getAt, if_pos h0]
    exact List.getElem?_eq_none (by omega)
  · simp [getAt, h0]

/-- C19, the defect.  For every non-empty effects list and every timeline whose first cue
has an `EffectIdx` outside `[0, len(effects))`: `InitFirst` after `NewSequencer` takes
that index as `E0` and indexes the effects list with it without a test, so there is
no state afterwards.  `Update` on the same sequencer goes through and calls effects
at indices of the list only; when it resolves that cue it tests the index and stays
on effect 0. -/
theorem initFirst_out_of_range {F E : Type} (ops : Float64Ops F) (efx : List E)
    (tl : Timeline F) (c : Cue F) (dt : F) (info : FrameInfo) (hne : efx ≠ [])
    (hhead : tl.Cues.head? = some c)
    (hout : c.EffectIdx < 0 ∨ (efx.length : Int) ≤ c.EffectIdx) :
    tl.firstEffect = c.EffectIdx ∧ (NewSequencer ops efx tl).InitFirst = none ∧
    ∃ s1 cs, (NewSequencer ops efx tl).Update ops dt info = some (s1, cs) ∧
      (∀ x ∈ cs, 0 ≤ x.idx ∧ x.idx < (efx.length : Int)) ∧
      (getAt tl.Cues (tl.ActiveCue info) = some c →
        s1.activeIdx = 0 ∧ s1.currentIdx = tl.ActiveCue info ∧ cs = [EffectCall.Update 0]) := by
  have hlen : efx.length > 0 := by
    cases efx with
    | nil => exact absurd rfl hne
    | cons a l => simp
  obtain ⟨rest, hcues⟩ : ∃ rest, tl.Cues = c :: rest := by
    cases hc : tl.Cues with
    | nil =>
      rw [hc] at hhead
      simp at hhead
    | cons a l =>
      rw [hc] at hhead
      simp only [List.head?_cons, Option.some.injEq] at hhead
      exact ⟨l, by rw [hhead]⟩
  have h0 : getAt (c :: rest) 0 = some c := by simp [getAt]
  have hnone : getAt efx c.EffectIdx = none := getAt_none_of_out efx _ hout
  refine ⟨by simp only [Timeline.firstEffect, hcues], ?_, ?_⟩
  · simp [Sequencer.InitFirst, NewSequencer, hlen, hcues, h0, hnone]
  · obtain ⟨s1, cs, hU, _, _, hcs⟩ := update_frame ops (NewSequencer ops efx tl) dt info
    refine ⟨s1, cs, hU, hcs, ?_⟩
    intro hres
    have hge : tl.ActiveCue info ≥ 0 := by
      by_contra hneg
      simp [getAt, hneg] at hres
    have hchg : (NewSequencer ops efx tl).timeline.ActiveCue info ≥ 0 ∧
        (NewSequencer ops efx tl).timeline.ActiveCue info ≠
          (NewSequencer ops efx tl).currentIdx := by
      constructor
      · exact hge
      · show tl.ActiveCue info ≠ -1
        omega
    have hres1 : getAt (NewSequencer ops efx tl).timeline.Cues
        ((NewSequencer ops efx tl).timeline.ActiveCue info) = some c := hres
    have hguard : ¬ (c.EffectIdx ≠ (NewSequencer ops efx tl).activeIdx ∧ c.EffectIdx ≥ 0 ∧
        c.EffectIdx < ((NewSequencer ops efx tl).effects.length : Int)) := by
      intro h
      have h2 : c.EffectIdx < (efx.length : Int) := h.2.2
      omega
    have hact : (0 : Int) ≥ 0 ∧ (0 : Int) < (efx.length : Int) := by omega
    simp only [Sequencer.Update, Sequencer.cueChange, hres1, if_pos hchg, if_neg hguard,
      Option.some.injEq, Prod.mk.injEq] at hU
    obtain ⟨hs, hc⟩ := hU
    subst hs
    subst hc
    simp [Sequencer.advanceFade, Sequencer.updateEffects, NewSequencer, hact]

theorem initFirst_out_of_range_witness :
    twoEffects ≠ [] ∧ strayTimeline.Cues.head? = some (cueAt 0 0 5 "cut") ∧
    ((cueAt 0 0 5 "cut").EffectIdx < 0 ∨
      (twoEffects.length : Int) ≤ (cueAt 0 0 5 "cut").EffectIdx) ∧
    (strayTimeline.firstEffect = (cueAt 0 0 5 "cut").EffectIdx ∧
    (NewSequencer ratOps twoEffects strayTimeline).InitFirst = none ∧
    ∃ s1 cs, (NewSequencer ratOps twoEffects strayTimeline).Update ratOps (1 / 60)
        (snapshotAt 0 0) = some (s1, cs) ∧
      (∀ x ∈ cs, 0 ≤ x.idx ∧ x.idx < (twoEffects.length : Int)) ∧
      (getAt strayTimeline.Cues (strayTimeline.ActiveCue (snapshotAt 0 0)) =
          some (cueAt 0 0 5 "cut") →
        s1.activeIdx = 0 ∧ s1.currentIdx = strayTimeline.ActiveCue (snapshotAt 0 0) ∧
        cs = [EffectCall.Update 0])) :=
  ⟨by decide, by rfl, by decide,
    initFirst_out_of_range ratOps twoEffects strayTimeline (cueAt 0 0 5 "cut") (1 / 60)
      (snapshotAt 0 0) (by decide) (by rfl) (by decide)⟩

/-- The first effect where `InitFirst` does not fail.  For every non-empty effects list
and every timeline whose first cue, if there is one, has its `EffectIdx` in
`[0, len(effects))`: after `NewSequencer` and `InitFirst` the sequencer is idle
(`fading` false, `fadeAlpha` 1.0, `prevIdx` -1, `currentIdx` -1) on the effect `E0`,
the `EffectIdx` of the first cue, or 0 without cues; `Init` has been called exactly
once, on `E0`, and `E0` alone is recorded as initialised. -/
theorem initFirst_idle {F E : Type} (ops : Float64Ops F) (efx : List E) (tl : Timeline F)
    (hne : efx ≠ [])
    (hfirst : ∀ c, tl.Cues.head? = some c → 0 ≤ c.EffectIdx ∧ c.EffectIdx < (efx.length : Int)) :
    ∃ s, (NewSequencer ops efx tl).InitFirst = some (s, [EffectCall.Init tl.firstEffect]) ∧
      s.fading = false ∧ s.fadeAlpha = ops.one ∧ s.prevIdx = -1 ∧ s.currentIdx = -1 ∧
      s.activeIdx = tl.firstEffect ∧
      0 ≤ tl.firstEffect ∧ tl.firstEffect < (efx.length : Int) ∧
      ∀ i, s.initialized i = decide (i = tl.firstEffect) := by
  rcases initFirst_spec (NewSequencer ops efx tl) hfirst with ⟨he, _⟩ | ⟨_, h0, hlt, h⟩
  · exact absurd he hne
  · refine ⟨_, h, rfl, rfl, rfl, rfl, rfl, h0, hlt, ?_⟩
    intro i
    by_cases hi : i = tl.firstEffect
    · subst hi
      simp [NewSequencer]
    · simp [NewSequencer, Function.update, hi]

theorem initFirst_idle_witness :
    ([(), (), ()] : List Unit) ≠ [] ∧
    (∀ c, lateTimeline.Cues.head? = some c →
      0 ≤ c.EffectIdx ∧ c.EffectIdx < (([(), (), ()] : List Unit).length : Int)) ∧
    lateTimeline.firstEffect = 1 ∧
    ∃ s, (NewSequencer ratOps [(), (), ()] lateTimeline).InitFirst =
        some (s, [EffectCall.Init lateTimeline.firstEffect]) ∧
      s.fading = false ∧ s.fadeAlpha = ratOps.one ∧ s.prevIdx = -1 ∧ s.currentIdx = -1 ∧
      s.activeIdx = lateTimeline.firstEffect ∧
      0 ≤ lateTimeline.firstEffect ∧
      lateTimeline.firstEffect < (([(), (), ()] : List Unit).length : Int) ∧
      ∀ i, s.initialized i = decide (i = lateTimeline.firstEffect) :=
  ⟨by decide, by simp [lateTimeline, cueAt], by rfl,
    initFirst_idle ratOps [(), (), ()] lateTimeline (by decide)
      (by simp [lateTimeline, cueAt])⟩

/-- C20. For every sequencer state and every `Update` whose resolved cue differs from the
last resolved cue, has the transition `cut` and targets an effect `T` in range that
is not the active one: afterwards `activeIdx` is `T`, `fading` is false, `fadeAlpha`
is 1.0, `prevIdx` is unchanged, `currentIdx` is the index of the resolved cue, and
`Init` has been called on `T` during that `Update`, also when `T` was recorded as
initialised before. -/
theorem update_cut {F E : Type} (ops : Float64Ops F) (s : Sequencer F E) (dt : F)
    (info : FrameInfo) (cue : Cue F) (T : Int)
    (hcue : getAt s.timeline.Cues (s.timeline.ActiveCue info) = some cue)
    (hnew : s.timeline.ActiveCue info ≠ s.currentIdx)
    (hcut : cue.Transition = "cut") (hT : cue.EffectIdx = T) (hne : T ≠ s.activeIdx)
    (h0 : 0 ≤ T) (hlt : T < (s.effects.length : Int)) :
    ∃ s1 cs, s.Update ops dt info = some (s1, cs) ∧
      s1.activeIdx = T ∧ s1.fading = false ∧ s1.fadeAlpha = ops.one ∧ s1.prevIdx = s.prevIdx ∧
      s1.currentIdx = s.timeline.ActiveCue info ∧ s1.initialized T = true ∧
      EffectCall.Init T ∈ cs := by
  subst hT
  have hnofade : ¬ (cue.Transition = "fade" ∨ cue.Transition = "crossfade") := by
    rw [hcut]
    decide
  rcases cueChange_cases ops s info with ⟨k, hk⟩ | ⟨c, q, cs0, hget, _, _, _, _, _, heq, _, _, hcur, hact, hini, hcs⟩
  · exfalso
    have hge : s.timeline.ActiveCue info ≥ 0 := by
      by_contra hneg
      simp [getAt, hneg] at hcue
    simp only [Sequencer.cueChange, hcue, if_pos (And.intro hge hnew),
      if_pos (And.intro hne (And.intro h0 hlt)), if_neg hnofade] at hk
    have := congrArg (fun r => r.map (fun x => x.2)) hk
    simp at this
  · rw [hcue, Option.some.injEq] at hget
    subst hget
    rcases hcs with ⟨hf, _⟩ | ⟨_, hprev, _, _, halpha, hfading, hcalls⟩
    · exact absurd hf hnofade
    · have hadv : q.advanceFade ops dt = q := advanceFade_idle ops q dt hfading
      refine ⟨q, cs0 ++ q.updateEffects, by simp only [Sequencer.Update, heq, hadv], hact,
        hfading, halpha, hprev, hcur, by rw [hini]; simp, ?_⟩
      rw [hcalls]
      simp

theorem update_cut_witness :
    getAt cutSequencer.timeline.Cues (cutSequencer.timeline.ActiveCue (snapshotAt 1 0)) =
      some (cueAt 1 0 2 "cut") ∧
    cutSequencer.timeline.ActiveCue (snapshotAt 1 0) ≠ cutSequencer.currentIdx ∧
    (cueAt 1 0 2 "cut").Transition = "cut" ∧ (cueAt 1 0 2 "cut").EffectIdx = 2 ∧
    (2 : Int) ≠ cutSequencer.activeIdx ∧ (0 : Int) ≤ 2 ∧
    (2 : Int) < (cutSequencer.effects.length : Int) ∧
    cutSequencer.initialized 2 = true ∧
    (cutSequencer.Update ratOps (1 / 60) (snapshotAt 1 0)).map (fun r => r.2) =
      some [EffectCall.Init 2, EffectCall.Update 2] ∧
    ∃ s1 cs, cutSequencer.Update ratOps (1 / 60) (snapshotAt 1 0) = some (s1, cs) ∧
      s1.activeIdx = 2 ∧ s1.fading = false ∧ s1.fadeAlpha = ratOps.one ∧
      s1.prevIdx = cutSequencer.prevIdx ∧
      s1.currentIdx = cutSequencer.timeline.ActiveCue (snapshotAt 1 0) ∧
      s1.initialized 2 = true ∧ EffectCall.Init 2 ∈ cs :=
  ⟨by rfl, by decide, by rfl, by rfl, by decide, by decide, by decide, by rfl, by rfl,
    update_cut ratOps cutSequencer (1 / 60) (snapshotAt 1 0) (cueAt 1 0 2 "cut") 2
      (by rfl) (by decide) (by rfl) (by rfl) (by decide) (by decide) (by decide)⟩

/-! ## Counting the `Init` calls -/

theorem updateEffects_no_init {F E : Type} (s : Sequencer F E) (e : Int) :
    s.updateEffects.count (EffectCall.Init e) = 0 := by
  rw [List.count_eq_zero]
  intro h
  simp only [Sequencer.updateEffects, List.mem_append] at h
  rcases h with h | h <;> split_ifs at h <;> simp at h

/-- One `Update` and the `Init` calls on the effect `e`: the calls it makes, plus one if `e`
was recorded as initialised before, are one if `e` is recorded afterwards, plus one
if the `Update` is a cut to `e`. -/
theorem update_init_count {F E : Type} (ops : Float64Ops F) (s : Sequencer F E) (dt : F)
    (info : FrameInfo) (e : Int) :
    ∃ s1 cs, s.Update ops dt info = some (s1, cs) ∧
      cs.count (EffectCall.Init e) + (if s.initialized e = true then 1 else 0) =
        (if s1.initialized e = true then 1 else 0) +
          (if s.cutsTo ops dt info e = true then 1 else 0) := by
  rcases cueChange_cases ops s info with ⟨k, hk⟩ |
    ⟨cue, q, cs0, hget, _, _, hTne, _, _, heq, _, _, _, hact, hini, hcs⟩
  · have hU : s.Update ops dt info =
        some (({ s with currentIdx := k } : Sequencer F E).advanceFade ops dt,
          [] ++ (({ s with currentIdx := k } : Sequencer F E).advanceFade ops dt).updateEffects) := by
      simp only [Sequencer.Update, hk]
    obtain ⟨_, _, _, fa, _, fi, _⟩ :=
      advanceFade_frame ops ({ s with currentIdx := k } : Sequencer F E) dt
    have hcut : s.cutsTo ops dt info e = false := by
      simp only [Sequencer.cutsTo, hU]
      cases getAt s.timeline.Cues (s.timeline.ActiveCue info) with
      | none => rfl
      | some c =>
        simp only [decide_eq_false_iff_not, fa]
        intro h
        exact h.2.1 h.1
    refine ⟨_, _, hU, ?_⟩
    rw [List.nil_append, updateEffects_no_init, fi, hcut]
    simp
  · have hU : s.Update ops dt info =
        some (q.advanceFade ops dt, cs0 ++ (q.advanceFade ops dt).updateEffects) := by
      simp only [Sequencer.Update, heq]
    obtain ⟨_, _, _, fa, _, fi, _⟩ := advanceFade_frame ops q dt
    have hcut : s.cutsTo ops dt info e =
        decide (cue.EffectIdx = e ∧ ¬ (cue.Transition = "fade" ∨ cue.Transition = "crossfade")) := by
      simp only [Sequencer.cutsTo, hU, hget, fa, hact]
      by_cases he : cue.EffectIdx = e
      · have : s.activeIdx ≠ e := fun h => hTne (he.trans h.symm)
        simp [he, this]
      · simp [he]
    refine ⟨_, _, hU, ?_⟩
    rw [List.count_append, updateEffects_no_init, fi, hini, hcut]
    by_cases he : cue.EffectIdx = e
    · subst he
      rcases hcs with ⟨hf, _, _, _, _, _, hc⟩ | ⟨hf, _, _, _, _, _, hc⟩
      · rw [hc]
        cases hi : s.initialized cue.EffectIdx <;> simp [hf]
      · rw [hc]
        cases hi : s.initialized cue.EffectIdx <;> simp [hf]
    · have hcount : cs0.count (EffectCall.Init e) = 0 := by
        rw [List.count_eq_zero]
        intro hmem
        rcases hcs with ⟨_, _, _, _, _, _, hc⟩ | ⟨_, _, _, _, _, _, hc⟩
        · rw [hc] at hmem
          split_ifs at hmem <;> simp at hmem
          exact he hmem.symm
        · rw [hc] at hmem
          split_ifs at hmem <;> simp at hmem
          · exact he hmem.symm
          · exact he hmem.symm
      rw [hcount]
      simp [Function.update, Ne.symm he, he]

/-- A sequence of `Update` calls goes through, and the `Init` calls it makes on `e`, plus
one if `e` was recorded as initialised before, are one if `e` is recorded afterwards,
plus the number of cuts to `e`. -/
theorem updates_init_count {F E : Type} (ops : Float64Ops F) (e : Int) :
    ∀ (us : List (F × FrameInfo)) (s : Sequencer F E),
      ∃ s1 cs, Sequencer.updates ops s us = some (s1, cs) ∧
        cs.count (EffectCall.Init e) + (if s.initialized e = true then 1 else 0) =
          (if s1.initialized e = true then 1 else 0) + Sequencer.cutCount ops e s us := by
  intro us
  induction us with
  | nil =>
    intro s
    exact ⟨s, [], rfl, by simp [Sequencer.cutCount]⟩
  | cons u rest ih =>
    intro s
    obtain ⟨dt, info⟩ := u
    obtain ⟨s1, cs1, h1, hc1⟩ := update_init_count ops s dt info e
    obtain ⟨s2, cs2, h2, hc2⟩ := ih s1
    refine ⟨s2, cs1 ++ cs2, by simp only [Sequencer.updates, h1, h2], ?_⟩
    simp only [Sequencer.cutCount, h1, List.count_append]
    omega

/-- C15. For `InitFirst` followed by any sequence of `Update` calls and every effect index
`e`: the `Update` calls go through, the number of `Init` calls on `e` is at most 1
plus the number of cut transitions that made `e` active, and it is at most 1 when no
cut transition made `e` active, however often fades and crossfades did.  A cut is a
transition that is not a fade or a crossfade: the default branch of the switch in
`Update`. -/
theorem init_count_bound {F E : Type} (ops : Float64Ops F) (efx : List E) (tl : Timeline F)
    (us : List (F × FrameInfo)) (e : Int) (s0 : Sequencer F E) (c0 : List EffectCall)
    (h0 : (NewSequencer ops efx tl).InitFirst = some (s0, c0)) :
    ∃ s cs, Sequencer.updates ops s0 us = some (s, cs) ∧
      (c0 ++ cs).count (EffectCall.Init e) ≤ 1 + Sequencer.cutCount ops e s0 us ∧
      (Sequencer.cutCount ops e s0 us = 0 → (c0 ++ cs).count (EffectCall.Init e) ≤ 1) := by
  have hfirst : c0.count (EffectCall.Init e) = (if s0.initialized e = true then 1 else 0) := by
    simp only [Sequencer.InitFirst] at h0
    split_ifs at h0 with h1 h2
    · cases hg : getAt (NewSequencer ops efx tl).timeline.Cues 0 with
      | none =>
        rw [hg] at h0
        simp at h0
      | some cue =>
        rw [hg] at h0
        simp only at h0
        cases hx : getAt (NewSequencer ops efx tl).effects cue.EffectIdx with
        | none =>
          rw [hx] at h0
          simp at h0
        | some x =>
          rw [hx] at h0
          simp only [Option.some.injEq, Prod.mk.injEq] at h0
          obtain ⟨hs, hc⟩ := h0
          subst hs
          subst hc
          by_cases he : cue.EffectIdx = e
          · subst he
            simp
          · have hne : e ≠ cue.EffectIdx := fun h => he h.symm
            simp [NewSequencer, Function.update, he, hne]
    · simp only at h0
      cases hx : getAt (NewSequencer ops efx tl).effects 0 with
      | none =>
        rw [hx] at h0
        simp at h0
      | some x =>
        rw [hx] at h0
        simp only [Option.some.injEq, Prod.mk.injEq] at h0
        obtain ⟨hs, hc⟩ := h0
        subst hs
        subst hc
        by_cases he : (0 : Int) = e
        · subst he
          simp
        · have hne : e ≠ 0 := fun h => he h.symm
          simp [NewSequencer, Function.update, he, hne]
    · simp only [Option.some.injEq, Prod.mk.injEq] at h0
      obtain ⟨hs, hc⟩ := h0
      subst hs
      subst hc
      simp [NewSequencer]
  obtain ⟨s, cs, hU, hcount⟩ := updates_init_count ops e us s0
  refine ⟨s, cs, hU, ?_, ?_⟩
  · rw [List.count_append, hfirst]
    split_ifs at hcount ⊢ <;> omega
  · intro hz
    rw [List.count_append, hfirst]
    split_ifs at hcount ⊢ <;> omega

theorem init_count_bound_witness :
    (NewSequencer ratOps [(), (), ()] cutTimeline).InitFirst =
      some (startedSequencer, [EffectCall.Init 0]) ∧
    (Sequencer.updates ratOps startedSequencer cutUpdates).map (fun r => r.2) =
      some [EffectCall.Update 0, EffectCall.Init 1, EffectCall.Init 1, EffectCall.Update 1,
            EffectCall.Init 0, EffectCall.Update 0, EffectCall.Init 1, EffectCall.Update 1] ∧
    Sequencer.cutCount ratOps 1 startedSequencer cutUpdates = 2 ∧
    ∃ s cs, Sequencer.updates ratOps startedSequencer cutUpdates = some (s, cs) ∧
      ([EffectCall.Init 0] ++ cs).count (EffectCall.Init 1) ≤
        1 + Sequencer.cutCount ratOps 1 startedSequencer cutUpdates ∧
      (Sequencer.cutCount ratOps 1 startedSequencer cutUpdates = 0 →
        ([EffectCall.Init 0] ++ cs).count (EffectCall.Init 1) ≤ 1) :=
  ⟨by rfl, by rfl, by rfl,
    init_count_bound ratOps [(), (), ()] cutTimeline cutUpdates 1 startedSequencer
      [EffectCall.Init 0] (by rfl)⟩

/-! ## The fade advance -/

/-- The cue check of an `Update` whose resolved cue is new and targets an effect in range
that is not the active one: the target becomes active and is recorded as
initialised; a fade or crossfade starts the fade with the timer and `fadeAlpha` at
zero and the duration of the cue, anything else clears the fade. -/
theorem cueChange_transition {F E : Type} (ops : Float64Ops F) (s : Sequencer F E)
    (info : FrameInfo) (cue : Cue F)
    (hcue : getAt s.timeline.Cues (s.timeline.ActiveCue info) = some cue)
    (hnew : s.timeline.ActiveCue info ≠ s.currentIdx)
    (hT : cue.EffectIdx ≠ s.activeIdx ∧ 0 ≤ cue.EffectIdx ∧
      cue.EffectIdx < (s.effects.length : Int)) :
    ∃ s1 cs, s.cueChange ops info = some (s1, cs) ∧
      s1.effects = s.effects ∧ s1.timeline = s.timeline ∧
      s1.currentIdx = s.timeline.ActiveCue info ∧ s1.activeIdx = cue.EffectIdx ∧
      s1.initialized = Function.update s.initialized cue.EffectIdx true ∧
      (((cue.Transition = "fade" ∨ cue.Transition = "crossfade") ∧
          s1.prevIdx = s.activeIdx ∧ s1.fadeDur = cue.FadeDur ∧ s1.fadeTimer = ops.zero ∧
          s1.fadeAlpha = ops.zero ∧ s1.fading = true ∧
          cs = (if s.initialized cue.EffectIdx = false
                  then [EffectCall.Init cue.EffectIdx] else [])) ∨
       (¬ (cue.Transition = "fade" ∨ cue.Transition = "crossfade") ∧
          s1.prevIdx = s.prevIdx ∧ s1.fadeDur = s.fadeDur ∧ s1.fadeTimer = s.fadeTimer ∧
          s1.fadeAlpha = ops.one ∧ s1.fading = false ∧
          cs = (if s.initialized cue.EffectIdx = false
                  then [EffectCall.Init cue.EffectIdx] else []) ++
                [EffectCall.Init cue.EffectIdx])) := by
  rcases cueChange_cases ops s info with ⟨k, hk⟩ |
    ⟨c, q, cs0, hget, _, _, _, _, _, heq, h1, h2, h3, h4, h5, h6⟩
  · exfalso
    have hge : s.timeline.ActiveCue info ≥ 0 := by
      by_contra hneg
      simp [getAt, hneg] at hcue
    simp only [Sequencer.cueChange, hcue, if_pos (And.intro hge hnew), if_pos hT] at hk
    have hact := congrArg (fun r => r.map (fun x => x.1.activeIdx)) hk
    split_ifs at hact <;> simp at hact <;> exact hT.1 hact
  · rw [hcue, Option.some.injEq] at hget
    subst hget
    exact ⟨q, cs0, heq, h1, h2, h3, h4, h5, h6⟩

theorem milliOps_ordered : milliOps.Ordered where
  le_refl := by simp [milliOps]
  le_trans := by
    intro a b c
    simp only [milliOps, decide_eq_true_eq]
    exact le_trans
  le_of_lt := by
    intro a b
    simp only [milliOps, decide_eq_true_eq]
    exact le_of_lt
  lt_iff_not_le := by
    intro a b
    simp [milliOps]
  zero_lt_one := by simp [milliOps]

theorem milliOps_fadeLaws (D : Int) (hD : 0 < D) : milliOps.FadeLaws D where
  add_mono := by
    intro t dt
    simp only [milliOps, decide_eq_true_eq]
    omega
  div_mono := by
    intro a b
    simp only [milliOps, decide_eq_true_eq]
    intro _ hab
    exact Int.ediv_le_ediv hD (by omega)
  div_nonneg := by
    intro a
    simp only [milliOps, decide_eq_true_eq]
    intro ha
    exact Int.ediv_nonneg (by omega) (by omega)
  one_le_div := by
    intro a
    simp only [milliOps, decide_eq_true_eq]
    intro _
    rw [Int.le_ediv_iff_mul_le hD]
    constructor <;> intro h <;> omega

theorem fadeState_le_one {F E : Type} (ops : Float64Ops F) (D acc : F) (q : Sequencer F E)
    (hord : ops.Ordered) (hlaws : ops.FadeLaws D) (h : FadeState ops D acc q) :
    ops.le q.fadeAlpha ops.one = true ∧ (q.fading = true → ops.lt q.fadeAlpha ops.one = true) := by
  obtain ⟨_, hacc, ⟨hf, _, ha, hlt⟩ | ⟨hf, ha, _⟩⟩ := h
  · have h1 : ops.le D acc = false := (hord.lt_iff_not_le _ _).mp hlt
    have h2 : ops.le ops.one (ops.div acc D) = false := by
      cases hx : ops.le ops.one (ops.div acc D)
      · rfl
      · rw [(hlaws.one_le_div acc hacc).mp hx] at h1
        exact absurd h1 (by decide)
    have h3 : ops.lt q.fadeAlpha ops.one = true := by
      rw [ha]
      exact (hord.lt_iff_not_le _ _).mpr h2
    exact ⟨hord.le_of_lt _ _ h3, fun _ => h3⟩
  · rw [ha, hf]
    exact ⟨hord.le_refl _, fun h => absurd h (by decide)⟩

/-- The fade advance of a fade in progress whose timer is `acc`. -/
theorem advanceFade_fading {F E : Type} (ops : Float64Ops F) (D acc dt : F) (q : Sequencer F E)
    (hord : ops.Ordered) (hlaws : ops.FadeLaws D) (hD : ops.lt ops.zero D = true)
    (hf : q.fading = true) (ht : q.fadeTimer = acc) (hd : q.fadeDur = D)
    (hacc : ops.le ops.zero acc = true) (hdt : ops.le ops.zero dt = true) :
    FadeState ops D (ops.add acc dt) (q.advanceFade ops dt) ∧
    (ops.le ops.one (ops.div (ops.add acc dt) D) = true →
      (q.advanceFade ops dt).fadeAlpha = ops.one) ∧
    (ops.le ops.one (ops.div (ops.add acc dt) D) = false →
      (q.advanceFade ops dt).fadeAlpha = ops.div (ops.add acc dt) D) := by
  have hnn : ops.le ops.zero (ops.add acc dt) = true :=
    hord.le_trans _ _ _ hacc (hlaws.add_mono acc dt hacc hdt)
  have hD1 : ops.lt ops.zero q.fadeDur = true := by rw [hd]; exact hD
  by_cases hone : ops.le ops.one (ops.div (ops.add acc dt) D) = true
  · have hres : q.advanceFade ops dt =
        { q with fadeTimer := ops.add acc dt, fadeAlpha := ops.one, fading := false } := by
      simp only [Sequencer.advanceFade, hf, if_true, hD1, hD, ht, hd, hone]
    rw [hres]
    refine ⟨⟨hd, hnn, Or.inr ⟨rfl, rfl, (hlaws.one_le_div _ hnn).mp hone⟩⟩, fun _ => rfl, ?_⟩
    intro h
    rw [hone] at h
    exact absurd h (by decide)
  · have hres : q.advanceFade ops dt =
        { q with fadeTimer := ops.add acc dt, fadeAlpha := ops.div (ops.add acc dt) D } := by
      simp only [Sequencer.advanceFade, hf, if_true, hD1, hD, ht, hd, hone]
      rfl
    rw [hres]
    have hle : ops.le D (ops.add acc dt) = false := by
      cases hx : ops.le D (ops.add acc dt)
      · rfl
      · exact absurd ((hlaws.one_le_div _ hnn).mpr hx) hone
    refine ⟨⟨hd, hnn, Or.inl ⟨hf, rfl, rfl, (hord.lt_iff_not_le _ _).mpr hle⟩⟩, ?_, fun _ => rfl⟩
    intro h
    exact absurd h hone

/-- An `Update` with a delta time that is not negative and without a transition takes the
state of a fade after `acc` to the state after `acc + dt`, and `fadeAlpha` does not
decrease. -/
theorem fadeState_step {F E : Type} (ops : Float64Ops F) (D acc dt : F) (q q1 : Sequencer F E)
    (info : FrameInfo) (cs : List EffectCall)
    (hord : ops.Ordered) (hlaws : ops.FadeLaws D) (hD : ops.lt ops.zero D = true)
    (h : FadeState ops D acc q) (hdt : ops.le ops.zero dt = true)
    (hU : q.Update ops dt info = some (q1, cs)) (hsame : q1.activeIdx = q.activeIdx) :
    FadeState ops D (ops.add acc dt) q1 ∧ ops.le q.fadeAlpha q1.fadeAlpha = true := by
  have hle1 := (fadeState_le_one ops D acc q hord hlaws h).1
  obtain ⟨hd, hacc, hstate⟩ := h
  have hnn : ops.le ops.zero (ops.add acc dt) = true :=
    hord.le_trans _ _ _ hacc (hlaws.add_mono acc dt hacc hdt)
  rcases cueChange_cases ops q info with ⟨k, hk⟩ |
    ⟨cue, r, cs0, _, _, _, hTne, _, _, heq, _, _, _, hact, _, _⟩
  · simp only [Sequencer.Update, hk, Option.some.injEq, Prod.mk.injEq] at hU
    obtain ⟨hq1, _⟩ := hU
    rcases hstate with ⟨hf, ht, ha, hlt⟩ | ⟨hf, ha, hDle⟩
    · obtain ⟨hst, hone, hdiv⟩ := advanceFade_fading ops D acc dt
        ({ q with currentIdx := k } : Sequencer F E) hord hlaws hD hf ht hd hacc hdt
      rw [hq1] at hst hone hdiv
      refine ⟨hst, ?_⟩
      cases hx : ops.le ops.one (ops.div (ops.add acc dt) D)
      · rw [hdiv hx, ha]
        exact hlaws.div_mono _ _ hacc (hlaws.add_mono acc dt hacc hdt)
      · rw [hone hx]
        exact hle1
    · have hidle : ({ q with currentIdx := k } : Sequencer F E).advanceFade ops dt =
          { q with currentIdx := k } := advanceFade_idle ops _ dt hf
      rw [hidle] at hq1
      subst hq1
      refine ⟨⟨hd, hnn, Or.inr ⟨hf, ha, ?_⟩⟩, hord.le_refl _⟩
      exact hord.le_trans _ _ _ hDle (hlaws.add_mono acc dt hacc hdt)
  · exfalso
    simp only [Sequencer.Update, heq, Option.some.injEq, Prod.mk.injEq] at hU
    obtain ⟨hq1, _⟩ := hU
    have := (advanceFade_frame ops r dt).2.2.2.1
    rw [hq1] at this
    exact hTne (by rw [← hact, ← this, hsame])

/-- A sequence of `Update` calls without a transition, with delta times that are not
negative, takes the state of a fade after `acc` to the state after `acc` plus the
delta times. -/
theorem fadeState_updates {F E : Type} (ops : Float64Ops F) (D : F)
    (hord : ops.Ordered) (hlaws : ops.FadeLaws D) (hD : ops.lt ops.zero D = true) :
    ∀ (us : List (F × FrameInfo)) (acc : F) (q : Sequencer F E),
      FadeState ops D acc q → Sequencer.steady ops q us →
      (∀ u ∈ us, ops.le ops.zero u.1 = true) →
      ∃ q1 cs, Sequencer.updates ops q us = some (q1, cs) ∧
        FadeState ops D ((us.map Prod.fst).foldl ops.add acc) q1 := by
  intro us
  induction us with
  | nil =>
    intro acc q h _ _
    exact ⟨q, [], rfl, h⟩
  | cons u rest ih =>
    intro acc q h hsteady hdts
    obtain ⟨dt, info⟩ := u
    simp only [Sequencer.steady] at hsteady
    cases hU : q.Update ops dt info with
    | none =>
      rw [hU] at hsteady
      exact absurd hsteady (by simp)
    | some r =>
      obtain ⟨q1, cs1⟩ := r
      rw [hU] at hsteady
      obtain ⟨hsame, hrest⟩ := hsteady
      have hdt : ops.le ops.zero dt = true := hdts (dt, info) (List.mem_cons_self _ _)
      obtain ⟨hst, _⟩ := fadeState_step ops D acc dt q q1 info cs1 hord hlaws hD h hdt hU hsame
      obtain ⟨q2, cs2, h2, hst2⟩ :=
        ih (ops.add acc dt) q1 hst hrest (fun u hu => hdts u (List.mem_cons_of_mem _ hu))
      exact ⟨q2, cs1 ++ cs2, by simp only [Sequencer.updates, hU, h2], hst2⟩

theorem steady_append {F E : Type} (ops : Float64Ops F) :
    ∀ (us vs : List (F × FrameInfo)) (q : Sequencer F E),
      Sequencer.steady ops q (us ++ vs) →
      Sequencer.steady ops q us ∧
      ∀ q1 cs, Sequencer.updates ops q us = some (q1, cs) → Sequencer.steady ops q1 vs := by
  intro us
  induction us with
  | nil =>
    intro vs q h
    refine ⟨trivial, ?_⟩
    intro q1 cs hq
    simp only [Sequencer.updates, Option.some.injEq, Prod.mk.injEq] at hq
    rw [← hq.1]
    exact h
  | cons u rest ih =>
    intro vs q h
    obtain ⟨dt, info⟩ := u
    simp only [List.cons_append, Sequencer.steady] at h ⊢
    cases hU : q.Update ops dt info with
    | none =>
      rw [hU] at h
      exact absurd h (by simp)
    | some r =>
      obtain ⟨q1, cs1⟩ := r
      rw [hU] at h
      obtain ⟨hsame, hrest⟩ := h
      obtain ⟨h1, h2⟩ := ih vs q1 hrest
      refine ⟨⟨hsame, h1⟩, ?_⟩
      intro q2 cs hq
      simp only [Sequencer.updates, hU] at hq
      cases hR : Sequencer.updates ops q1 rest with
      | none =>
        rw [hR] at hq
        simp at hq
      | some r2 =>
        obtain ⟨q3, cs3⟩ := r2
        rw [hR] at hq
        simp only [Option.some.injEq, Prod.mk.injEq] at hq
        rw [← hq.1]
        exact h2 q3 cs3 hR

/-! ## Properties of the sequencer: the fade -/

/-- C16. A fade of duration `D > 0` is started by an `Update` whose resolved cue is new, is
a fade or crossfade of duration `D` and targets an effect in range that is not the
active one.  Take any sequence `us` of later `Update` calls, and one more, with
delta times that are not negative and without a transition.  After `us`,
`fadeAlpha` is at most 1.0; as long as the delta times since the start of the fade
add up to less than `D`, the fade is in progress and `fadeAlpha` is their sum
divided by `D`, below 1.0; once they add up to `D` or more, `fading` is false and
`fadeAlpha` is exactly 1.0; and the next `Update` does not decrease `fadeAlpha`.
The float64 operations are assumed to have the laws `Ordered` and `FadeLaws`. -/
theorem fade_progress {F E : Type} (ops : Float64Ops F) (D : F) (s : Sequencer F E)
    (dt0 : F) (info0 : FrameInfo) (cue : Cue F) (q0 : Sequencer F E) (c0 : List EffectCall)
    (us : List (F × FrameInfo)) (dt : F) (info : FrameInfo)
    (hord : ops.Ordered) (hlaws : ops.FadeLaws D) (hD : ops.lt ops.zero D = true)
    (hcue : getAt s.timeline.Cues (s.timeline.ActiveCue info0) = some cue)
    (hnew : s.timeline.ActiveCue info0 ≠ s.currentIdx)
    (hT : cue.EffectIdx ≠ s.activeIdx ∧ 0 ≤ cue.EffectIdx ∧
      cue.EffectIdx < (s.effects.length : Int))
    (hfade : cue.Transition = "fade" ∨ cue.Transition = "crossfade")
    (hdur : cue.FadeDur = D)
    (hfirst : s.Update ops dt0 info0 = some (q0, c0))
    (hsteady : Sequencer.steady ops q0 (us ++ [(dt, info)]))
    (hdt0 : ops.le ops.zero dt0 = true) (hdts : ∀ u ∈ us, ops.le ops.zero u.1 = true)
    (hdt : ops.le ops.zero dt = true) :
    ∃ q cs q1 cs1, Sequencer.updates ops q0 us = some (q, cs) ∧
      q.Update ops dt info = some (q1, cs1) ∧
      ops.le q.fadeAlpha ops.one = true ∧
      (ops.lt (accumulated ops (dt0 :: us.map Prod.fst)) D = true →
        q.fading = true ∧ ops.lt q.fadeAlpha ops.one = true ∧
        q.fadeAlpha = ops.div (accumulated ops (dt0 :: us.map Prod.fst)) D) ∧
      (ops.le D (accumulated ops (dt0 :: us.map Prod.fst)) = true →
        q.fading = false ∧ q.fadeAlpha = ops.one) ∧
      ops.le q.fadeAlpha q1.fadeAlpha = true := by
  obtain ⟨sf, cs0, heq, _, _, _, _, _, hbranch⟩ := cueChange_transition ops s info0 cue hcue hnew hT
  rcases hbranch with ⟨_, _, hfd, hft, _, hff, _⟩ | ⟨hno, _⟩
  · simp only [Sequencer.Update, heq, Option.some.injEq, Prod.mk.injEq] at hfirst
    obtain ⟨hq0, _⟩ := hfirst
    obtain ⟨hst0, _, _⟩ := advanceFade_fading ops D ops.zero dt0 sf hord hlaws hD hff hft
      (hfd.trans hdur) (hord.le_refl _) hdt0
    rw [hq0] at hst0
    obtain ⟨hs1, hs2⟩ := steady_append ops us [(dt, info)] q0 hsteady
    obtain ⟨q, cs, hq, hst⟩ := fadeState_updates ops D hord hlaws hD us _ q0 hst0 hs1 hdts
    have hlast := hs2 q cs hq
    simp only [Sequencer.steady] at hlast
    cases hU : q.Update ops dt info with
    | none =>
      rw [hU] at hlast
      exact absurd hlast (by simp)
    | some r =>
      obtain ⟨q1, cs1⟩ := r
      rw [hU] at hlast
      obtain ⟨_, hmono⟩ := fadeState_step ops D _ dt q q1 info cs1 hord hlaws hD hst hdt hU hlast.1
      obtain ⟨hle1, hlt1⟩ := fadeState_le_one ops D _ q hord hlaws hst
      have hacc : accumulated ops (dt0 :: us.map Prod.fst) =
          (us.map Prod.fst).foldl ops.add (ops.add ops.zero dt0) := rfl
      refine ⟨q, cs, q1, cs1, hq, hU, hle1, ?_, ?_, hmono⟩
      · intro hlt
        rw [hacc] at hlt ⊢
        obtain ⟨_, _, ⟨hf, _, ha, _⟩ | ⟨_, _, hDle⟩⟩ := hst
        · exact ⟨hf, hlt1 hf, ha⟩
        · rw [(hord.lt_iff_not_le _ _).mp hlt] at hDle
          exact absurd hDle (by decide)
      · intro hDle
        rw [hacc] at hDle
        obtain ⟨_, _, ⟨_, _, _, hlt⟩ | ⟨hf, ha, _⟩⟩ := hst
        · rw [(hord.lt_iff_not_le _ _).mp hlt] at hDle
          exact absurd hDle (by decide)
        · exact ⟨hf, ha⟩
  · exact absurd hfade hno

theorem fade_progress_witness :
    milliOps.lt milliOps.zero 2000 = true ∧
    fadeSequencer.Update milliOps 500 (snapshotAt 2 0) =
      some (fadeStarted, [EffectCall.Init 1, EffectCall.Update 1, EffectCall.Update 0]) ∧
    Sequencer.steady milliOps fadeStarted (fadeUpdates ++ [(500, snapshotAt 2 3)]) ∧
    accumulated milliOps (500 :: fadeUpdates.map Prod.fst) = 2000 ∧
    (Sequencer.updates milliOps fadeStarted fadeUpdates).map
        (fun r => (r.1.fading, r.1.fadeAlpha)) = some (false, 1000) ∧
    (Sequencer.updates milliOps fadeStarted (fadeUpdates.take 2)).map
        (fun r => (r.1.fading, r.1.fadeAlpha)) = some (true, 750) ∧
    ∃ q cs q1 cs1, Sequencer.updates milliOps fadeStarted fadeUpdates = some (q, cs) ∧
      q.Update milliOps 500 (snapshotAt 2 3) = some (q1, cs1) ∧
      milliOps.le q.fadeAlpha milliOps.one = true ∧
      (milliOps.lt (accumulated milliOps (500 :: fadeUpdates.map Prod.fst)) 2000 = true →
        q.fading = true ∧ milliOps.lt q.fadeAlpha milliOps.one = true ∧
        q.fadeAlpha = milliOps.div (accumulated milliOps (500 :: fadeUpdates.map Prod.fst)) 2000) ∧
      (milliOps.le 2000 (accumulated milliOps (500 :: fadeUpdates.map Prod.fst)) = true →
        q.fading = false ∧ q.fadeAlpha = milliOps.one) ∧
      milliOps.le q.fadeAlpha q1.fadeAlpha = true :=
  ⟨by decide, by rfl, ⟨rfl, rfl, rfl, rfl, trivial⟩, by decide, by rfl, by rfl,
    fade_progress milliOps 2000 fadeSequencer 500 (snapshotAt 2 0)
      { Pos := { Order := 2, Row := 0 }, EffectIdx := 1, Transition := "fade", FadeDur := 2000 }
      fadeStarted [EffectCall.Init 1, EffectCall.Update 1, EffectCall.Update 0]
      fadeUpdates 500 (snapshotAt 2 3)
      milliOps_ordered (milliOps_fadeLaws 2000 (by decide)) (by decide) (by rfl) (by decide)
      (by decide) (by decide) (by rfl) (by rfl) ⟨rfl, rfl, rfl, rfl, trivial⟩ (by decide)
      (by decide) (by decide)⟩

/-! ## The fade transition -/

/-- The cue check of an `Update` whose resolved cue is new, is a fade or a crossfade and
targets an effect in range that is not the active one: the state afterwards is
`fadeStart`, and `Init` is called on the target if it was not recorded. -/
theorem cueChange_fadeStart {F E : Type} (ops : Float64Ops F) (s : Sequencer F E)
    (info : FrameInfo) (cue : Cue F)
    (hcue : getAt s.timeline.Cues (s.timeline.ActiveCue info) = some cue)
    (hnew : s.timeline.ActiveCue info ≠ s.currentIdx)
    (hfade : cue.Transition = "fade" ∨ cue.Transition = "crossfade")
    (hT : cue.EffectIdx ≠ s.activeIdx ∧ 0 ≤ cue.EffectIdx ∧
      cue.EffectIdx < (s.effects.length : Int)) :
    s.cueChange ops info =
      some (s.fadeStart ops (s.timeline.ActiveCue info) cue.EffectIdx cue.FadeDur,
            if s.initialized cue.EffectIdx = false then [EffectCall.Init cue.EffectIdx] else []) := by
  have hge : s.timeline.ActiveCue info ≥ 0 := by
    by_contra hneg
    simp [getAt, hneg] at hcue
  have hnew1 : cue.EffectIdx ≠ s.activeIdx ∧ cue.EffectIdx ≥ 0 ∧
      cue.EffectIdx < (s.effects.length : Int) := hT
  by_cases hinit : s.initialized cue.EffectIdx = false
  · simp only [Sequencer.cueChange, hcue, if_pos (And.intro hge hnew), if_pos hnew1, if_pos hinit,
      if_pos hfade]
    rfl
  · have htrue : s.initialized cue.EffectIdx = true := by
      cases h : s.initialized cue.EffectIdx
      · exact absurd h hinit
      · rfl
    have hupd : Function.update s.initialized cue.EffectIdx true = s.initialized := by
      funext i
      by_cases hi : i = cue.EffectIdx
      · subst hi
        simp [htrue]
      · simp [Function.update, hi]
    simp only [Sequencer.cueChange, hcue, if_pos (And.intro hge hnew), if_pos hnew1, if_neg hinit,
      if_pos hfade, Sequencer.fadeStart, hupd]

/-! ## Properties of the sequencer: the fade transition -/

/-- C21. For every sequencer state and every `Update` whose resolved cue differs from the
last resolved cue, is a `fade` or a `crossfade` and targets an effect `T` in range
that is not the active effect `A`: the cue check of that `Update` sets `prevIdx = A`,
`activeIdx = T`, `fadeDur` to the `FadeDur` of the cue, `fadeTimer = 0`,
`fadeAlpha = 0` and `fading = true`, and the fade advance of the tick is applied to
that state.  The state is `fadeStart`, in which the kind of the transition does not
occur: a state that differs in the timeline only and resolves, at the same index, a
cue of either kind with the same target and duration is taken to the same state up
to the timeline, with the same calls. -/
theorem fade_transition {F E : Type} (ops : Float64Ops F) (s : Sequencer F E) (dt : F)
    (info : FrameInfo) (cue : Cue F) (T : Int)
    (hcue : getAt s.timeline.Cues (s.timeline.ActiveCue info) = some cue)
    (hnew : s.timeline.ActiveCue info ≠ s.currentIdx)
    (hfade : cue.Transition = "fade" ∨ cue.Transition = "crossfade")
    (hT : cue.EffectIdx = T) (hne : T ≠ s.activeIdx)
    (h0 : 0 ≤ T) (hlt : T < (s.effects.length : Int)) :
    ∃ s1 cs, s.cueChange ops info = some (s1, cs) ∧
      s.Update ops dt info =
        some (s1.advanceFade ops dt, cs ++ (s1.advanceFade ops dt).updateEffects) ∧
      s1.prevIdx = s.activeIdx ∧ s1.activeIdx = T ∧ s1.fadeDur = cue.FadeDur ∧
      s1.fadeTimer = ops.zero ∧ s1.fadeAlpha = ops.zero ∧ s1.fading = true ∧
      s1 = s.fadeStart ops (s.timeline.ActiveCue info) T cue.FadeDur ∧
      ∀ (s2 : Sequencer F E) (info2 : FrameInfo) (cue2 : Cue F),
        ({ s2 with timeline := s.timeline } : Sequencer F E) = s →
        s2.timeline.ActiveCue info2 = s.timeline.ActiveCue info →
        getAt s2.timeline.Cues (s2.timeline.ActiveCue info2) = some cue2 →
        (cue2.Transition = "fade" ∨ cue2.Transition = "crossfade") →
        cue2.EffectIdx = T → cue2.FadeDur = cue.FadeDur →
        ∃ s3, s2.cueChange ops info2 = some (s3, cs) ∧
          ({ s3 with timeline := s.timeline } : Sequencer F E) = s1 := by
  subst hT
  have heq := cueChange_fadeStart ops s info cue hcue hnew hfade ⟨hne, h0, hlt⟩
  refine ⟨s.fadeStart ops (s.timeline.ActiveCue info) cue.EffectIdx cue.FadeDur,
    if s.initialized cue.EffectIdx = false then [EffectCall.Init cue.EffectIdx] else [],
    heq, by simp only [Sequencer.Update, heq], rfl, rfl, rfl, rfl, rfl, rfl, rfl, ?_⟩
  intro s2 info2 cue2 hsame hidx hcue2 hfade2 hT2 hD2
  have hcur : s2.currentIdx = s.currentIdx := by
    have h := congrArg Sequencer.currentIdx hsame
    exact h
  have hact : s2.activeIdx = s.activeIdx := by
    have h := congrArg Sequencer.activeIdx hsame
    exact h
  have heff : s2.effects = s.effects := by
    have h := congrArg Sequencer.effects hsame
    exact h
  have hini : s2.initialized = s.initialized := by
    have h := congrArg Sequencer.initialized hsame
    exact h
  have heq2 := cueChange_fadeStart ops s2 info2 cue2 hcue2 (by rw [hidx, hcur]; exact hnew)
    hfade2 (by rw [hT2, hact, heff]; exact ⟨hne, h0, hlt⟩)
  rw [hT2, hD2, hidx, hini] at heq2
  refine ⟨_, heq2, ?_⟩
  show ({ s2 with timeline := s.timeline } : Sequencer F E).fadeStart ops
      (s.timeline.ActiveCue info) cue.EffectIdx cue.FadeDur = _
  rw [hsame]

theorem fade_transition_witness :
    getAt fadeSequencer.timeline.Cues (fadeSequencer.timeline.ActiveCue (snapshotAt 2 0)) =
      some { Pos := { Order := 2, Row := 0 }, EffectIdx := 1, Transition := "fade",
             FadeDur := 2000 } ∧
    fadeSequencer.timeline.ActiveCue (snapshotAt 2 0) ≠ fadeSequencer.currentIdx ∧
    (1 : Int) ≠ fadeSequencer.activeIdx ∧ (0 : Int) ≤ 1 ∧
    (1 : Int) < (fadeSequencer.effects.length : Int) ∧
    (fadeSequencer.cueChange milliOps (snapshotAt 2 0)).map
        (fun r => (r.1.prevIdx, r.1.activeIdx, r.1.fadeDur, r.1.fadeTimer, r.1.fadeAlpha,
          r.1.fading, r.2)) =
      some (0, 1, 2000, 0, 0, true, [EffectCall.Init 1]) ∧
    (({ fadeSequencer with timeline := crossfadeTimeline } : Sequencer Int Unit).cueChange
        milliOps (snapshotAt 2 0)).map
        (fun r => (r.1.prevIdx, r.1.activeIdx, r.1.fadeDur, r.1.fadeTimer, r.1.fadeAlpha,
          r.1.fading, r.2)) =
      some (0, 1, 2000, 0, 0, true, [EffectCall.Init 1]) ∧
    ∃ s1 cs, fadeSequencer.cueChange milliOps (snapshotAt 2 0) = some (s1, cs) ∧
      fadeSequencer.Update milliOps 500 (snapshotAt 2 0) =
        some (s1.advanceFade milliOps 500, cs ++ (s1.advanceFade milliOps 500).updateEffects) ∧
      s1.prevIdx = fadeSequencer.activeIdx ∧ s1.activeIdx = 1 ∧ s1.fadeDur = 2000 ∧
      s1.fadeTimer = milliOps.zero ∧ s1.fadeAlpha = milliOps.zero ∧ s1.fading = true ∧
      s1 = fadeSequencer.fadeStart milliOps
        (fadeSequencer.timeline.ActiveCue (snapshotAt 2 0)) 1 2000 ∧
      ∀ (s2 : Sequencer Int Unit) (info2 : FrameInfo) (cue2 : Cue Int),
        ({ s2 with timeline := fadeSequencer.timeline } : Sequencer Int Unit) = fadeSequencer →
        s2.timeline.ActiveCue info2 = fadeSequencer.timeline.ActiveCue (snapshotAt 2 0) →
        getAt s2.timeline.Cues (s2.timeline.ActiveCue info2) = some cue2 →
        (cue2.Transition = "fade" ∨ cue2.Transition = "crossfade") →
        cue2.EffectIdx = 1 → cue2.FadeDur = 2000 →
        ∃ s3, s2.cueChange milliOps info2 = some (s3, cs) ∧
          ({ s3 with timeline := fadeSequencer.timeline } : Sequencer Int Unit) = s1 :=
  ⟨by rfl, by decide, by decide, by decide, by decide, by rfl, by rfl,
    fade_transition milliOps fadeSequencer 500 (snapshotAt 2 0)
      { Pos := { Order := 2, Row := 0 }, EffectIdx := 1, Transition := "fade", FadeDur := 2000 }
      1 (by rfl) (by decide) (by decide) (by rfl) (by decide) (by decide) (by decide)⟩

/-! ## Properties of `Draw` -/

/-- The blend loop over the pixel indices `idxs`: a pixel whose index is in `idxs` gets the
pixel of the previous effect when `low` holds, every other pixel stays. -/
theorem blendLoop_spec {n : Nat} (low : Bool) (prev : Fin n → Music.Byte) :
    ∀ (idxs : List (Fin n)) (px : Fin n → Music.Byte) (i : Fin n),
      blendLoop low prev idxs px i = if low = true ∧ i ∈ idxs then prev i else px i := by
  intro idxs
  induction idxs with
  | nil =>
    intro px i
    simp [blendLoop]
  | cons j rest ih =>
    intro px i
    simp only [blendLoop, ih]
    by_cases hlow : low = true
    · by_cases hrest : i ∈ rest
      · simp [hlow, hrest]
      · by_cases hij : i = j
        · subst hij
          simp [hlow, hrest]
        · simp [hlow, hrest, hij, Function.update]
    · simp [hlow]

/-- C22. For every sequencer state whose `activeIdx` and `prevIdx` are in range: when not
fading, `Draw` draws the active effect into the target framebuffer and nothing else.
When fading, it draws the previous effect into a scratch framebuffer of zero pixels
with the palette of the target, then the active effect into the target, and
afterwards every pixel `i` of the target is the pixel `i` that the previous effect
drew if `fadeAlpha < 0.5`, and the pixel `i` that the active effect drew otherwise. -/
theorem draw_composite {F E P : Type} {n : Nat} (ops : Float64Ops F) (pal0 : P)
    (paint : Nat → Int → Framebuffer n P → Framebuffer n P) (s : Sequencer F E)
    (fb : Framebuffer n P)
    (hact : 0 ≤ s.activeIdx ∧ s.activeIdx < (s.effects.length : Int))
    (hprev : 0 ≤ s.prevIdx ∧ s.prevIdx < (s.effects.length : Int)) :
    (s.fading = false →
      s.Draw ops pal0 paint fb = (paint 0 s.activeIdx fb, [EffectCall.Draw s.activeIdx])) ∧
    (s.fading = true →
      (s.Draw ops pal0 paint fb).2 = [EffectCall.Draw s.prevIdx, EffectCall.Draw s.activeIdx] ∧
      (s.Draw ops pal0 paint fb).1.Palette = (paint 1 s.activeIdx fb).Palette ∧
      ∀ i : Fin n, (s.Draw ops pal0 paint fb).1.Pixels i =
        if ops.lt s.fadeAlpha ops.half = true then
          (paint 0 s.prevIdx { Pixels := fun _ => 0, Palette := fb.Palette }).Pixels i
        else (paint 1 s.activeIdx fb).Pixels i) := by
  have hact1 : s.activeIdx ≥ 0 ∧ s.activeIdx < (s.effects.length : Int) := hact
  have hprev1 : s.prevIdx ≥ 0 ∧ s.prevIdx < (s.effects.length : Int) := hprev
  constructor
  · intro hf
    simp only [Sequencer.Draw, hf, if_true, if_pos hact1]
  · intro hf
    have hnf : ¬ (s.fading = false) := by
      rw [hf]
      decide
    simp only [Sequencer.Draw, if_neg hnf, if_pos hact1, if_pos hprev1, Framebuffer.zero,
      List.length_singleton, List.singleton_append]
    refine ⟨trivial, trivial, ?_⟩
    intro i
    rw [blendLoop_spec]
    simp [List.mem_finRange]

theorem draw_composite_witness :
    (0 ≤ fadeStarted.activeIdx ∧ fadeStarted.activeIdx < (fadeStarted.effects.length : Int)) ∧
    (0 ≤ fadeStarted.prevIdx ∧ fadeStarted.prevIdx < (fadeStarted.effects.length : Int)) ∧
    fadeStarted.fading = true ∧ milliOps.lt fadeStarted.fadeAlpha milliOps.half = true ∧
    (fadeStarted.Draw milliOps () demoPaint (Framebuffer.zero ())).1.Pixels 2 = 10 ∧
    (fadeHalfway.Draw milliOps () demoPaint (Framebuffer.zero ())).1.Pixels 2 = 20 ∧
    ((fadeStarted.fading = false →
      fadeStarted.Draw milliOps () demoPaint (Framebuffer.zero ()) =
        (demoPaint 0 fadeStarted.activeIdx (Framebuffer.zero ()),
          [EffectCall.Draw fadeStarted.activeIdx])) ∧
    (fadeStarted.fading = true →
      (fadeStarted.Draw milliOps () demoPaint (Framebuffer.zero ())).2 =
        [EffectCall.Draw fadeStarted.prevIdx, EffectCall.Draw fadeStarted.activeIdx] ∧
      (fadeStarted.Draw milliOps () demoPaint (Framebuffer.zero ())).1.Palette =
        (demoPaint 1 fadeStarted.activeIdx (Framebuffer.zero ())).Palette ∧
      ∀ i : Fin 4, (fadeStarted.Draw milliOps () demoPaint (Framebuffer.zero ())).1.Pixels i =
        if milliOps.lt fadeStarted.fadeAlpha milliOps.half = true then
          (demoPaint 0 fadeStarted.prevIdx
            { Pixels := fun _ => 0,
              Palette := (Framebuffer.zero () : Framebuffer 4 Unit).Palette }).Pixels i
        else (demoPaint 1 fadeStarted.activeIdx (Framebuffer.zero ())).Pixels i)) :=
  ⟨by decide, by decide, by rfl, by decide, by rfl, by rfl,
    draw_composite milliOps () demoPaint fadeStarted (Framebuffer.zero ()) (by decide)
      (by decide)⟩

/-! ## Properties of cue resolution: the greatest index -/

theorem cueMatches_qualifies {F : Type} (info : FrameInfo) (c : Cue F) :
    cueMatches info c = true ↔ qualifies info c := by
  simp only [cueMatches, decide_eq_true_eq, qualifies]

theorem mem_of_getAt {α : Type} (l : List α) (k : Int) (x : α) (h : getAt l k = some x) :
    0 ≤ k ∧ l[k.toNat]? = some x ∧ x ∈ l := by
  by_cases hk : 0 ≤ k
  · simp only [getAt, if_pos hk] at h
    exact ⟨hk, h, List.mem_iff_getElem?.mpr ⟨_, h⟩⟩
  · simp [getAt, hk] at h

/-- The result of `ActiveCue` is the greatest list index of a qualifying cue, or -1. -/
theorem activeCue_greatestQualifying {F : Type} (t : Timeline F) (info : FrameInfo) :
    GreatestQualifying t info (t.ActiveCue info) := by
  rcases activeCue_spec t info with ⟨hk, hnone⟩ | ⟨j, c, hk, hc, hm, hlast⟩
  · left
    refine ⟨hk, ?_⟩
    intro c hc hq
    obtain ⟨n, hn⟩ := List.mem_iff_getElem?.mp hc
    have := hnone n c hn
    rw [(cueMatches_qualifies info c).mpr hq] at this
    exact absurd this (by decide)
  · right
    rw [hk]
    refine ⟨by omega, c, by rw [getAt_natCast]; exact hc, (cueMatches_qualifies info c).mp hm, ?_⟩
    intro j2 d hlt hd hq
    obtain ⟨h0, hget, _⟩ := mem_of_getAt _ _ _ hd
    have := hlast j2.toNat d (by omega) hget
    rw [(cueMatches_qualifies info d).mpr hq] at this
    exact absurd this (by decide)

/-- At most one index is the greatest list index of a qualifying cue, or -1. -/
theorem greatestQualifying_unique {F : Type} (t : Timeline F) (info : FrameInfo) (k1 k2 : Int)
    (h1 : GreatestQualifying t info k1) (h2 : GreatestQualifying t info k2) : k1 = k2 := by
  rcases h1 with ⟨e1, n1⟩ | ⟨p1, c1, g1, q1, l1⟩
  · rcases h2 with ⟨e2, _⟩ | ⟨_, c2, g2, q2, _⟩
    · rw [e1, e2]
    · exact absurd q2 (n1 c2 (mem_of_getAt _ _ _ g2).2.2)
  · rcases h2 with ⟨_, n2⟩ | ⟨p2, c2, g2, q2, l2⟩
    · exact absurd q1 (n2 c1 (mem_of_getAt _ _ _ g1).2.2)
    · rcases lt_trichotomy k1 k2 with h | h | h
      · exact absurd q2 (l1 k2 c2 h g2)
      · exact h
      · exact absurd q1 (l2 k1 c1 h g1)

/-- C23. For every cue list and snapshot, `ActiveCue` returns `k` exactly when `k` is the
greatest list index of a cue that qualifies, or -1 with no cue qualifying: the
thresholds play no part in which of the qualifying cues wins.  When the list is
sorted by non-decreasing threshold, the cue at the returned index qualifies and no
qualifying cue has a later threshold. -/
theorem activeCue_greatest {F : Type} (t : Timeline F) (info : FrameInfo) :
    (∀ k : Int, t.ActiveCue info = k ↔ GreatestQualifying t info k) ∧
    (t.Sorted → ∀ c, getAt t.Cues (t.ActiveCue info) = some c →
      qualifies info c ∧ ∀ d ∈ t.Cues, qualifies info d → d.Pos.le c.Pos) := by
  have hgq := activeCue_greatestQualifying t info
  refine ⟨fun k => ⟨fun h => by rw [← h]; exact hgq,
    fun h => greatestQualifying_unique t info _ _ hgq h⟩, ?_⟩
  intro hsorted c hc
  rcases hgq with ⟨e, _⟩ | ⟨h0, c1, g1, q1, l1⟩
  · rw [e] at hc
    simp [getAt] at hc
  · rw [hc, Option.some.injEq] at g1
    subst g1
    refine ⟨q1, ?_⟩
    intro d hd hq
    obtain ⟨m, hm⟩ := List.mem_iff_getElem?.mp hd
    obtain ⟨_, hcj, _⟩ := mem_of_getAt _ _ _ hc
    have hmj : m ≤ (t.ActiveCue info).toNat := by
      by_contra hgt
      exact l1 (m : Int) d (by omega) (by rw [getAt_natCast]; exact hm) hq
    obtain ⟨hm1, hm2⟩ := List.getElem?_eq_some.mp hm
    obtain ⟨hj1, hj2⟩ := List.getElem?_eq_some.mp hcj
    rcases Nat.lt_or_eq_of_le hmj with hlt | heq
    · have := List.pairwise_iff_getElem.mp hsorted m _ hm1 hj1 hlt
      rw [hm2, hj2] at this
      exact this
    · have hdc : d = c := by
        rw [← hm2, ← hj2]
        simp only [heq]
      rw [hdc]
      exact Position.le_refl _

theorem activeCue_greatest_witness :
    unorderedTimeline.ActiveCue (snapshotAt 3 0) = 1 ∧
    orderedTimeline.ActiveCue (snapshotAt 1 5) = 1 ∧ orderedTimeline.Sorted ∧
    ((∀ k : Int, orderedTimeline.ActiveCue (snapshotAt 1 5) = k ↔
        GreatestQualifying orderedTimeline (snapshotAt 1 5) k) ∧
    (orderedTimeline.Sorted →
      ∀ c, getAt orderedTimeline.Cues (orderedTimeline.ActiveCue (snapshotAt 1 5)) = some c →
        qualifies (snapshotAt 1 5) c ∧
        ∀ d ∈ orderedTimeline.Cues, qualifies (snapshotAt 1 5) d → d.Pos.le c.Pos)) :=
  ⟨by decide, by decide, by decide, activeCue_greatest orderedTimeline (snapshotAt 1 5)⟩

end Sync
